import Mathlib

/-!
# Atheme services: object lifecycle, metadata store and the OpenSEX flat-file backend

A shallow embedding of `libathemecore/object.c` and `modules/backend/opensex.c`.

* C strings are `List Char`: the characters in front of the terminator.
* The heap block of the line buffer is a `List Char` whose length is the
  allocated size; pointers into it are offsets.
* `unsigned int` arithmetic of the line reader is taken modulo `2 ^ 32`.
* The reference count is a C `int`: its increments and decrements wrap at 32
  bits. A call on an envelope whose block has been released is a use after
  free and has no result (`none`).
* Calls into the operating system (open, rename) take their outcome as an
  argument.
-/

set_option autoImplicit false

namespace Atheme

/-! ## libc -/

/-- The string terminator, the character with code 0. -/
def NUL : Char := Char.ofNat 0

/-- The C string stored in `mem` from offset `p` on: the characters in front of
the first terminator. -/
def cstr (mem : List Char) (p : Nat) : List Char :=
  (mem.drop p).takeWhile (fun c => c != NUL)

/-- Function `tolower` of the C locale. -/
def tolower (c : Char) : Char :=
  if 65 ≤ c.toNat ∧ c.toNat ≤ 90 then Char.ofNat (c.toNat + 32) else c

/-- The character a `char *` walking over the string reads: the head, and the
terminator once the string is exhausted. -/
def peek (s : List Char) : Char := s.headD NUL

/-- Function `strcasecmp`: walks both strings while their lowercased characters
agree, stops with 0 on a common terminator, otherwise returns the difference
of the first pair of lowercased characters that disagree. -/
def strcasecmp : List Char → List Char → Int
  | [], t => 0 - ((tolower (peek t)).toNat : Int)
  | a :: s, t =>
    if a = NUL then 0 - ((tolower (peek t)).toNat : Int)
    else if tolower a = tolower (peek t) then strcasecmp s t.tail
    else ((tolower a).toNat : Int) - ((tolower (peek t)).toNat : Int)

/-- The value of an integer as a C `int` (32 bits, two's complement): what the
conversion of a `long` yields, and what an increment or decrement of an `int`
leaves when it passes the end of the range. -/
def to_int (x : Int) : Int := (x + 2 ^ 31) % 2 ^ 32 - 2 ^ 31

/-! ## object.c: metadata -/

/-- A metadata record: interned name and owned copy of the value. -/
structure metadata_t where
  name : List Char
  value : List Char
deriving DecidableEq, Repr

/-- The lifecycle envelope `object_t`. The destructor is a function pointer
(`none` is `NULL`), the private-data map a patricia tree (`none` is `NULL`),
`metadata` the linked list `obj->metadata` from head to tail. The count is a C
`int`: an integer that `object_ref` and `object_sink_ref` keep within 32 bits
through `to_int`. -/
structure object_t where
  refcount : Int
  dying : Bool
  destructor : Option Nat
  metadata : List metadata_t
  privatedata : Option (List (List Char × Nat))
deriving DecidableEq, Repr

/-- The loop of `metadata_find` over the list nodes. -/
def metadata_find_iter (name : List Char) : List metadata_t → Option metadata_t
  | [] => none
  | md :: n => if strcasecmp md.name name = 0 then some md else metadata_find_iter name n

/-- Function `metadata_find`: `NULL` for a `NULL` name, otherwise the first record
whose name compares equal under `strcasecmp`. -/
def metadata_find (target : object_t) (name : Option (List Char)) : Option metadata_t :=
  match name with
  | none => none
  | some name => metadata_find_iter name target.metadata

/-- Function `metadata_delete`: nothing when `metadata_find` finds no record,
otherwise that record is unlinked from the list (and released). -/
def metadata_delete (target : object_t) (name : Option (List Char)) : object_t :=
  match metadata_find target name with
  | none => target
  | some md => { target with metadata := target.metadata.erase md }

/-- Function `metadata_add`: fails on a `NULL` name or value; deletes a record
found under the name; appends the new record at the tail of the list and
returns it. -/
def metadata_add (target : object_t) (name value : Option (List Char)) :
    object_t × Option metadata_t :=
  match name, value with
  | none, _ => (target, none)
  | some _, none => (target, none)
  | some name, some value =>
    let obj :=
      if (metadata_find target (some name)).isSome then metadata_delete target (some name)
      else target
    let md : metadata_t := { name := name, value := value }
    ({ obj with metadata := obj.metadata ++ [md] }, some md)

/-- The body of `MOWGLI_ITER_FOREACH_SAFE` in `metadata_delete_all`, run over the
nodes still to visit (`n` followed by the chain saved in `tn`): each visit
deletes by the visited record's name. -/
def metadata_delete_all_iter : List metadata_t → object_t → object_t
  | [], obj => obj
  | md :: tn, obj => metadata_delete_all_iter tn (metadata_delete obj (some md.name))

/-- Function `metadata_delete_all`: the safe iteration started at the list head. -/
def metadata_delete_all (target : object_t) : object_t :=
  metadata_delete_all_iter target.metadata target

/-- Function `privatedata_get`. -/
def privatedata_get (target : object_t) (key : List Char) : Option Nat :=
  match target.privatedata with
  | none => none
  | some tree => (tree.find? (fun kv => kv.1 = key)).map (fun kv => kv.2)

/-- Function `privatedata_set`: the map is created on first use. -/
def privatedata_set (target : object_t) (key : List Char) (data : Nat) : object_t :=
  let tree := target.privatedata.getD []
  { target with
    privatedata := some (if (tree.find? (fun kv => kv.1 = key)).isSome then tree
                         else tree ++ [(key, data)]) }

/-! ## object.c: lifecycle -/

/-- A call that `object_dispose` makes while tearing an object down. -/
inductive effect where
  | node_delete
  | destructor (fn : Nat)
  | metadata_delete_all
  | free
  | patricia_destroy
deriving DecidableEq, Repr

/-- The object manager as seen from one object: the envelope at address `addr`,
the global registry `object_list` (addresses, head to tail), the teardown
calls made so far and the number of soft assertions that fired. `freed` says
whether the block of the envelope has been released: `obj` then is what the
block held last, and every further call on the object is a use after free.
`destructor_frees` says whether the destructor that the object carries, code
outside `object.c`, releases the block of the envelope. -/
structure heap where
  addr : Nat
  obj : object_t
  object_list : List Nat
  effects : List effect
  soft_asserts : Nat
  freed : Bool
  destructor_frees : Bool
deriving DecidableEq, Repr

/-- A zero-filled envelope, as the entity modules allocate it. -/
def object_zero : object_t :=
  { refcount := 0, dying := false, destructor := none, metadata := [], privatedata := none }

/-- Function `object_init` (on a non-`NULL` object): stores the destructor, sets the
count to 1 and appends the object to the registry. The name is not used. -/
def object_init (w : heap) (_name : Option (List Char)) (des : Option Nat) : heap :=
  { w with
    obj := { w.obj with destructor := des, refcount := 1 }
    object_list := w.object_list ++ [w.addr] }

/-- Function `object_ref`: `refcount++` on a C `int`. The result is `none` when
the block of the envelope has been released: the call is a use after free and
its behaviour is undefined. -/
def object_ref (w : heap) : Option heap :=
  if w.freed then none
  else some { w with obj := { w.obj with refcount := to_int (w.obj.refcount + 1) } }

/-- Function `object_sink_ref`: `refcount--` on a C `int`; `none` is a use after
free. -/
def object_sink_ref (w : heap) : Option heap :=
  if w.freed then none
  else some { w with obj := { w.obj with refcount := to_int (w.obj.refcount - 1) } }

/-- Function `object_dispose`; `none` is a use after free. The default path ends in
`free(obj)` and releases the block; on the other path the destructor decides. -/
def object_dispose (w : heap) : Option heap :=
  if w.freed then none
  else
    let w := { w with obj := { w.obj with refcount := -1 } }
    let privatedata := w.obj.privatedata
    if w.obj.dying then some { w with soft_asserts := w.soft_asserts + 1 }
    else
      let w := { w with obj := { w.obj with dying := true } }
      let w := { w with
        object_list := w.object_list.erase w.addr
        effects := w.effects ++ [effect.node_delete] }
      let w :=
        match w.obj.destructor with
        | some fn =>
          { w with
            effects := w.effects ++ [effect.destructor fn]
            freed := w.destructor_frees }
        | none =>
          { w with
            obj := metadata_delete_all w.obj
            effects := w.effects ++ [effect.metadata_delete_all, effect.free]
            freed := true }
      match privatedata with
      | some _ => some { w with effects := w.effects ++ [effect.patricia_destroy] }
      | none => some w

/-- Function `object_unref`; `none` is a use after free. -/
def object_unref (w : heap) : Option heap :=
  match object_sink_ref w with
  | none => none
  | some w => if w.obj.refcount = 0 then object_dispose w else some w

/-- The calls of the lifecycle interface. -/
inductive object_call where
  | ref
  | sink_ref
  | unref
  | dispose
deriving DecidableEq, Repr

/-- One call made on the object. -/
def object_call.apply (c : object_call) (w : heap) : Option heap :=
  match c with
  | .ref => object_ref w
  | .sink_ref => object_sink_ref w
  | .unref => object_unref w
  | .dispose => object_dispose w

/-- A sequence of calls made on the object, in order; `none` once a call is a use
after free. -/
def run_calls : List object_call → heap → Option heap
  | [], w => some w
  | c :: cs, w =>
    match c.apply w with
    | none => none
    | some w => run_calls cs w

/-! ## libc: numeric conversion and bounded string copies -/

/-- Function `isspace` of the C locale. -/
def isspace (c : Char) : Bool :=
  c = ' ' || c = '\t' || c = '\n' || c = Char.ofNat 11 || c = Char.ofNat 12 || c = '\r'

/-- The value of a character as a digit in `strtol`: `0`-`9`, then letters of
either case from 10 on. -/
def digit_of (c : Char) : Option Nat :=
  if 48 ≤ c.toNat ∧ c.toNat ≤ 57 then some (c.toNat - 48)
  else if 97 ≤ c.toNat ∧ c.toNat ≤ 122 then some (c.toNat - 87)
  else if 65 ≤ c.toNat ∧ c.toNat ≤ 90 then some (c.toNat - 55)
  else none

/-- The longest run of digits of the base, accumulated from `acc`; returns the
value and the unread rest. -/
def scan_digits (base : Nat) : List Char → Nat → Nat × List Char
  | [], acc => (acc, [])
  | c :: cs, acc =>
    match digit_of c with
    | some d => if d < base then scan_digits base cs (acc * base + d) else (acc, c :: cs)
    | none => (acc, c :: cs)

/-- Whether the string starts with `0x` or `0X` followed by a hexadecimal digit. -/
def hex_prefixed (s : List Char) : Bool :=
  match s with
  | z :: x :: h :: _ =>
    z = '0' && (x = 'x' || x = 'X') &&
      (match digit_of h with
       | some d => decide (d < 16)
       | none => false)
  | _ => false

/-- The base in which `strtol` reads the digits, and where they start: with base 0
a `0x` prefix selects 16, a leading `0` selects 8, anything else 10. -/
def strto_base (s : List Char) (base : Nat) : Nat × List Char :=
  if (base = 0 ∨ base = 16) ∧ hex_prefixed s = true then (16, s.drop 2)
  else if base = 0 then (if peek s = '0' then 8 else 10, s)
  else (base, s)

/-- The subject sequence of `strtol` and `strtoul`: white space is skipped, then an
optional sign, then the digits. Returns whether a minus sign was read, the
magnitude and the unread rest; `none` when there is no digit to convert. -/
def strto_parse (s : List Char) (base : Nat) : Option (Bool × Nat × List Char) :=
  let s1 := s.dropWhile isspace
  let neg : Bool := peek s1 = '-'
  let s2 := if peek s1 = '-' ∨ peek s1 = '+' then s1.tail else s1
  let bs := strto_base s2 base
  let r := scan_digits bs.1 bs.2 0
  if r.2.length = bs.2.length then none else some (neg, r.1, r.2)

/-- Largest `long` (LP64). -/
def LONG_MAX : Int := 2 ^ 63 - 1

/-- Smallest `long` (LP64). -/
def LONG_MIN : Int := -(2 ^ 63)

/-- Largest `unsigned long` (LP64). -/
def ULONG_MAX : Nat := 2 ^ 64 - 1

/-- Function `strtol`: the converted value, clamped to the range of `long`, and the
end pointer (the unread rest; the whole string when nothing was converted). -/
def strtol (s : List Char) (base : Nat) : Int × List Char :=
  match strto_parse s base with
  | none => (0, s)
  | some (neg, v, rest) =>
    let x : Int := if neg then -(v : Int) else (v : Int)
    (if x > LONG_MAX then LONG_MAX else if x < LONG_MIN then LONG_MIN else x, rest)

/-- Function `strtoul`: as `strtol`, with the value clamped to `ULONG_MAX` and a
minus sign negating it in `unsigned long` arithmetic. -/
def strtoul (s : List Char) (base : Nat) : Nat × List Char :=
  match strto_parse s base with
  | none => (0, s)
  | some (neg, v, rest) =>
    (if v > ULONG_MAX then ULONG_MAX else if neg then (2 ^ 64 - v) % 2 ^ 64 else v, rest)

/-- Conversion of an `unsigned long` to `unsigned int`. -/
def to_uint (x : Nat) : Nat := x % 2 ^ 32

/-- Conversion of an `unsigned long` to `time_t` (a 64-bit `long`). -/
def to_time_t (x : Nat) : Int := ((x : Int) + 2 ^ 63) % 2 ^ 64 - 2 ^ 63

/-- The conversion `%d`. -/
def fmt_d (num : Int) : List Char :=
  if num < 0 then '-' :: Nat.toDigits 10 num.natAbs else Nat.toDigits 10 num.natAbs

/-- The conversion `%u` (and `%lu`). -/
def fmt_u (num : Nat) : List Char := Nat.toDigits 10 num

/-- Function `snprintf` into a buffer of `size` bytes: the formatted text, cut to
leave room for the terminator. -/
def snprintf (size : Nat) (text : List Char) : List Char := text.take (size - 1)

/-- Function `mowgli_strlcpy` into a buffer of `size` bytes. -/
def mowgli_strlcpy (src : List Char) (size : Nat) : List Char := src.take (size - 1)

/-- Function `mowgli_strlcat` onto `dst` in a buffer of `size` bytes. -/
def mowgli_strlcat (dst src : List Char) (size : Nat) : List Char :=
  if dst.length < size then (dst ++ src).take (size - 1) else dst

/-- Function `strchr` on the string at offset `p` of `mem`: the offset of the first
`c` in front of the terminator. -/
def strchr_from (c : Char) : List Char → Nat → Option Nat
  | [], _ => none
  | x :: xs, p => if x = NUL then none else if x = c then some p else strchr_from c xs (p + 1)

/-- Function `strchr` on the string that starts at offset `p` of the block `mem`. -/
def strchr (mem : List Char) (p : Nat) (c : Char) : Option Nat :=
  strchr_from c (mem.drop p) p

/-- Function `srealloc`: the block resized to `size` bytes; bytes gained are
uninitialised, `fresh` says what they hold. -/
def srealloc (fresh : Nat → Char) (buf : List Char) (size : Nat) : List Char :=
  buf.take size ++ (List.range (size - buf.length)).map (fun i => fresh (buf.length + i))

/-! ## opensex.c: handles -/

/-- How a call of the backend can end without returning: a store outside the line
buffer, or `exit(EXIT_FAILURE)` after a read error. -/
inductive fault where
  | out_of_bounds
  | exit_failure
deriving DecidableEq, Repr

/-- A stdio stream. `rd` is the input not yet consumed, `err` whether the input
ends in a read error rather than at end of file, `wr` the output written
through a stream opened for writing (it reaches the file at `fclose`, from
offset 0 on). -/
structure FILE where
  path : List Char
  writing : Bool
  rd : List Char
  err : Bool
  wr : List Char
deriving DecidableEq, Repr

/-- The codec state `opensex_t`. `buf` is the heap block of the line buffer (its
length is the allocated size), `token` a pointer into it (an offset; `none` is
`NULL`). -/
structure opensex_t where
  buf : List Char
  bufsize : Nat
  token : Option Nat
  f : FILE
  grver : Nat
deriving DecidableEq, Repr

/-- The transaction mode. -/
inductive database_transaction_t where
  | DB_READ
  | DB_WRITE
deriving DecidableEq, Repr

/-- The handle `struct database_handle` of an open transaction. -/
structure database_handle where
  priv : opensex_t
  txn : database_transaction_t
  file : List Char
  line : Nat
  token : Nat
deriving DecidableEq, Repr

/-! ## opensex.c: reading -/

/-- The loop of `opensex_read_next_row`: characters are stored at `buf[n]` until end
of file (`none`) or a newline; the block is doubled when `n` reaches `bufsize`.
Returns the last `c`, the unread input, `n`, the block and `bufsize`. -/
def read_next_row_loop (fresh : Nat → Char) :
    List Char → Nat → List Char → Nat →
      Except fault (Option Char × List Char × Nat × List Char × Nat)
  | [], n, buf, bufsize => .ok (none, [], n, buf, bufsize)
  | c :: rest, n, buf, bufsize =>
    if c = '\n' then .ok (some c, rest, n, buf, bufsize)
    else if n < buf.length then
      let buf := buf.set n c
      let n := (n + 1) % 2 ^ 32
      if n = bufsize then
        let bufsize := (bufsize * 2) % 2 ^ 32
        read_next_row_loop fresh rest n (srealloc fresh buf bufsize) bufsize
      else read_next_row_loop fresh rest n buf bufsize
    else .error fault.out_of_bounds

/-- Function `opensex_read_next_row`. -/
def opensex_read_next_row (fresh : Nat → Char) (hdl : database_handle) :
    Except fault (Bool × database_handle) :=
  let rs := hdl.priv
  match read_next_row_loop fresh rs.f.rd 0 rs.buf rs.bufsize with
  | .error e => .error e
  | .ok (c, rd, n, buf, bufsize) =>
    if n < buf.length then
      let rs := { rs with
        buf := buf.set n NUL, bufsize := bufsize, token := some 0, f := { rs.f with rd := rd } }
      if c = none ∧ rs.f.err = true then .error fault.exit_failure
      else if c = none ∧ n = 0 then .ok (false, { hdl with priv := rs })
      else .ok (true, { hdl with priv := rs, line := hdl.line + 1, token := 0 })
    else .error fault.out_of_bounds

/-- Function `opensex_read_word`: returns the string at the cursor (as it reads once
the separator has been overwritten) and moves the cursor behind the separator,
or to `NULL` when there is none. -/
def opensex_read_word (db : database_handle) : Option (List Char) × database_handle :=
  let rs := db.priv
  match rs.token with
  | none => (none, db)
  | some res =>
    match strchr rs.buf res ' ' with
    | some ptr =>
      let buf := rs.buf.set ptr NUL
      (some (cstr buf res),
        { db with priv := { rs with buf := buf, token := some (ptr + 1) }, token := db.token + 1 })
    | none =>
      (some (cstr rs.buf res),
        { db with priv := { rs with token := none }, token := db.token + 1 })

/-- Function `opensex_read_str`. -/
def opensex_read_str (db : database_handle) : Option (List Char) × database_handle :=
  let rs := db.priv
  (rs.token.map (fun res => cstr rs.buf res), { db with token := db.token + 1 })

/-- Modelled from the spec: `db_read_word` of `libathemecore` (not part of the
sources at hand) hands the call to the `read_word` operation of the handle's
backend, here `opensex_read_word`. -/
def db_read_word (db : database_handle) : Option (List Char) × database_handle :=
  opensex_read_word db

/-- Function `opensex_read_int`; `res` is what `*res` held before the call. -/
def opensex_read_int (db : database_handle) (res : Int) : Bool × Int × database_handle :=
  match db_read_word db with
  | (none, db) => (false, res, db)
  | (some s, db) =>
    let r := strtol s 0
    (peek s != NUL && peek r.2 == NUL, to_int r.1, db)

/-- Function `opensex_read_uint`; `res` is what `*res` held before the call. -/
def opensex_read_uint (db : database_handle) (res : Nat) : Bool × Nat × database_handle :=
  match db_read_word db with
  | (none, db) => (false, res, db)
  | (some s, db) =>
    let r := strtoul s 0
    (peek s != NUL && peek r.2 == NUL, to_uint r.1, db)

/-- Function `opensex_read_time`; `res` is what `*res` held before the call. -/
def opensex_read_time (db : database_handle) (res : Int) : Bool × Int × database_handle :=
  match db_read_word db with
  | (none, db) => (false, res, db)
  | (some s, db) =>
    let r := strtoul s 0
    (peek s != NUL && peek r.2 == NUL, to_time_t r.1, db)

/-! ## opensex.c: writing -/

/-- Function `fprintf` with the text already formatted. -/
def fprintf (f : FILE) (text : List Char) : FILE := { f with wr := f.wr ++ text }

/-- Function `opensex_start_row` (on a non-`NULL` handle). -/
def opensex_start_row (db : database_handle) (type : Option (List Char)) :
    Bool × database_handle :=
  match type with
  | none => (false, db)
  | some type =>
    (true, { db with priv := { db.priv with f := fprintf db.priv.f (type ++ [' ']) } })

/-- Function `opensex_write_cell` (on a non-`NULL` handle). -/
def opensex_write_cell (db : database_handle) (data : Option (List Char)) (multiword : Bool) :
    Bool × database_handle :=
  (true, { db with priv := { db.priv with
    f := fprintf db.priv.f (data.getD ['*'] ++ if !multiword then [' '] else []) } })

/-- Function `opensex_write_word`. -/
def opensex_write_word (db : database_handle) (word : Option (List Char)) :
    Bool × database_handle :=
  opensex_write_cell db word false

/-- Function `opensex_write_str`. -/
def opensex_write_str (db : database_handle) (word : Option (List Char)) :
    Bool × database_handle :=
  opensex_write_cell db word true

/-- Function `opensex_write_int`. -/
def opensex_write_int (db : database_handle) (num : Int) : Bool × database_handle :=
  opensex_write_cell db (some (snprintf 32 (fmt_d num))) false

/-- Function `opensex_write_uint`. -/
def opensex_write_uint (db : database_handle) (num : Nat) : Bool × database_handle :=
  opensex_write_cell db (some (snprintf 32 (fmt_u num))) false

/-- Function `opensex_write_time`: the `time_t` is printed with `%lu`, as an
`unsigned long`. -/
def opensex_write_time (db : database_handle) (tm : Int) : Bool × database_handle :=
  opensex_write_cell db (some (snprintf 32 (fmt_u (tm % 2 ^ 64).toNat))) false

/-- Function `opensex_commit_row` (on a non-`NULL` handle). -/
def opensex_commit_row (db : database_handle) : Bool × database_handle :=
  (true, { db with priv := { db.priv with f := fprintf db.priv.f ['\n'] } })

/-! ## opensex.c: opening and closing -/

/-- Build-time and run-time configuration: the data directory `datadir`, the
constant `BUFSIZE` and whether `HAVE_FLOCK` is defined. -/
structure config where
  datadir : List Char
  BUFSIZE : Nat
  HAVE_FLOCK : Bool
deriving DecidableEq, Repr

/-- The environment of the backend: the filesystem as a map from path to bytes,
whether the descriptor `lockfd` is open and holds the exclusive lock, how often
`hook_call_db_saved` ran, and how many errors went to `slog` and `wallops`. -/
structure os_state where
  fs : List Char → Option (List Char)
  lock_held : Bool
  db_saved : Nat
  slog_errors : Nat
  wallops : Nat

/-- Function `open` with `O_CREAT` and without `O_TRUNC`: a missing file is created
empty, an existing file keeps its bytes. -/
def open_creat (fs : List Char → Option (List Char)) (path : List Char) :
    List Char → Option (List Char) :=
  fun q => if q = path then some ((fs path).getD []) else fs q

/-- Function `fclose`: the output of a stream opened for writing lands in its file
from offset 0 on, over the bytes that were there; bytes behind it stay. -/
def fclose (os : os_state) (f : FILE) : os_state :=
  if f.writing then
    { os with fs := fun q =>
        if q = f.path then some (f.wr ++ ((os.fs f.path).getD []).drop f.wr.length)
        else os.fs q }
  else os

/-- Function `srename`: on success the bytes of `old` replace `new` in one step
and the name `old` is gone; the flag says whether the call succeeded. -/
def srename (os : os_state) (old new : List Char) (rename_ok : Bool) : os_state × Bool :=
  match rename_ok, os.fs old with
  | true, some bytes =>
    ({ os with fs := fun q =>
        if q = new then some bytes else if q = old then none else os.fs q }, true)
  | _, _ => (os, false)

/-- Modelled from the spec: `db_start_row` of `libathemecore` (not part of the
sources at hand) hands the call to the `start_row` operation of the handle's
backend. -/
def db_start_row (db : database_handle) (type : Option (List Char)) : Bool × database_handle :=
  opensex_start_row db type

/-- Modelled from the spec: `db_write_int` of `libathemecore` (not part of the
sources at hand) hands the call to the `write_int` operation of the handle's
backend. -/
def db_write_int (db : database_handle) (num : Int) : Bool × database_handle :=
  opensex_write_int db num

/-- Modelled from the spec: `db_commit_row` of `libathemecore` (not part of the
sources at hand) hands the call to the `commit_row` operation of the handle's
backend. -/
def db_commit_row (db : database_handle) : Bool × database_handle :=
  opensex_commit_row db

/-- Function `opensex_db_open_read`. `fopen_ok` says whether `fopen` succeeds when
the file exists, `err` whether reading it will end in an error. -/
def opensex_db_open_read (cfg : config) (os : os_state) (filename : Option (List Char))
    (fopen_ok err : Bool) : os_state × Option database_handle :=
  let path := snprintf cfg.BUFSIZE
    (cfg.datadir ++ ['/'] ++ filename.getD "services.db".toList)
  match os.fs path with
  | none => ({ os with slog_errors := os.slog_errors + 1 }, none)
  | some bytes =>
    if fopen_ok then
      let rs : opensex_t :=
        { grver := 1, buf := List.replicate 512 NUL, bufsize := 512, token := none
          f := { path := path, writing := false, rd := bytes, err := err, wr := [] } }
      (os, some { priv := rs, txn := .DB_READ, file := path, line := 0, token := 0 })
    else
      ({ os with slog_errors := os.slog_errors + 1, wallops := os.wallops + 1 }, none)

/-- Function `opensex_db_open_write`. `open_ok` and `fdopen_ok` say whether `open` and
`fdopen` succeed. -/
def opensex_db_open_write (cfg : config) (os : os_state) (filename : Option (List Char))
    (open_ok fdopen_ok : Bool) : os_state × Option database_handle :=
  let bpath := snprintf cfg.BUFSIZE
    (cfg.datadir ++ ['/'] ++ filename.getD "services.db".toList)
  let path := mowgli_strlcat (mowgli_strlcpy bpath cfg.BUFSIZE) ".new".toList cfg.BUFSIZE
  let os :=
    if cfg.HAVE_FLOCK then
      let lpath := mowgli_strlcat (mowgli_strlcpy bpath cfg.BUFSIZE) ".lock".toList cfg.BUFSIZE
      { os with fs := open_creat os.fs lpath, lock_held := true }
    else os
  let os := if open_ok then { os with fs := open_creat os.fs path } else os
  if open_ok ∧ fdopen_ok then
    let rs : opensex_t :=
      { f := { path := path, writing := true, rd := [], err := false, wr := [] }
        grver := 1, buf := [], bufsize := 0, token := none }
    let db : database_handle :=
      { priv := rs, txn := .DB_WRITE, file := bpath, line := 0, token := 0 }
    let db := (db_start_row db (some "GRVER".toList)).2
    let db := (db_write_int db rs.grver).2
    let db := (db_commit_row db).2
    (os, some db)
  else
    ({ os with
        slog_errors := os.slog_errors + 1
        wallops := os.wallops + 1
        lock_held := if cfg.HAVE_FLOCK then false else os.lock_held }, none)

/-- The transaction modes of `db_open`. -/
def opensex_db_open (cfg : config) (os : os_state) (filename : Option (List Char))
    (txn : database_transaction_t) (open_ok fdopen_ok err : Bool) :
    os_state × Option database_handle :=
  match txn with
  | .DB_WRITE => opensex_db_open_write cfg os filename open_ok fdopen_ok
  | .DB_READ => opensex_db_open_read cfg os filename open_ok err

/-- Function `opensex_db_close` (on a non-`NULL` handle). `rename_ok` says whether the
rename succeeds. -/
def opensex_db_close (cfg : config) (os : os_state) (db : database_handle)
    (rename_ok : Bool) : os_state :=
  let rs := db.priv
  let oldpath := mowgli_strlcat (mowgli_strlcpy db.file cfg.BUFSIZE) ".new".toList cfg.BUFSIZE
  let newpath := mowgli_strlcpy db.file cfg.BUFSIZE
  let os := fclose os rs.f
  match db.txn with
  | .DB_WRITE =>
    let r := srename os oldpath newpath rename_ok
    let os :=
      if r.2 then r.1
      else { r.1 with slog_errors := r.1.slog_errors + 1, wallops := r.1.wallops + 1 }
    let os := { os with db_saved := os.db_saved + 1 }
    if cfg.HAVE_FLOCK then { os with lock_held := false } else os
  | .DB_READ => os

/-- A row cycle of a write session: a call of the row-scoped write interface. -/
inductive write_call where
  | start_row (type : Option (List Char))
  | write_word (word : Option (List Char))
  | write_str (word : Option (List Char))
  | write_int (num : Int)
  | write_uint (num : Nat)
  | write_time (tm : Int)
  | commit_row
deriving DecidableEq, Repr

/-- One call of the write interface on the handle. -/
def write_call.apply (c : write_call) (db : database_handle) : database_handle :=
  match c with
  | .start_row type => (opensex_start_row db type).2
  | .write_word word => (opensex_write_word db word).2
  | .write_str word => (opensex_write_str db word).2
  | .write_int num => (opensex_write_int db num).2
  | .write_uint num => (opensex_write_uint db num).2
  | .write_time tm => (opensex_write_time db tm).2
  | .commit_row => (opensex_commit_row db).2

/-- A sequence of calls of the write interface, in order. -/
def write_calls (cs : List write_call) (db : database_handle) : database_handle :=
  cs.foldl (fun db c => c.apply db) db

/-- A whole write session: `db_open` for writing, the calls `cs` of the write
interface, `db_close`. Returns the environment afterwards and the bytes that
the session wrote through the handle (`none` when the open failed). -/
def write_session (cfg : config) (os : os_state) (filename : Option (List Char))
    (cs : List write_call) (open_ok fdopen_ok rename_ok : Bool) :
    os_state × Option (List Char) :=
  match opensex_db_open_write cfg os filename open_ok fdopen_ok with
  | (os, some db) =>
    (opensex_db_close cfg os (write_calls cs db) rename_ok, some (write_calls cs db).priv.f.wr)
  | (os, none) => (os, none)

/-! ## Auxiliary notions for the statements -/

/-- The key under which `strcasecmp` identifies a string: its characters in front
of a terminator, lowercased. -/
def casefold (s : List Char) : List Char :=
  (s.takeWhile (fun c => c != NUL)).map tolower

/-- No two records of the list have names that `strcasecmp` reports equal. -/
def metadata_unique (l : List metadata_t) : Prop :=
  l.Pairwise (fun a b => strcasecmp a.name b.name ≠ 0)

/-- The teardown calls of one disposal of the envelope `o`, in the order in which
`object_dispose` makes them. -/
def disposal_effects (o : object_t) : List effect :=
  [effect.node_delete] ++
    (match o.destructor with
     | some fn => [effect.destructor fn]
     | none => [effect.metadata_delete_all, effect.free]) ++
    (match o.privatedata with
     | some _ => [effect.patricia_destroy]
     | none => [])

/-- The state of the object after the first `k` calls of the sequence `cs`; `none`
when one of them is a use after free. -/
def state_after (cs : List object_call) (w : heap) (k : Nat) : Option heap :=
  run_calls (cs.take k) w

/-- Call number `i` of the sequence is an `object_unref` whose decrement leaves the
count at 0. -/
def reaches_zero (cs : List object_call) (w : heap) (i : Nat) : Prop :=
  cs[i]? = some object_call.unref ∧
    ((state_after cs w i).bind object_sink_ref).map (fun s => s.obj.refcount) = some 0

/-- Whether the teardown of the object releases the block of its envelope: always
on the default path, and on the other path when the destructor does. -/
def teardown_frees (w : heap) : Bool :=
  match w.obj.destructor with
  | some _ => w.destructor_frees
  | none => true

/-- The loop of `opensex_read_next_row` ended in a store outside the block, or left
`n` outside the block for the store of the terminator. -/
@[irreducible]
def row_store_fails
    (r : Except fault (Option Char × List Char × Nat × List Char × Nat)) : Prop :=
  match r with
  | .error e => e = fault.out_of_bounds
  | .ok (_, _, n, buf, _) => ¬ n < buf.length

/-- The character is one of `0` to `9`. -/
def isdig (c : Char) : Prop := 48 ≤ c.toNat ∧ c.toNat ≤ 57

/-- The handle that `opensex_db_open_read` builds for a file that holds `bytes`. -/
def read_handle (path bytes : List Char) (err : Bool) : database_handle :=
  { priv :=
      { grver := 1, buf := List.replicate 512 NUL, bufsize := 512, token := none
        f := { path := path, writing := false, rd := bytes, err := err, wr := [] } }
    txn := .DB_READ, file := path, line := 0, token := 0 }

/-- The handle that `opensex_db_open_write` builds, before it writes the version
row. -/
def write_handle (bpath path : List Char) : database_handle :=
  { priv :=
      { f := { path := path, writing := true, rd := [], err := false, wr := [] }
        grver := 1, buf := [], bufsize := 0, token := none }
    txn := .DB_WRITE, file := bpath, line := 0, token := 0 }

/-- A free text of `2 ^ 31` characters. -/
def long_text : List Char := List.replicate (2 ^ 31) 'a'

/-- A read handle on which `opensex_read_next_row` has loaded the row `line`: the
block holds the row and its terminator, the cursor is at its start. -/
def loaded_row (line : List Char) : database_handle :=
  { priv :=
      { grver := 1, buf := line ++ [NUL], bufsize := line.length + 1, token := some 0
        f := { path := [], writing := false, rd := [], err := false, wr := [] } }
    txn := .DB_READ, file := [], line := 1, token := 0 }

/-- The token is, from its first to its last character, a number as `strtol` and
`strtoul` read it with base 0: optional white space, an optional sign, an
optional base prefix and at least one digit of the base, with nothing left
behind. -/
def numeric_token (w : List Char) : Prop :=
  w ≠ [] ∧ ∃ neg v, strto_parse w 0 = some (neg, v, [])

/-- A numeric literal in the widest sense the numeric readers know: optional white
space, an optional sign, an optional `0x` or `0X`, then one or more characters
that are digits (hexadecimal at most), and nothing else. -/
def numeric_literal (w : List Char) : Prop :=
  ∃ ws sg pre ds, w = ws ++ sg ++ pre ++ ds ∧ (∀ c ∈ ws, isspace c = true) ∧
    (sg = [] ∨ sg = ['+'] ∨ sg = ['-']) ∧ (pre = [] ∨ pre = ['0', 'x'] ∨ pre = ['0', 'X']) ∧
    ds ≠ [] ∧ ∀ c ∈ ds, ∃ d, digit_of c = some d ∧ d < 16

/-- A data directory after a crash in the middle of a save: the live database and
a longer `services.db.new` left behind. -/
def crashed_fs : List Char → Option (List Char) := fun q =>
  if q = "etc/services.db".toList then some "GRVER 1 \nMU old\n".toList
  else if q = "etc/services.db.new".toList then some "GRVER 1 \nMU alice\nMU bob\n".toList
  else none

/-- The fields of a row as the grammar writes them: each behind a single space. -/
def join_fields : List (List Char) → List Char
  | [] => []
  | f :: fs => ' ' :: f ++ join_fields fs

/-- The row grammar of the file format, `<row> ::= <type> (" " <field>)* "\n"`:
a type without space, then fields that each follow a single space, then the
newline; only the last field may hold spaces, and a field may be empty. -/
def is_row (bytes : List Char) : Prop :=
  ∃ type fields, bytes = type ++ join_fields fields ++ ['\n'] ∧
    type ≠ [] ∧ ' ' ∉ type ∧ '\n' ∉ type ∧
    (∀ f ∈ fields, '\n' ∉ f) ∧ (∀ f ∈ fields.dropLast, ' ' ∉ f)

/-- A directory name of 252 characters, within the 255 bytes that a file system
allows for one component of a path. -/
def long_component : List Char := List.replicate 252 'd'

/-- A data directory four levels deep, each level named `long_component`: 1011
characters with the three separators, so that the live path
`<datadir>/services.db` has 1023 characters, one less than a `BUFSIZE` of 1024
and well below the 4096 bytes allowed for a whole path. -/
def long_datadir : List Char :=
  long_component ++ ['/'] ++ long_component ++ ['/'] ++ long_component ++ ['/']
    ++ long_component

/-- The decimal value of a string of digits, read from the left. -/
def decimal_value (w : List Char) : Nat :=
  w.foldl (fun acc c => acc * 10 + (c.toNat - 48)) 0

/-- A line of 600 characters, longer than the block of 512 bytes that a handle
opened for reading starts with. -/
def wide_row : List Char := List.replicate 600 'x'

/-- The results of `k` successive calls of `opensex_read_word`, in order, and the
handle after the last of them. -/
def read_words : Nat → database_handle → List (Option (List Char)) × database_handle
  | 0, db => ([], db)
  | k + 1, db =>
    ((opensex_read_word db).1 :: (read_words k (opensex_read_word db).2).1,
      (read_words k (opensex_read_word db).2).2)

/-- The pieces of a line split at every single space, in order: two adjacent
spaces have an empty piece between them, a space at the end has an empty piece
behind it, and a line without a space is one piece. -/
def split_at_spaces : List Char → List (List Char)
  | [] => [[]]
  | c :: cs =>
    if c = ' ' then [] :: split_at_spaces cs
    else
      match split_at_spaces cs with
      | [] => [[c]]
      | p :: ps => (c :: p) :: ps

/-- The pieces put together again, with a single space between two neighbours. -/
def join_spaces : List (List Char) → List Char
  | [] => []
  | [p] => p
  | p :: q :: ps => p ++ ' ' :: join_spaces (q :: ps)

/-- The value of a string of digits in the base, read from the left; a letter
counts as `strtol` counts it. -/
def digits_value (base : Nat) (w : List Char) : Nat :=
  w.foldl (fun acc c => acc * base + (digit_of c).getD 0) 0

/-- Every character of the string is a digit of the base. -/
def digits_of_base (base : Nat) (w : List Char) : Prop :=
  ∀ c ∈ w, ∃ d, digit_of c = some d ∧ d < base

/-- The three numeric readers accept the next word of the row and return `v`,
each of them where `v` fits the type it reads. -/
def readers_return (db : database_handle) (ri : Int) (ru : Nat) (rt : Int) (v : Nat) : Prop :=
  (v < 2 ^ 31 →
    (opensex_read_int db ri).1 = true ∧ (opensex_read_int db ri).2.1 = (v : Int)) ∧
  (v < 2 ^ 32 →
    (opensex_read_uint db ru).1 = true ∧ (opensex_read_uint db ru).2.1 = v) ∧
  (v < 2 ^ 63 →
    (opensex_read_time db rt).1 = true ∧ (opensex_read_time db rt).2.1 = (v : Int))

/-- The three numeric readers do not accept the next word of the row. -/
def readers_fail (db : database_handle) (ri : Int) (ru : Nat) (rt : Int) : Prop :=
  (opensex_read_int db ri).1 = false ∧ (opensex_read_uint db ru).1 = false ∧
    (opensex_read_time db rt).1 = false

/-! ## Lemmas: strcasecmp -/

theorem tolower_eq_NUL_iff (c : Char) : tolower c = NUL ↔ c = NUL := by
  unfold tolower
  split
  · rename_i h
    obtain ⟨h1, h2⟩ := h
    generalize hn : c.toNat = n at h1 h2
    have hc : c = Char.ofNat n := by rw [← hn, Char.ofNat_toNat]
    subst hc
    interval_cases n <;> decide
  · rfl

theorem char_toNat_sub_eq_zero (a b : Char) :
    ((a.toNat : Int) - (b.toNat : Int) = 0) ↔ a = b := by
  constructor
  · intro h
    have h2 : a.toNat = b.toNat := by omega
    rw [← Char.ofNat_toNat a, ← Char.ofNat_toNat b, h2]
  · intro h
    subst h
    omega

theorem zero_sub_tolower_peek (t : List Char) :
    (0 - ((tolower (peek t)).toNat : Int) = 0) ↔ casefold t = [] := by
  have h0 : ((NUL.toNat : Nat) : Int) = 0 := by decide
  have key : (0 - ((tolower (peek t)).toNat : Int) = 0) ↔ tolower (peek t) = NUL := by
    rw [← char_toNat_sub_eq_zero, h0]
    omega
  rw [key, tolower_eq_NUL_iff]
  cases t with
  | nil => simp [peek, casefold]
  | cons b t =>
    by_cases hb : b = NUL <;> simp [peek, casefold, hb]

theorem casefold_cons (a : Char) (s : List Char) (h : a ≠ NUL) :
    casefold (a :: s) = tolower a :: casefold s := by
  simp [casefold, h]

theorem casefold_cons_NUL (s : List Char) : casefold (NUL :: s) = [] := by
  simp [casefold]

theorem strcasecmp_eq_zero_iff (s t : List Char) :
    strcasecmp s t = 0 ↔ casefold s = casefold t := by
  induction s generalizing t with
  | nil =>
    rw [strcasecmp, zero_sub_tolower_peek]
    exact eq_comm
  | cons a s ih =>
    rw [strcasecmp]
    by_cases ha : a = NUL
    · subst ha
      rw [if_pos rfl, zero_sub_tolower_peek, casefold_cons_NUL]
      exact eq_comm
    · rw [if_neg ha, casefold_cons a s ha]
      have hla : tolower a ≠ NUL := fun h => ha ((tolower_eq_NUL_iff a).1 h)
      cases t with
      | nil =>
        have hp : peek ([] : List Char) = NUL := rfl
        have hn : tolower NUL = NUL := (tolower_eq_NUL_iff NUL).2 rfl
        rw [hp, hn, if_neg hla, char_toNat_sub_eq_zero]
        simp [casefold, hla]
      | cons b t =>
        have hp : peek (b :: t) = b := rfl
        rw [hp]
        by_cases hb : b = NUL
        · subst hb
          have hn : tolower NUL = NUL := (tolower_eq_NUL_iff NUL).2 rfl
          rw [hn, if_neg hla, char_toNat_sub_eq_zero, casefold_cons_NUL]
          simp [hla]
        · rw [casefold_cons b t hb]
          by_cases hab : tolower a = tolower b
          · rw [if_pos hab, List.tail_cons, ih t]
            simp [hab]
          · rw [if_neg hab, char_toNat_sub_eq_zero]
            simp [hab]

theorem strcasecmp_self (s : List Char) : strcasecmp s s = 0 :=
  (strcasecmp_eq_zero_iff s s).2 rfl

theorem strcasecmp_symm {s t : List Char} (h : strcasecmp s t = 0) : strcasecmp t s = 0 :=
  (strcasecmp_eq_zero_iff t s).2 ((strcasecmp_eq_zero_iff s t).1 h).symm

theorem strcasecmp_trans {s t u : List Char} (h1 : strcasecmp s t = 0)
    (h2 : strcasecmp t u = 0) : strcasecmp s u = 0 :=
  (strcasecmp_eq_zero_iff s u).2
    (((strcasecmp_eq_zero_iff s t).1 h1).trans ((strcasecmp_eq_zero_iff t u).1 h2))


/-! ## Lemmas: metadata -/

theorem metadata_find_iter_none (name : List Char) (l : List metadata_t) :
    metadata_find_iter name l = none ↔ ∀ md ∈ l, strcasecmp md.name name ≠ 0 := by
  induction l with
  | nil => simp [metadata_find_iter]
  | cons a l ih =>
    by_cases h : strcasecmp a.name name = 0
    · simp [metadata_find_iter, h]
    · simp [metadata_find_iter, h, ih]

theorem metadata_find_iter_some {name : List Char} {l : List metadata_t} {md : metadata_t}
    (h : metadata_find_iter name l = some md) :
    strcasecmp md.name name = 0 ∧
      ∃ a b, l = a ++ md :: b ∧ (∀ e ∈ a, strcasecmp e.name name ≠ 0) ∧ l.erase md = a ++ b := by
  induction l with
  | nil => simp [metadata_find_iter] at h
  | cons x l ih =>
    by_cases hx : strcasecmp x.name name = 0
    · simp only [metadata_find_iter, hx, if_true, Option.some.injEq] at h
      subst h
      exact ⟨hx, [], l, rfl, by simp, by simp⟩
    · simp only [metadata_find_iter, hx, if_false] at h
      obtain ⟨h0, a, b, hl, ha, he⟩ := ih h
      refine ⟨h0, x :: a, b, by simp [hl], ?_, ?_⟩
      · intro e he2
        rcases List.mem_cons.1 he2 with rfl | he3
        · exact hx
        · exact ha e he3
      · have hne : x ≠ md := by
          intro hxm
          subst hxm
          exact hx h0
        rw [List.erase_cons_tail (by simpa using hne), he]
        rfl

theorem metadata_find_iter_append {name : List Char} {a b : List metadata_t}
    (h : ∀ e ∈ a, strcasecmp e.name name ≠ 0) :
    metadata_find_iter name (a ++ b) = metadata_find_iter name b := by
  induction a with
  | nil => rfl
  | cons x a ih =>
    have hx : strcasecmp x.name name ≠ 0 := h x (List.mem_cons_self _ _)
    simp only [List.cons_append, metadata_find_iter, hx, if_false]
    exact ih (fun e he => h e (List.mem_cons_of_mem _ he))

theorem metadata_delete_sublist (obj : object_t) (name : Option (List Char)) :
    (metadata_delete obj name).metadata.Sublist obj.metadata := by
  unfold metadata_delete
  split
  · exact List.Sublist.refl _
  · exact List.erase_sublist _ _

theorem metadata_delete_no_match (obj : object_t) (name : List Char)
    (h : metadata_unique obj.metadata) :
    ∀ e ∈ (metadata_delete obj (some name)).metadata, strcasecmp e.name name ≠ 0 := by
  unfold metadata_delete
  cases hf : metadata_find obj (some name) with
  | none => exact (metadata_find_iter_none name obj.metadata).1 hf
  | some md =>
    obtain ⟨h0, a, b, hl, ha, he⟩ := metadata_find_iter_some hf
    intro e hmem
    simp only [he] at hmem
    rcases List.mem_append.1 hmem with h1 | h1
    · exact ha e h1
    · intro hce
      unfold metadata_unique at h
      rw [hl, List.pairwise_append] at h
      have h2 := (List.pairwise_cons.1 h.2.1).1 e h1
      exact h2 (strcasecmp_trans h0 (strcasecmp_symm hce))

theorem metadata_add_shape (obj : object_t) (name value : List Char) :
    ∃ l, (metadata_add obj (some name) (some value)).1.metadata = l ++ [⟨name, value⟩] ∧
      l.Sublist obj.metadata ∧
      (metadata_unique obj.metadata → ∀ e ∈ l, strcasecmp e.name name ≠ 0) := by
  unfold metadata_add
  cases hf : metadata_find obj (some name) with
  | none =>
    refine ⟨obj.metadata, by simp [hf], List.Sublist.refl _, fun _ => ?_⟩
    exact (metadata_find_iter_none name obj.metadata).1 hf
  | some md =>
    refine ⟨(metadata_delete obj (some name)).metadata, by simp [hf],
      metadata_delete_sublist obj _, fun hu => metadata_delete_no_match obj name hu⟩

theorem metadata_delete_head (obj : object_t) (md : metadata_t) (rest : List metadata_t)
    (h : obj.metadata = md :: rest) :
    metadata_delete obj (some md.name) = { obj with metadata := rest } := by
  simp [metadata_delete, metadata_find, h, metadata_find_iter, strcasecmp_self]

theorem metadata_delete_all_iter_self (l : List metadata_t) (obj : object_t)
    (h : obj.metadata = l) :
    metadata_delete_all_iter l obj = { obj with metadata := [] } := by
  induction l generalizing obj with
  | nil =>
    cases obj
    simp_all [metadata_delete_all_iter]
  | cons md rest ih =>
    rw [metadata_delete_all_iter, metadata_delete_head obj md rest h, ih _ rfl]

theorem metadata_delete_all_iter_visited (visited : List metadata_t) (rest : List metadata_t)
    (obj : object_t) (h : obj.metadata = visited ++ rest) :
    metadata_delete_all_iter visited obj = { obj with metadata := rest } := by
  induction visited generalizing obj with
  | nil =>
    cases obj
    simp_all [metadata_delete_all_iter]
  | cons md v ih =>
    rw [metadata_delete_all_iter, metadata_delete_head obj md (v ++ rest) h, ih _ rfl]

theorem metadata_delete_all_eq (obj : object_t) :
    metadata_delete_all obj = { obj with metadata := [] } :=
  metadata_delete_all_iter_self obj.metadata obj rfl


/-! ## Claims on the metadata store -/

/-- C7. Replace semantics of `metadata_add`: on an object with at most one record
per case-insensitive name, adding `name = value` leaves exactly one record whose
name equals `name` ignoring case, namely the new record with value `value`,
and `metadata_find` returns it under every spelling that equals `name`
ignoring case. -/
theorem metadata_add_replaces (obj : object_t) (name value : List Char)
    (h : metadata_unique obj.metadata) :
    (metadata_add obj (some name) (some value)).2 = some ⟨name, value⟩ ∧
    (metadata_add obj (some name) (some value)).1.metadata.filter
        (fun e => decide (strcasecmp e.name name = 0)) = [⟨name, value⟩] ∧
    ∀ other : List Char, strcasecmp other name = 0 →
      metadata_find (metadata_add obj (some name) (some value)).1 (some other)
        = some ⟨name, value⟩ := by
  obtain ⟨l, hl, _, hno⟩ := metadata_add_shape obj name value
  have hno2 := hno h
  refine ⟨rfl, ?_, ?_⟩
  · rw [hl, List.filter_append]
    have h1 : l.filter (fun e => decide (strcasecmp e.name name = 0)) = [] := by
      rw [List.filter_eq_nil_iff]
      intro e he
      simpa using hno2 e he
    rw [h1]
    simp [List.filter, strcasecmp_self]
  · intro other ho
    unfold metadata_find
    simp only [hl]
    rw [metadata_find_iter_append]
    · simp [metadata_find_iter, strcasecmp_symm ho]
    · intro e he hce
      exact hno2 e he (strcasecmp_trans hce ho)

/-- C7, at `Foo = a` followed by `foo = b`: a single record remains, with value
`b`, found under both spellings. -/
theorem metadata_add_replaces_witness :
    metadata_unique (metadata_add object_zero (some "Foo".toList) (some "a".toList)).1.metadata ∧
    (metadata_add (metadata_add object_zero (some "Foo".toList) (some "a".toList)).1
        (some "foo".toList) (some "b".toList)).1.metadata = [⟨"foo".toList, "b".toList⟩] ∧
    metadata_find (metadata_add (metadata_add object_zero (some "Foo".toList) (some "a".toList)).1
        (some "foo".toList) (some "b".toList)).1 (some "Foo".toList)
      = some ⟨"foo".toList, "b".toList⟩ ∧
    metadata_find (metadata_add (metadata_add object_zero (some "Foo".toList) (some "a".toList)).1
        (some "foo".toList) (some "b".toList)).1 (some "foo".toList)
      = some ⟨"foo".toList, "b".toList⟩ := by
  have hu : metadata_unique
      (metadata_add object_zero (some "Foo".toList) (some "a".toList)).1.metadata := by
    simp [metadata_unique, metadata_add, metadata_find, metadata_find_iter, object_zero]
  have hc : strcasecmp "Foo".toList "foo".toList = 0 := by decide
  have key := metadata_add_replaces
    (metadata_add object_zero (some "Foo".toList) (some "a".toList)).1
    "foo".toList "b".toList hu
  refine ⟨hu, by decide, key.2.2 _ hc, key.2.2 _ (strcasecmp_self _)⟩


/-- C8. Uniqueness invariant of the metadata list: it holds once `object_init` has
run on a zero-filled envelope, and `metadata_add` (with any arguments, `NULL`
included), `metadata_delete` and `metadata_delete_all` preserve it. -/
theorem metadata_unique_invariant (w : heap) (name0 : Option (List Char)) (des : Option Nat)
    (obj : object_t) (hz : w.obj = object_zero) (h : metadata_unique obj.metadata) :
    metadata_unique (object_init w name0 des).obj.metadata ∧
    (∀ name value, metadata_unique (metadata_add obj name value).1.metadata) ∧
    (∀ name, metadata_unique (metadata_delete obj name).metadata) ∧
    metadata_unique (metadata_delete_all obj).metadata := by
  refine ⟨?_, ?_, ?_, ?_⟩
  · simp [object_init, hz, object_zero, metadata_unique]
  · intro name value
    cases name with
    | none => simpa [metadata_add] using h
    | some name =>
      cases value with
      | none => simpa [metadata_add] using h
      | some value =>
        obtain ⟨l, hl, hsub, hno⟩ := metadata_add_shape obj name value
        rw [hl]
        unfold metadata_unique at h ⊢
        rw [List.pairwise_append]
        refine ⟨h.sublist hsub, List.pairwise_singleton _ _, ?_⟩
        intro a ha b hb
        rw [List.mem_singleton] at hb
        subst hb
        exact hno h a ha
  · intro name
    exact List.Pairwise.sublist (metadata_delete_sublist obj name) h
  · rw [metadata_delete_all_eq]
    exact List.Pairwise.nil

/-- C8, on a list of two records with different names. -/
theorem metadata_unique_invariant_witness :
    metadata_unique
      ({ object_zero with metadata := [⟨"Foo".toList, "a".toList⟩, ⟨"bar".toList, "b".toList⟩] }
        : object_t).metadata ∧
    metadata_unique
      (metadata_add
        { object_zero with metadata := [⟨"Foo".toList, "a".toList⟩, ⟨"bar".toList, "b".toList⟩] }
        (some "BAR".toList) (some "c".toList)).1.metadata ∧
    (metadata_add
        { object_zero with metadata := [⟨"Foo".toList, "a".toList⟩, ⟨"bar".toList, "b".toList⟩] }
        (some "BAR".toList) (some "c".toList)).1.metadata
      = [⟨"Foo".toList, "a".toList⟩, ⟨"BAR".toList, "c".toList⟩] := by
  have hu : metadata_unique
      ({ object_zero with metadata := [⟨"Foo".toList, "a".toList⟩, ⟨"bar".toList, "b".toList⟩] }
        : object_t).metadata := by
    unfold metadata_unique
    decide
  exact ⟨hu,
    (metadata_unique_invariant ⟨0, object_zero, [], [], 0, false, false⟩ none none _ rfl hu).2.1 _ _,
    by decide⟩

/-- C9. Completeness of `metadata_delete_all`, for every list (names that are equal
ignoring case included): afterwards the list is empty and `metadata_find` is
absent for every name; and when the iteration reaches a record `md`, every
record in front of it is gone, so that the deletion by `md`'s name unlinks `md`
itself and leaves exactly the records behind it. -/
theorem metadata_delete_all_complete (obj : object_t) :
    (metadata_delete_all obj).metadata = [] ∧
    (∀ name, metadata_find (metadata_delete_all obj) name = none) ∧
    ∀ visited md rest, obj.metadata = visited ++ md :: rest →
      (metadata_delete_all_iter visited obj).metadata = md :: rest ∧
      metadata_find (metadata_delete_all_iter visited obj) (some md.name) = some md ∧
      (metadata_delete (metadata_delete_all_iter visited obj) (some md.name)).metadata = rest := by
  refine ⟨by rw [metadata_delete_all_eq], ?_, ?_⟩
  · intro name
    rw [metadata_delete_all_eq]
    cases name <;> simp [metadata_find, metadata_find_iter]
  · intro visited md rest h
    rw [metadata_delete_all_iter_visited visited (md :: rest) obj h]
    refine ⟨rfl, ?_, ?_⟩
    · simp [metadata_find, metadata_find_iter, strcasecmp_self]
    · rw [metadata_delete_head _ md rest rfl]

/-- C9, on a list that holds the names `Foo`, `x` and `foo`: when the iteration
reaches `foo`, it is the only record left and the one deleted. -/
theorem metadata_delete_all_complete_witness :
    (metadata_delete_all
      { object_zero with metadata :=
          [⟨"Foo".toList, "a".toList⟩, ⟨"x".toList, "1".toList⟩, ⟨"foo".toList, "b".toList⟩] }
      ).metadata = [] ∧
    (metadata_delete_all_iter [⟨"Foo".toList, "a".toList⟩, ⟨"x".toList, "1".toList⟩]
      { object_zero with metadata :=
          [⟨"Foo".toList, "a".toList⟩, ⟨"x".toList, "1".toList⟩, ⟨"foo".toList, "b".toList⟩] }
      ).metadata = [⟨"foo".toList, "b".toList⟩] :=
  ⟨(metadata_delete_all_complete _).1,
   ((metadata_delete_all_complete
      { object_zero with metadata :=
          [⟨"Foo".toList, "a".toList⟩, ⟨"x".toList, "1".toList⟩, ⟨"foo".toList, "b".toList⟩] }
      ).2.2 [⟨"Foo".toList, "a".toList⟩, ⟨"x".toList, "1".toList⟩] ⟨"foo".toList, "b".toList⟩ []
      rfl).1⟩


/-! ## Lemmas: lifecycle -/

theorem to_int_of_range (x : Int) (h1 : -(2 ^ 31) ≤ x) (h2 : x < 2 ^ 31) : to_int x = x := by
  unfold to_int
  omega

theorem run_calls_cons (c : object_call) (cs : List object_call) (w : heap) :
    run_calls (c :: cs) w = (c.apply w).bind (run_calls cs) := by
  cases h : c.apply w <;> simp [run_calls, h]

theorem run_calls_single (c : object_call) (w : heap) : run_calls [c] w = c.apply w := by
  cases h : c.apply w <;> simp [run_calls, h]

theorem run_calls_append (a b : List object_call) :
    ∀ w : heap, run_calls (a ++ b) w = (run_calls a w).bind (run_calls b) := by
  induction a with
  | nil => intro w; rfl
  | cons c a ih =>
    intro w
    rw [List.cons_append, run_calls_cons, run_calls_cons]
    cases h : c.apply w with
    | none => rfl
    | some w1 => exact ih w1

theorem state_after_zero (cs : List object_call) (w : heap) : state_after cs w 0 = some w := rfl

theorem state_after_length (cs : List object_call) (w : heap) :
    state_after cs w cs.length = run_calls cs w := by
  unfold state_after
  rw [List.take_length]

theorem state_after_succ (cs : List object_call) (w : heap) (k : Nat) (c : object_call)
    (h : cs[k]? = some c) :
    state_after cs w (k + 1) = (state_after cs w k).bind c.apply := by
  unfold state_after
  rw [List.take_succ, run_calls_append, h]
  have e : run_calls (some c).toList = c.apply := funext (fun w1 => run_calls_single c w1)
  rw [e]

/-- Every call on an envelope whose block has been released is a use after
free. -/
theorem apply_freed (c : object_call) (s : heap) (hf : s.freed = true) : c.apply s = none := by
  cases c <;> simp [object_call.apply, object_ref, object_sink_ref, object_unref, object_dispose, hf]

theorem object_sink_ref_live (s : heap) (hf : s.freed = false) :
    object_sink_ref s
      = some { s with obj := { s.obj with refcount := to_int (s.obj.refcount - 1) } } := by
  simp [object_sink_ref, hf]

theorem object_ref_live (s : heap) (hf : s.freed = false) :
    object_ref s
      = some { s with obj := { s.obj with refcount := to_int (s.obj.refcount + 1) } } := by
  simp [object_ref, hf]

theorem object_dispose_live (s : heap) (hf : s.freed = false) (h : s.obj.dying = false) :
    ∃ s', object_dispose s = some s' ∧
      s'.effects = s.effects ++ disposal_effects s.obj ∧
      s'.object_list = s.object_list.erase s.addr ∧
      s'.obj.dying = true ∧
      s'.obj.refcount = -1 ∧
      s'.addr = s.addr ∧
      s'.soft_asserts = s.soft_asserts ∧
      s'.freed = teardown_frees s ∧
      s'.destructor_frees = s.destructor_frees ∧
      s'.obj.destructor = s.obj.destructor := by
  cases hdes : s.obj.destructor <;> cases hpd : s.obj.privatedata <;>
    simp [object_dispose, disposal_effects, teardown_frees, hf, h, hdes, hpd,
      metadata_delete_all_eq]

theorem object_dispose_dying (s : heap) (hf : s.freed = false) (h : s.obj.dying = true) :
    object_dispose s =
      some { s with obj := { s.obj with refcount := -1 }, soft_asserts := s.soft_asserts + 1 } := by
  simp [object_dispose, hf, h]

theorem disposal_effects_ne_nil (o : object_t) : disposal_effects o ≠ [] := by
  simp [disposal_effects]

/-- What one `object_ref` or `object_unref` on an envelope that has not been
released does to the teardown state. -/
theorem apply_step (c : object_call) (s : heap) (hc : c = .ref ∨ c = .unref)
    (hf : s.freed = false) :
    ∃ s', c.apply s = some s' ∧
      s'.addr = s.addr ∧ s'.destructor_frees = s.destructor_frees ∧
      s'.obj.destructor = s.obj.destructor ∧
      ((c = .unref ∧ to_int (s.obj.refcount - 1) = 0 ∧ s.obj.dying = false) →
        s'.effects = s.effects ++ disposal_effects s.obj ∧
        s'.object_list = s.object_list.erase s.addr ∧
        s'.obj.dying = true ∧ s'.freed = teardown_frees s) ∧
      (¬ (c = .unref ∧ to_int (s.obj.refcount - 1) = 0 ∧ s.obj.dying = false) →
        s'.effects = s.effects ∧
        s'.object_list = s.object_list ∧
        s'.obj.dying = s.obj.dying ∧ s'.freed = false) := by
  rcases hc with rfl | rfl
  · exact ⟨{ s with obj := { s.obj with refcount := to_int (s.obj.refcount + 1) } },
      object_ref_live s hf, rfl, rfl, rfl,
      fun h => absurd h.1 (by decide), fun _ => ⟨rfl, rfl, rfl, hf⟩⟩
  · have hsink := object_sink_ref_live s hf
    by_cases hz : to_int (s.obj.refcount - 1) = 0
    · by_cases hd : s.obj.dying = false
      · obtain ⟨s', e0, e1, e2, e3, _, e5, _, e7, e8, e9⟩ := object_dispose_live
          { s with obj := { s.obj with refcount := to_int (s.obj.refcount - 1) } } hf hd
        refine ⟨s', ?_, e5, e8, e9, fun _ => ⟨e1, e2, e3, e7⟩,
          fun hn => absurd ⟨rfl, hz, hd⟩ hn⟩
        simp only [object_call.apply, object_unref, hsink, hz, if_true]
        exact e0
      · have hd1 : s.obj.dying = true := by simpa using hd
        refine ⟨{ s with
            obj := { s.obj with refcount := -1 }, soft_asserts := s.soft_asserts + 1 },
          ?_, rfl, rfl, rfl, fun h => absurd h.2.2 hd, fun _ => ⟨rfl, rfl, rfl, hf⟩⟩
        simp only [object_call.apply, object_unref, hsink, hz, if_true]
        exact object_dispose_dying _ hf hd1
    · refine ⟨{ s with obj := { s.obj with refcount := to_int (s.obj.refcount - 1) } },
        ?_, rfl, rfl, rfl, fun h => absurd h.2.1 hz, fun _ => ⟨rfl, rfl, rfl, hf⟩⟩
      simp only [object_call.apply, object_unref, hsink, hz, if_false]

/-- On a state that the first `i` calls reach, call `i` reaches 0 exactly when it
is an `object_unref` on an envelope that has not been released whose decrement
leaves 0. -/
theorem reaches_zero_iff (cs : List object_call) (w s : heap) (i : Nat)
    (hs : state_after cs w i = some s) :
    reaches_zero cs w i ↔
      cs[i]? = some object_call.unref ∧ s.freed = false ∧ to_int (s.obj.refcount - 1) = 0 := by
  unfold reaches_zero
  rw [hs]
  cases hf : s.freed with
  | true => simp [object_sink_ref, hf]
  | false => simp [object_sink_ref, hf]

/-- A state that the first `k + 1` calls reach comes from a state that the first
`k` calls reach, on an envelope that had not been released. -/
theorem state_after_pred (cs : List object_call) (w s : heap) (k : Nat) (hk : k < cs.length)
    (hs : state_after cs w (k + 1) = some s) :
    ∃ t, state_after cs w k = some t ∧ t.freed = false ∧ cs[k].apply t = some s := by
  have hget : cs[k]? = some cs[k] := List.getElem?_eq_getElem hk
  rw [state_after_succ cs w k cs[k] hget] at hs
  cases ht : state_after cs w k with
  | none => rw [ht] at hs; exact absurd hs (by simp)
  | some t =>
    rw [ht] at hs
    have happ : cs[k].apply t = some s := hs
    refine ⟨t, rfl, ?_, happ⟩
    cases hf : t.freed with
    | false => rfl
    | true =>
      rw [apply_freed _ t hf] at happ
      exact absurd happ (by simp)

/-- Along a sequence of `object_ref` and `object_unref` the disposal flag records
whether an earlier release has reached 0; until then the envelope is not
released. -/
theorem dying_iff_reached (cs : List object_call) (w : heap)
    (h1 : ∀ c ∈ cs, c = object_call.ref ∨ c = object_call.unref)
    (hw : w.freed = false) (hd : w.obj.dying = false) (k : Nat) :
    k ≤ cs.length → ∀ s, state_after cs w k = some s →
      s.addr = w.addr ∧ s.destructor_frees = w.destructor_frees ∧
      s.obj.destructor = w.obj.destructor ∧
      ((s.obj.dying = false ∧ s.freed = false ∧ ∀ i, i < k → ¬ reaches_zero cs w i) ∨
       (s.obj.dying = true ∧ ∃ i, i < k ∧ reaches_zero cs w i)) := by
  induction k with
  | zero =>
    intro _ s hs
    have e : s = w := by
      rw [state_after_zero] at hs
      exact (Option.some.inj hs).symm
    subst e
    exact ⟨rfl, rfl, rfl, Or.inl ⟨hd, hw, fun i hi => absurd hi (Nat.not_lt_zero i)⟩⟩
  | succ k ih =>
    intro hk s hs
    have hk2 : k < cs.length := hk
    obtain ⟨t, ht, htf, happ⟩ := state_after_pred cs w s k hk2 hs
    obtain ⟨ha, hdf, hdes, ih2⟩ := ih (Nat.le_of_lt hk2) t ht
    have hget : cs[k]? = some cs[k] := List.getElem?_eq_getElem hk2
    have hc := h1 cs[k] (List.getElem_mem hk2)
    obtain ⟨s2, happ2, s1, sdf, sdes, s2', s3⟩ := apply_step cs[k] t hc htf
    have e : s2 = s := by
      rw [happ] at happ2
      exact (Option.some.inj happ2).symm
    subst e
    have hrz := reaches_zero_iff cs w t k ht
    refine ⟨s1.trans ha, sdf.trans hdf, sdes.trans hdes, ?_⟩
    by_cases hz : cs[k] = .unref ∧ to_int (t.obj.refcount - 1) = 0
    · right
      have hr : reaches_zero cs w k := hrz.2 ⟨by rw [hget, hz.1], htf, hz.2⟩
      rcases ih2 with ⟨hl, _, _⟩ | ⟨hl, i, hi, hri⟩
      · exact ⟨(s2' ⟨hz.1, hz.2, hl⟩).2.2.1, k, Nat.lt_succ_self k, hr⟩
      · have h3 := s3 (fun h => by rw [hl] at h; exact absurd h.2.2 (by simp))
        exact ⟨h3.2.2.1.trans hl, i, Nat.lt_succ_of_lt hi, hri⟩
    · have h3 := s3 (fun h => hz ⟨h.1, h.2.1⟩)
      have hnr : ¬ reaches_zero cs w k := by
        intro hr
        have h4 := hrz.1 hr
        apply hz
        refine ⟨?_, h4.2.2⟩
        have := h4.1
        rw [hget] at this
        exact Option.some.inj this
      rcases ih2 with ⟨hl, _, hno⟩ | ⟨hl, i, hi, hri⟩
      · left
        refine ⟨h3.2.2.1.trans hl, h3.2.2.2, fun i hi => ?_⟩
        rcases Nat.lt_succ_iff_lt_or_eq.1 hi with h | h
        · exact hno i h
        · subst h; exact hnr
      · right
        exact ⟨h3.2.2.1.trans hl, i, Nat.lt_succ_of_lt hi, hri⟩

theorem count_take_succ_cons (c d : object_call) (cs : List object_call) (k : Nat) :
    ((c :: cs).take (k + 1)).count d = (cs.take k).count d + if c = d then 1 else 0 := by
  rw [List.take_succ_cons, List.count_cons]
  simp

/-- While every prefix of the calls leaves the count above 0 and the acquires
leave it below `2 ^ 31`, the calls return and nothing but the count changes. -/
theorem run_calls_live (cs : List object_call) :
    ∀ s : heap, s.freed = false →
      (∀ c ∈ cs, c = object_call.ref ∨ c = object_call.unref) →
      (∀ k, k ≤ cs.length →
        (((cs.take k).count object_call.unref : Nat) : Int)
          < s.obj.refcount + (((cs.take k).count object_call.ref : Nat) : Int)) →
      s.obj.refcount + ((cs.count object_call.ref : Nat) : Int) < 2 ^ 31 →
      ∃ s', run_calls cs s = some s' ∧
        s'.obj.refcount
          = s.obj.refcount + ((cs.count object_call.ref : Nat) : Int)
              - ((cs.count object_call.unref : Nat) : Int) ∧
        s'.freed = false ∧ s'.obj.dying = s.obj.dying ∧ s'.effects = s.effects ∧
        s'.object_list = s.object_list := by
  induction cs with
  | nil =>
    intro s hf _ _ _
    exact ⟨s, rfl, by simp, hf, rfl, rfl, rfl⟩
  | cons c cs ih =>
    intro s hf h1 h2 h3
    have hc := h1 c (List.mem_cons_self _ _)
    have h1t : ∀ d ∈ cs, d = object_call.ref ∨ d = object_call.unref :=
      fun d hd => h1 d (List.mem_cons_of_mem _ hd)
    have hpos : 0 < s.obj.refcount := by
      have := h2 0 (Nat.zero_le _)
      simpa using this
    rw [run_calls_cons]
    rcases hc with rfl | rfl
    · have hcnt : (object_call.ref :: cs).count object_call.ref
          = cs.count object_call.ref + 1 := by simp [List.count_cons]
      have hcnt2 : (object_call.ref :: cs).count object_call.unref
          = cs.count object_call.unref := by simp [List.count_cons]
      rw [hcnt] at h3
      have hti : to_int (s.obj.refcount + 1) = s.obj.refcount + 1 :=
        to_int_of_range _ (by omega) (by push_cast at h3; omega)
      have happ : object_call.ref.apply s
          = some { s with obj := { s.obj with refcount := s.obj.refcount + 1 } } := by
        simp only [object_call.apply]
        rw [object_ref_live s hf, hti]
      rw [happ]
      obtain ⟨s', r1, r2, r3, r4, r5, r6⟩ :=
        ih { s with obj := { s.obj with refcount := s.obj.refcount + 1 } } hf h1t
          (by
            intro k hk
            have := h2 (k + 1) (Nat.succ_le_succ hk)
            rw [count_take_succ_cons, count_take_succ_cons] at this
            simp at this
            show _ < s.obj.refcount + 1 + _
            omega)
          (by
            show s.obj.refcount + 1 + _ < _
            push_cast at h3
            omega)
      refine ⟨s', r1, ?_, r3, r4, r5, r6⟩
      rw [r2, hcnt, hcnt2]
      show s.obj.refcount + 1 + _ - _ = _
      push_cast
      ring
    · have h0 := h2 1 (by simp)
      rw [count_take_succ_cons, count_take_succ_cons] at h0
      simp at h0
      have hcnt : (object_call.unref :: cs).count object_call.ref
          = cs.count object_call.ref := by simp [List.count_cons]
      have hcnt2 : (object_call.unref :: cs).count object_call.unref
          = cs.count object_call.unref + 1 := by simp [List.count_cons]
      rw [hcnt] at h3
      have hti : to_int (s.obj.refcount - 1) = s.obj.refcount - 1 :=
        to_int_of_range _ (by omega) (by omega)
      have hne : s.obj.refcount - 1 ≠ 0 := by omega
      have happ : object_call.unref.apply s
          = some { s with obj := { s.obj with refcount := s.obj.refcount - 1 } } := by
        simp only [object_call.apply, object_unref]
        rw [object_sink_ref_live s hf, hti]
        simp [hne]
      rw [happ]
      obtain ⟨s', r1, r2, r3, r4, r5, r6⟩ :=
        ih { s with obj := { s.obj with refcount := s.obj.refcount - 1 } } hf h1t
          (by
            intro k hk
            have := h2 (k + 1) (Nat.succ_le_succ hk)
            rw [count_take_succ_cons, count_take_succ_cons] at this
            simp at this
            show _ < s.obj.refcount - 1 + _
            omega)
          (by
            show s.obj.refcount - 1 + _ < _
            omega)
      refine ⟨s', r1, ?_, r3, r4, r5, r6⟩
      rw [r2, hcnt, hcnt2]
      show s.obj.refcount - 1 + _ - _ = _
      push_cast
      ring

/-! ## Claims on the object lifecycle -/

/-- C3, as amended. Refcount conservation for a live object: after `object_init`
and any sequence of `object_ref` and `object_unref` calls in which no prefix
holds more releases than acquires (so the count never reaches 0 and the object
is never disposed) and which holds fewer than `2 ^ 31 - 1` acquires (so the C
`int` never leaves its range), every call returns and the count is `1 + n - m`
for the `n` acquires and `m` releases of the sequence. -/
theorem refcount_conservation (w : heap) (name : Option (List Char)) (des : Option Nat)
    (cs : List object_call) (hw : w.freed = false)
    (h1 : ∀ c ∈ cs, c = object_call.ref ∨ c = object_call.unref)
    (h2 : ∀ k, k ≤ cs.length →
      (cs.take k).count object_call.unref ≤ (cs.take k).count object_call.ref)
    (h3 : cs.count object_call.ref < 2 ^ 31 - 1) :
    ∃ s, run_calls cs (object_init w name des) = some s ∧
      s.obj.refcount
        = 1 + ((cs.count object_call.ref : Nat) : Int)
            - ((cs.count object_call.unref : Nat) : Int) := by
  have hr : (object_init w name des).obj.refcount = 1 := rfl
  obtain ⟨s, r1, r2, _⟩ := run_calls_live cs (object_init w name des) hw h1
    (by
      intro k hk
      have := h2 k hk
      rw [hr]
      omega)
    (by
      rw [hr]
      omega)
  exact ⟨s, r1, by rw [r2, hr]⟩

/-- C3 at two acquires and one release on a fresh object: the count is 2. -/
theorem refcount_conservation_witness :
    (run_calls [object_call.ref, object_call.unref, object_call.ref]
        (object_init ⟨0, object_zero, [], [], 0, false, false⟩ none none)).map
        (fun s => s.obj.refcount)
      = some 2 := by
  obtain ⟨s, r1, r2⟩ := refcount_conservation ⟨0, object_zero, [], [], 0, false, false⟩ none none
    [object_call.ref, object_call.unref, object_call.ref] rfl (by decide) (by decide)
    (by decide)
  rw [r1, Option.map, r2]
  decide

/-- C3 as stated fails: one release followed by one acquire has `n = 1` acquires
and `m = 1` releases, `n ≥ m`, yet the release disposes the object (count -1)
and the acquire, on an envelope that its destructor has left allocated, leaves
the count at 0, not at `1 + n - m = 1`. -/
theorem refcount_conservation_fails :
    [object_call.unref, object_call.ref].count object_call.unref
      ≤ [object_call.unref, object_call.ref].count object_call.ref ∧
    (run_calls [object_call.unref, object_call.ref]
        (object_init ⟨0, object_zero, [], [], 0, false, false⟩ none (some 7))).map
        (fun s => s.obj.refcount)
      = some 0 ∧
    (0 : Int)
      ≠ 1 + (([object_call.unref, object_call.ref].count object_call.ref : Nat) : Int)
          - (([object_call.unref, object_call.ref].count object_call.unref : Nat) : Int) := by
  decide

/-- An acquire at the largest `int` wraps the count around to the smallest one. -/
theorem object_ref_wraps :
    (object_ref ⟨0, { object_zero with refcount := 2 ^ 31 - 1 }, [], [], 0, false, false⟩).map
        (fun s => s.obj.refcount)
      = some (-(2 ^ 31)) := by
  decide

/-- C4, as amended. Disposal exactly once, precisely at zero, as far as the calls
are made on an envelope that has not been released: along any sequence of
`object_ref` and `object_unref` calls on an initialised object, from a state `s`
that the first `j` calls reach, call number `j` returns and performs the
teardown (registry unlink, then destructor or default free path, then release
of the private-data map) exactly when it is the first `object_unref` whose
decrement leaves the count at 0; every other call leaves the teardown trace and
the registry untouched, so no two calls of the sequence perform it. Once a
teardown has released the envelope, call number `j` is a use after free. -/
theorem disposal_exactly_once (w : heap) (name : Option (List Char)) (des : Option Nat)
    (cs : List object_call)
    (h1 : ∀ c ∈ cs, c = object_call.ref ∨ c = object_call.unref)
    (hw : w.freed = false) (hd : w.obj.dying = false) (j : Nat) (hj : j < cs.length)
    (s : heap) (hs : state_after cs (object_init w name des) j = some s) :
    (s.freed = true →
      state_after cs (object_init w name des) (j + 1) = none ∧
      teardown_frees (object_init w name des) = true ∧
      ∃ i, i < j ∧ reaches_zero cs (object_init w name des) i) ∧
    (s.freed = false →
      ∃ s', state_after cs (object_init w name des) (j + 1) = some s' ∧
        ((reaches_zero cs (object_init w name des) j ∧
            ∀ i, i < j → ¬ reaches_zero cs (object_init w name des) i) →
          s'.effects = s.effects ++ disposal_effects s.obj ∧
          s'.object_list = s.object_list.erase w.addr ∧
          s'.freed = teardown_frees (object_init w name des)) ∧
        (¬ (reaches_zero cs (object_init w name des) j ∧
            ∀ i, i < j → ¬ reaches_zero cs (object_init w name des) i) →
          s'.effects = s.effects ∧ s'.object_list = s.object_list ∧ s'.freed = false) ∧
        (∀ i t t', i < j → state_after cs (object_init w name des) i = some t →
          state_after cs (object_init w name des) (i + 1) = some t' →
          t'.effects ≠ t.effects → s'.effects = s.effects)) := by
  have hw0 : (object_init w name des).freed = false := hw
  have hd0 : (object_init w name des).obj.dying = false := hd
  have hget : cs[j]? = some cs[j] := List.getElem?_eq_getElem hj
  have hc := h1 cs[j] (List.getElem_mem hj)
  have hsucc := state_after_succ cs (object_init w name des) j cs[j] hget
  obtain ⟨ha, hdf, hdes, inv⟩ :=
    dying_iff_reached cs (object_init w name des) h1 hw0 hd0 j (Nat.le_of_lt hj) s hs
  have haddr : s.addr = w.addr := ha
  have htf : teardown_frees s = teardown_frees (object_init w name des) := by
    unfold teardown_frees
    rw [hdes, hdf]
  have hrz := reaches_zero_iff cs (object_init w name des) s j hs
  constructor
  · intro hf
    have hnone : state_after cs (object_init w name des) (j + 1) = none := by
      rw [hsucc, hs]
      exact apply_freed _ s hf
    have hex : ∃ i, i < j ∧ reaches_zero cs (object_init w name des) i := by
      rcases inv with ⟨_, hl, _⟩ | ⟨_, hex⟩
      · rw [hf] at hl; exact absurd hl (by simp)
      · exact hex
    refine ⟨hnone, ?_, hex⟩
    -- the envelope was released by the teardown of an earlier call
    obtain ⟨i0, hi0, hr0⟩ := hex
    by_contra hnf
    have hnf2 : teardown_frees (object_init w name des) = false := by simpa using hnf
    -- no state up to j is released when the teardown does not release
    have hall : ∀ k, k ≤ j → ∀ t, state_after cs (object_init w name des) k = some t →
        t.freed = false := by
      intro k
      induction k with
      | zero =>
        intro _ t ht
        rw [state_after_zero] at ht
        rw [← Option.some.inj ht]
        exact hw0
      | succ k ihk =>
        intro hk t ht
        have hk2 : k < cs.length := Nat.lt_of_lt_of_le (Nat.lt_of_succ_le hk) (Nat.le_of_lt hj)
        obtain ⟨u, hu, huf, happ⟩ := state_after_pred cs (object_init w name des) t k hk2 ht
        obtain ⟨_, udf, udes, _⟩ :=
          dying_iff_reached cs (object_init w name des) h1 hw0 hd0 k (Nat.le_of_lt hk2) u hu
        obtain ⟨t2, happ2, _, _, _, a2, a3⟩ :=
          apply_step cs[k] u (h1 _ (List.getElem_mem hk2)) huf
        have e : t2 = t := by
          rw [happ] at happ2
          exact (Option.some.inj happ2).symm
        subst e
        by_cases hz : cs[k] = .unref ∧ to_int (u.obj.refcount - 1) = 0 ∧ u.obj.dying = false
        · rw [(a2 hz).2.2.2]
          unfold teardown_frees
          rw [udes, udf]
          exact hnf2
        · exact (a3 hz).2.2.2
    have := hall j (Nat.le_refl _) s hs
    rw [hf] at this
    exact absurd this (by simp)
  · intro hf
    obtain ⟨s', happ, _, _, _, s2, s3⟩ := apply_step cs[j] s hc hf
    have hs' : state_after cs (object_init w name des) (j + 1) = some s' := by
      rw [hsucc, hs]
      exact happ
    have notfirst : ¬ (reaches_zero cs (object_init w name des) j ∧
          ∀ i, i < j → ¬ reaches_zero cs (object_init w name des) i) →
        s'.effects = s.effects ∧ s'.object_list = s.object_list ∧ s'.freed = false := by
      intro hn
      have h3 := s3 (fun h => by
        rcases inv with ⟨_, _, hno⟩ | ⟨hl, _⟩
        · exact hn ⟨hrz.2 ⟨by rw [hget, h.1], hf, h.2.1⟩, hno⟩
        · rw [hl] at h; exact absurd h.2.2 (by simp))
      exact ⟨h3.1, h3.2.1, h3.2.2.2⟩
    refine ⟨s', hs', ?_, notfirst, ?_⟩
    · rintro ⟨hr, hfirst⟩
      have hl : s.obj.dying = false := by
        rcases inv with ⟨hl, _⟩ | ⟨_, i, hi, hri⟩
        · exact hl
        · exact absurd hri (hfirst i hi)
      have h4 := hrz.1 hr
      have hcu : cs[j] = object_call.unref := by
        have := h4.1
        rw [hget] at this
        exact Option.some.inj this
      have h2 := s2 ⟨hcu, h4.2.2, hl⟩
      exact ⟨h2.1, by rw [h2.2.1, haddr], by rw [h2.2.2.2, htf]⟩
    · intro i t t' hi ht ht' hne
      have hi2 : i < cs.length := Nat.lt_trans hi hj
      have hri : reaches_zero cs (object_init w name des) i := by
        by_contra hnr
        obtain ⟨u, hu, huf, happi⟩ := state_after_pred cs (object_init w name des) t' i hi2 ht'
        have e : u = t := by
          rw [ht] at hu
          exact (Option.some.inj hu).symm
        subst e
        obtain ⟨t2, happ2, _, _, _, _, t3⟩ :=
          apply_step cs[i] u (h1 _ (List.getElem_mem hi2)) huf
        have e2 : t2 = t' := by
          rw [happi] at happ2
          exact (Option.some.inj happ2).symm
        subst e2
        have hrzi := reaches_zero_iff cs (object_init w name des) u i ht
        have hgi : cs[i]? = some cs[i] := List.getElem?_eq_getElem hi2
        apply hne
        exact (t3 (fun h => hnr (hrzi.2 ⟨by rw [hgi, h.1], huf, h.2.1⟩))).1
      exact (notfirst (fun h => h.2 i hi hri)).1

/-- C4 on acquire, release, release, acquire, acquire, release, on an object whose
destructor leaves the envelope allocated: the third call (index 2) is the first
release that reaches 0 and performs the teardown; the last call reaches 0
again and performs none. -/
theorem disposal_exactly_once_witness :
    (state_after
        [object_call.ref, object_call.unref, object_call.unref, object_call.ref,
          object_call.ref, object_call.unref]
        (object_init ⟨5, object_zero, [3], [], 0, false, false⟩ none (some 7)) 3).map
        (fun s => s.effects)
      = some [effect.node_delete, effect.destructor 7] ∧
    (state_after
        [object_call.ref, object_call.unref, object_call.unref, object_call.ref,
          object_call.ref, object_call.unref]
        (object_init ⟨5, object_zero, [3], [], 0, false, false⟩ none (some 7)) 6).map
        (fun s => s.effects)
      = some [effect.node_delete, effect.destructor 7] := by
  obtain ⟨s3, a1, a2, _, _⟩ :=
    (disposal_exactly_once ⟨5, object_zero, [3], [], 0, false, false⟩ none (some 7)
      [object_call.ref, object_call.unref, object_call.unref, object_call.ref,
        object_call.ref, object_call.unref] (by decide) rfl rfl 2 (by decide)
      ⟨5, { object_zero with refcount := 1, destructor := some 7 }, [3, 5], [], 0, false, false⟩
      (by decide)).2 rfl
  obtain ⟨s6, b1, _, b3, _⟩ :=
    (disposal_exactly_once ⟨5, object_zero, [3], [], 0, false, false⟩ none (some 7)
      [object_call.ref, object_call.unref, object_call.unref, object_call.ref,
        object_call.ref, object_call.unref] (by decide) rfl rfl 5 (by decide)
      ⟨5, { object_zero with refcount := 1, dying := true, destructor := some 7 }, [3],
        [effect.node_delete, effect.destructor 7], 0, false, false⟩
      (by decide)).2 rfl
  constructor
  · have h := (a2 ⟨by unfold reaches_zero; decide, by
      intro i hi
      unfold reaches_zero
      interval_cases i <;> decide⟩).1
    rw [a1, Option.map, h]
    rfl
  · have h := (b3 (fun hh => hh.2 2 (by decide) (by unfold reaches_zero; decide))).1
    rw [b1, Option.map, h]

/-- C4 as stated fails on an object with the default teardown: the first release
reaches 0 and performs the teardown, which ends in `free` and releases the
envelope; the release that follows is a use after free, with no defined
behaviour, and nothing holds it back from a second teardown. -/
theorem disposal_use_after_free :
    (state_after [object_call.unref, object_call.unref]
        (object_init ⟨5, object_zero, [3], [], 0, false, false⟩ none none) 1).map
        (fun s => (s.effects, s.freed))
      = some ([effect.node_delete, effect.metadata_delete_all, effect.free], true) ∧
    state_after [object_call.unref, object_call.unref]
        (object_init ⟨5, object_zero, [3], [], 0, false, false⟩ none none) 2
      = none := by
  decide

/-- C5, as amended. No double free on an envelope that the teardown leaves
allocated: the first `object_dispose` on a not yet disposed object performs each
teardown call once (registry unlink, then the custom destructor or
`metadata_delete_all` and `free`, then destruction of the private-data map when
there is one); when that leaves the envelope allocated, a second call stops at
the assertion on the disposal flag and changes nothing but the count of failed
assertions. When the first call has released the envelope, as the default
path always does, the second call is a use after free. -/
theorem no_double_free (w : heap) (hf : w.freed = false) (h : w.obj.dying = false) :
    ∃ s1, object_dispose w = some s1 ∧
      s1.effects = w.effects ++ disposal_effects w.obj ∧
      s1.object_list = w.object_list.erase w.addr ∧
      s1.obj.dying = true ∧
      s1.freed = teardown_frees w ∧
      (teardown_frees w = false →
        object_dispose s1 = some { s1 with soft_asserts := s1.soft_asserts + 1 } ∧
        (object_dispose s1).map (fun s2 => s2.effects)
          = some (w.effects ++ disposal_effects w.obj)) ∧
      (teardown_frees w = true → object_dispose s1 = none) := by
  obtain ⟨s1, e0, e1, e2, e3, e4, _, _, e7, _, _⟩ := object_dispose_live w hf h
  refine ⟨s1, e0, e1, e2, e3, e7, ?_, ?_⟩
  · intro hk
    have hf1 : s1.freed = false := by rw [e7, hk]
    have h2 := object_dispose_dying s1 hf1 e3
    have hobj : ({ s1.obj with refcount := -1 } : object_t) = s1.obj := by
      cases s1 with
      | mk addr obj object_list effects soft_asserts freed destructor_frees =>
        cases obj
        simp_all
    rw [h2, hobj]
    exact ⟨rfl, by rw [Option.map, e1]⟩
  · intro hk
    have hf1 : s1.freed = true := by rw [e7, hk]
    simp [object_dispose, hf1]

/-- C5 on a registered object with a private-data map and a destructor that
leaves the envelope allocated: after two calls the teardown trace holds each
call once. -/
theorem no_double_free_witness :
    ((object_dispose
        ⟨5, { object_zero with refcount := 1, destructor := some 7, privatedata := some [] },
          [3, 5], [], 0, false, false⟩).bind object_dispose).map
        (fun s => (s.effects, s.object_list, s.soft_asserts))
      = some ([effect.node_delete, effect.destructor 7, effect.patricia_destroy], [3], 1) := by
  obtain ⟨s1, e0, _, _, _, _, e5, _⟩ := no_double_free
    ⟨5, { object_zero with refcount := 1, destructor := some 7, privatedata := some [] },
      [3, 5], [], 0, false, false⟩ rfl rfl
  have hs1 : s1 = ⟨5, ⟨-1, true, some 7, [], some []⟩, [3],
      [effect.node_delete, effect.destructor 7, effect.patricia_destroy], 0, false, false⟩ := by
    have : object_dispose
        ⟨5, { object_zero with refcount := 1, destructor := some 7, privatedata := some [] },
          [3, 5], [], 0, false, false⟩
        = some ⟨5, ⟨-1, true, some 7, [], some []⟩, [3],
          [effect.node_delete, effect.destructor 7, effect.patricia_destroy], 0, false,
          false⟩ := by decide
    rw [this] at e0
    exact (Option.some.inj e0).symm
  rw [e0, Option.bind, (e5 rfl).1, hs1]
  rfl

/-- C5 as stated fails on an object with the default teardown: the first
`object_dispose` ends in `free` and releases the envelope, so the second call
does not stop at the disposal flag: its store to the count and its read of the
flag are a use after free. -/
theorem double_dispose_use_after_free :
    (object_dispose
        ⟨5, { object_zero with refcount := 1, privatedata := some [] }, [3, 5], [], 0, false,
          false⟩).map (fun s => (s.effects, s.freed))
      = some ([effect.node_delete, effect.metadata_delete_all, effect.free,
          effect.patricia_destroy], true) ∧
    (object_dispose
        ⟨5, { object_zero with refcount := 1, privatedata := some [] }, [3, 5], [], 0, false,
          false⟩).bind object_dispose
      = none := by
  decide

theorem count_take_le (cs : List object_call) (k : Nat) (c : object_call) :
    (cs.take k).count c ≤ cs.count c :=
  (List.take_sublist k cs).count_le c

/-- One call other than a bare `object_sink_ref` on a live object with a positive
count that the call leaves within the range of `int`: it returns, and leaves
the object live with a positive count, or disposed with the count at -1. -/
theorem apply_live_range (c : object_call) (s : heap) (hc : c ≠ object_call.sink_ref)
    (hf : s.freed = false) (hl : s.obj.dying = false) (hp : 0 < s.obj.refcount)
    (hb : s.obj.refcount + (if c = object_call.ref then 1 else 0) < 2 ^ 31) :
    ∃ s', c.apply s = some s' ∧
      ((s'.obj.dying = false ∧ s'.freed = false ∧ 0 < s'.obj.refcount ∧
          s'.obj.refcount ≤ s.obj.refcount + (if c = object_call.ref then 1 else 0)) ∨
       (s'.obj.dying = true ∧ s'.obj.refcount = -1)) := by
  cases c with
  | ref =>
    rw [if_pos rfl] at hb
    have hti : to_int (s.obj.refcount + 1) = s.obj.refcount + 1 :=
      to_int_of_range _ (by omega) (by omega)
    refine ⟨{ s with obj := { s.obj with refcount := to_int (s.obj.refcount + 1) } },
      object_ref_live s hf, Or.inl ⟨hl, hf, ?_, ?_⟩⟩
    · show 0 < to_int (s.obj.refcount + 1)
      rw [hti]
      omega
    · show to_int (s.obj.refcount + 1) ≤ _
      rw [hti]
      simp
  | sink_ref => exact absurd rfl hc
  | unref =>
    rw [if_neg (by decide)] at hb
    have hti : to_int (s.obj.refcount - 1) = s.obj.refcount - 1 :=
      to_int_of_range _ (by omega) (by omega)
    have hsink := object_sink_ref_live s hf
    by_cases hz : to_int (s.obj.refcount - 1) = 0
    · obtain ⟨s', e0, _, _, e3, e4, _⟩ := object_dispose_live
        { s with obj := { s.obj with refcount := to_int (s.obj.refcount - 1) } } hf hl
      refine ⟨s', ?_, Or.inr ⟨e3, e4⟩⟩
      simp only [object_call.apply, object_unref, hsink, hz, if_true]
      exact e0
    · refine ⟨{ s with obj := { s.obj with refcount := to_int (s.obj.refcount - 1) } },
        ?_, Or.inl ⟨hl, hf, ?_, ?_⟩⟩
      · simp only [object_call.apply, object_unref, hsink, hz, if_false]
      · show 0 < to_int (s.obj.refcount - 1)
        rw [hti] at hz ⊢
        omega
      · show to_int (s.obj.refcount - 1) ≤ _
        rw [hti]
        simp
  | dispose =>
    obtain ⟨s', e0, _, _, e3, e4, _⟩ := object_dispose_live s hf hl
    exact ⟨s', e0, Or.inr ⟨e3, e4⟩⟩

/-- C6, as amended. Refcount range on a properly used object: in every state
reached from `object_init` by `object_ref`, `object_unref` and `object_dispose`
calls, fewer than `2 ^ 31 - 1` of them acquires and none of them issued once
disposal has begun, every call returns and the object is either not disposed
with a positive count, or disposed with the count at exactly -1. -/
theorem refcount_range (w : heap) (name : Option (List Char)) (des : Option Nat)
    (cs : List object_call) (hw : w.freed = false) (hd : w.obj.dying = false)
    (h1 : ∀ c ∈ cs, c ≠ object_call.sink_ref)
    (h2 : ∀ k s, k < cs.length → state_after cs (object_init w name des) k = some s →
      s.obj.dying = false)
    (h3 : cs.count object_call.ref < 2 ^ 31 - 1) :
    ∃ s, run_calls cs (object_init w name des) = some s ∧
      ((s.obj.dying = false ∧ 0 < s.obj.refcount) ∨
       (s.obj.dying = true ∧ s.obj.refcount = -1)) := by
  have main : ∀ k, k ≤ cs.length →
      ∃ s, state_after cs (object_init w name des) k = some s ∧
        ((s.obj.dying = false ∧ s.freed = false ∧ 0 < s.obj.refcount ∧
            s.obj.refcount ≤ 1 + (((cs.take k).count object_call.ref : Nat) : Int)) ∨
         (s.obj.dying = true ∧ s.obj.refcount = -1)) := by
    intro k
    induction k with
    | zero =>
      intro _
      refine ⟨object_init w name des, rfl, Or.inl ⟨hd, hw, ?_, ?_⟩⟩
      · show (0 : Int) < 1
        decide
      · show (1 : Int) ≤ 1 + _
        simp
    | succ k ih =>
      intro hk
      have hk2 : k < cs.length := hk
      have hget : cs[k]? = some cs[k] := List.getElem?_eq_getElem hk2
      obtain ⟨t, ht, hinv⟩ := ih (Nat.le_of_lt hk2)
      have hl := h2 k t hk2 ht
      rw [state_after_succ cs _ k cs[k] hget, ht]
      rcases hinv with ⟨_, htf, hp, hle⟩ | ⟨hdy, _⟩
      · have hcnt : (cs.take (k + 1)).count object_call.ref
            = (cs.take k).count object_call.ref
              + (if cs[k] = object_call.ref then 1 else 0) := by
          rw [List.take_succ, hget, List.count_append]
          by_cases hr : cs[k] = object_call.ref
          · simp [hr]
          · simp [hr, List.count_cons]
        have hbound : (cs.take (k + 1)).count object_call.ref < 2 ^ 31 - 1 :=
          Nat.lt_of_le_of_lt (count_take_le cs (k + 1) _) h3
        have hb : t.obj.refcount + (if cs[k] = object_call.ref then 1 else 0) < 2 ^ 31 := by
          by_cases hr : cs[k] = object_call.ref
          · have hc1 : (cs.take (k + 1)).count object_call.ref
                = (cs.take k).count object_call.ref + 1 := by
              rw [hcnt, if_pos hr]
            rw [if_pos hr]
            omega
          · have := Nat.lt_of_le_of_lt (count_take_le cs k object_call.ref) h3
            rw [if_neg hr]
            omega
        obtain ⟨s', e0, e1⟩ := apply_live_range cs[k] t (h1 _ (List.getElem_mem hk2)) htf hl hp hb
        refine ⟨s', e0, ?_⟩
        rcases e1 with ⟨a1, a2, a3, a4⟩ | e1
        · left
          refine ⟨a1, a2, a3, ?_⟩
          by_cases hr : cs[k] = object_call.ref
          · have hc1 : (cs.take (k + 1)).count object_call.ref
                = (cs.take k).count object_call.ref + 1 := by
              rw [hcnt, if_pos hr]
            rw [if_pos hr] at a4
            rw [hc1]
            push_cast
            omega
          · have hc1 : (cs.take (k + 1)).count object_call.ref
                = (cs.take k).count object_call.ref := by
              rw [hcnt, if_neg hr]
              rfl
            rw [if_neg hr] at a4
            rw [hc1]
            omega
        · exact Or.inr e1
      · rw [hl] at hdy
        exact absurd hdy (by simp)
  obtain ⟨s, hs, hinv⟩ := main cs.length (Nat.le_refl _)
  rw [state_after_length] at hs
  refine ⟨s, hs, ?_⟩
  rcases hinv with ⟨a1, _, a3, _⟩ | h
  · exact Or.inl ⟨a1, a3⟩
  · exact Or.inr h

/-- C6 on acquire, release, dispose: the object ends disposed with count -1. -/
theorem refcount_range_witness :
    (run_calls [object_call.ref, object_call.unref, object_call.dispose]
        (object_init ⟨0, object_zero, [], [], 0, false, false⟩ none none)).map
        (fun s => (s.obj.dying, s.obj.refcount))
      = some (true, -1) := by
  obtain ⟨s, hs, key⟩ := refcount_range ⟨0, object_zero, [], [], 0, false, false⟩ none none
    [object_call.ref, object_call.unref, object_call.dispose] rfl rfl (by decide)
    (by
      intro k s hk hs
      have hk3 : k < 3 := hk
      interval_cases k
      · have e : s = object_init ⟨0, object_zero, [], [], 0, false, false⟩ none none :=
          (Option.some.inj hs).symm
        rw [e]
        rfl
      · have e : state_after [object_call.ref, object_call.unref, object_call.dispose]
            (object_init ⟨0, object_zero, [], [], 0, false, false⟩ none none) 1
            = some ⟨0, ⟨2, false, none, [], none⟩, [0], [], 0, false, false⟩ := by decide
        rw [e] at hs
        rw [← Option.some.inj hs]
      · have e : state_after [object_call.ref, object_call.unref, object_call.dispose]
            (object_init ⟨0, object_zero, [], [], 0, false, false⟩ none none) 2
            = some ⟨0, ⟨1, false, none, [], none⟩, [0], [], 0, false, false⟩ := by decide
        rw [e] at hs
        rw [← Option.some.inj hs])
    (by decide)
  rw [hs, Option.map]
  rcases key with ⟨h, _⟩ | ⟨h1, h2⟩
  · have e : run_calls [object_call.ref, object_call.unref, object_call.dispose]
        (object_init ⟨0, object_zero, [], [], 0, false, false⟩ none none)
        = some ⟨0, ⟨-1, true, none, [], none⟩, [], [effect.node_delete,
            effect.metadata_delete_all, effect.free], 0, true, false⟩ := by decide
    rw [e] at hs
    rw [← Option.some.inj hs] at h
    exact absurd h (by decide)
  · rw [h1, h2]

/-- C6 as stated fails: a bare `object_sink_ref` on a fresh object leaves the count
at 0, and a release issued once disposal has set the count to -1, on an
envelope that the destructor has left allocated, leaves it at -2; both values
are neither positive nor -1. -/
theorem refcount_range_fails :
    (run_calls [object_call.sink_ref]
        (object_init ⟨0, object_zero, [], [], 0, false, false⟩ none (some 7))).map
        (fun s => s.obj.refcount)
      = some 0 ∧
    (run_calls [object_call.dispose, object_call.unref]
        (object_init ⟨0, object_zero, [], [], 0, false, false⟩ none (some 7))).map
        (fun s => s.obj.refcount)
      = some (-2) := by
  decide

/-! ## Lemmas: the line buffer -/

theorem srealloc_length (fresh : Nat → Char) (buf : List Char) (size : Nat) :
    (srealloc fresh buf size).length = size := by
  simp [srealloc]
  omega

theorem srealloc_take (fresh : Nat → Char) (buf : List Char) (size k : Nat)
    (h1 : k ≤ buf.length) (h2 : buf.length ≤ size) :
    (srealloc fresh buf size).take k = buf.take k := by
  unfold srealloc
  rw [List.take_of_length_le h2, List.take_append_of_le_length h1]

theorem take_succ_set (buf : List Char) (n : Nat) (c : Char) (h : n < buf.length) :
    (buf.set n c).take (n + 1) = buf.take n ++ [c] := by
  rw [List.set_eq_take_append_cons_drop, if_pos h, List.take_append_eq_append_take]
  simp [List.length_take, Nat.min_eq_left (Nat.le_of_lt h)]

theorem set_eq_append_of_take (buf : List Char) (n : Nat) (x : Char) (h : n < buf.length) :
    buf.set n x = buf.take n ++ x :: buf.drop (n + 1) := by
  rw [List.set_eq_take_append_cons_drop, if_pos h]

/-- The loop of `opensex_read_next_row` on a line of fewer than `2 ^ 31` characters
still to store: it stores them all, stops at the newline or at end of file, and
keeps `n` inside the block. -/
theorem read_next_row_loop_ok (fresh : Nat → Char) (body : List Char) :
    ∀ (n : Nat) (buf : List Char) (bufsize : Nat) (tail : List Char),
      '\n' ∉ body → (tail = [] ∨ ∃ rest, tail = '\n' :: rest) →
      buf.length = bufsize → n < bufsize → bufsize < 2 ^ 32 → n + body.length < 2 ^ 31 →
      ∃ buf2 bs2,
        read_next_row_loop fresh (body ++ tail) n buf bufsize
          = .ok (tail.head?, tail.tail, n + body.length, buf2, bs2) ∧
        buf2.length = bs2 ∧ n + body.length < bs2 ∧ bs2 < 2 ^ 32 ∧
        buf2.take (n + body.length) = buf.take n ++ body := by
  induction body with
  | nil =>
    intro n buf bufsize tail _ htail hb hn hbs _
    refine ⟨buf, bufsize, ?_, hb, by simpa using hn, hbs, by simp⟩
    rcases htail with rfl | ⟨rest, rfl⟩
    · simp [read_next_row_loop]
    · simp [read_next_row_loop]
  | cons c body ih =>
    intro n buf bufsize tail hnl htail hb hn hbs hlen
    have hc : c ≠ '\n' := fun h => hnl (by simp [h])
    have hnl2 : '\n' ∉ body := fun h => hnl (List.mem_cons_of_mem _ h)
    have hlen2 : n + 1 + body.length < 2 ^ 31 := by
      simp only [List.length_cons] at hlen
      omega
    have hn1 : (n + 1) % 2 ^ 32 = n + 1 := Nat.mod_eq_of_lt (by omega)
    have hnb : n < buf.length := by omega
    have hset : (buf.set n c).length = bufsize := by rw [List.length_set, hb]
    simp only [List.cons_append, read_next_row_loop, hc, if_false, hnb, if_true, hn1]
    by_cases hfull : n + 1 = bufsize
    · have hdbl : bufsize * 2 % 2 ^ 32 = bufsize * 2 := Nat.mod_eq_of_lt (by omega)
      simp only [hfull, if_true, hdbl]
      obtain ⟨buf2, bs2, h1, h2, h3, h4, h5⟩ :=
        ih bufsize (srealloc fresh (buf.set n c) (bufsize * 2)) (bufsize * 2) tail hnl2 htail
          (srealloc_length _ _ _) (by omega) (by omega) (by omega)
      have e : n + (c :: body).length = bufsize + body.length := by
        simp only [List.length_cons]; omega
      refine ⟨buf2, bs2, ?_, h2, ?_, h4, ?_⟩
      · rw [e]
        exact h1
      · simp only [List.length_cons]; omega
      · rw [e, h5, srealloc_take fresh _ _ _ (by omega) (by omega), ← hfull,
          take_succ_set buf n c hnb]
        simp
    · simp only [hfull, if_false]
      obtain ⟨buf2, bs2, h1, h2, h3, h4, h5⟩ :=
        ih (n + 1) (buf.set n c) bufsize tail hnl2 htail hset (by omega) hbs hlen2
      have e : n + (c :: body).length = n + 1 + body.length := by
        simp only [List.length_cons]; omega
      refine ⟨buf2, bs2, ?_, h2, ?_, h4, ?_⟩
      · rw [e]
        exact h1
      · simp only [List.length_cons]; omega
      · rw [e, h5, take_succ_set buf n c hnb]
        simp


theorem read_next_row_loop_empty_block (fresh : Nat → Char) (stream : List Char)
    (n bufsize : Nat) :
    row_store_fails (read_next_row_loop fresh stream n [] bufsize) := by
  cases stream with
  | nil => simp [read_next_row_loop, row_store_fails]
  | cons c rest =>
    by_cases hc : c = '\n'
    · simp [read_next_row_loop, row_store_fails, hc]
    · simp [read_next_row_loop, row_store_fails, hc]

/-- Once `2 ^ 31` characters or more are to be stored, the doubling of `bufsize`
wraps to 0 and a store falls outside the block. -/
theorem read_next_row_loop_overflow (fresh : Nat → Char) (body : List Char) :
    ∀ (n : Nat) (buf : List Char) (bufsize j : Nat) (tail : List Char),
      '\n' ∉ body → buf.length = bufsize → bufsize = 2 ^ j → j ≤ 31 → n < bufsize →
      2 ^ 31 ≤ n + body.length →
      row_store_fails (read_next_row_loop fresh (body ++ tail) n buf bufsize) := by
  induction body with
  | nil =>
    intro n buf bufsize j tail _ _ hj hj2 hn hlen
    have : 2 ^ j ≤ 2 ^ 31 := Nat.pow_le_pow_right (by decide) hj2
    simp only [List.length_nil] at hlen
    omega
  | cons c body ih =>
    intro n buf bufsize j tail hnl hb hj hj2 hn hlen
    have hc : c ≠ '\n' := fun h => hnl (by simp [h])
    have hnl2 : '\n' ∉ body := fun h => hnl (List.mem_cons_of_mem _ h)
    have hp : 2 ^ j ≤ 2 ^ 31 := Nat.pow_le_pow_right (by decide) hj2
    have hn1 : (n + 1) % 2 ^ 32 = n + 1 := Nat.mod_eq_of_lt (by omega)
    have hnb : n < buf.length := by omega
    simp only [List.length_cons] at hlen
    simp only [List.cons_append, read_next_row_loop, hc, if_false, hnb, if_true, hn1]
    by_cases hfull : n + 1 = bufsize
    · simp only [hfull, if_true]
      rcases Nat.lt_or_ge j 31 with hlt | hge
      · have hp2 : 2 ^ (j + 1) ≤ 2 ^ 31 := Nat.pow_le_pow_right (by decide) hlt
        have hps : 2 ^ (j + 1) = 2 ^ j * 2 := by rw [Nat.pow_succ]
        have hdbl : bufsize * 2 % 2 ^ 32 = bufsize * 2 := Nat.mod_eq_of_lt (by omega)
        rw [hdbl]
        exact ih bufsize _ (bufsize * 2) (j + 1) tail hnl2 (srealloc_length _ _ _)
          (by omega) hlt (by omega) (by omega)
      · have hj31 : j = 31 := by omega
        subst hj31
        have hz : bufsize * 2 % 2 ^ 32 = 0 := by
          rw [hj]
          decide
        rw [hz]
        have he : srealloc fresh (buf.set n c) 0 = [] :=
          List.eq_nil_of_length_eq_zero (srealloc_length _ _ _)
        rw [he]
        exact read_next_row_loop_empty_block fresh _ _ _
    · simp only [hfull, if_false]
      exact ih (n + 1) (buf.set n c) bufsize j tail hnl2 (by rw [List.length_set, hb]) hj hj2
        (by omega) (by omega)

theorem read_next_row_of_store_fails (fresh : Nat → Char) (hdl : database_handle)
    (h : row_store_fails
      (read_next_row_loop fresh hdl.priv.f.rd 0 hdl.priv.buf hdl.priv.bufsize)) :
    opensex_read_next_row fresh hdl = .error fault.out_of_bounds := by
  cases hr : read_next_row_loop fresh hdl.priv.f.rd 0 hdl.priv.buf hdl.priv.bufsize with
  | error e =>
    rw [hr] at h
    simp only [row_store_fails] at h
    simp [opensex_read_next_row, hr, h]
  | ok r =>
    obtain ⟨c, rd, n, buf, bs⟩ := r
    rw [hr] at h
    simp only [row_store_fails] at h
    simp [opensex_read_next_row, hr, h]

/-- A row of fewer than `2 ^ 31` characters that ends in a newline is loaded: the
block then starts with the row and a terminator, and the cursor is at its
start. -/
theorem read_next_row_newline (fresh : Nat → Char) (hdl : database_handle)
    (body rest : List Char) (hnl : '\n' ∉ body) (hrd : hdl.priv.f.rd = body ++ '\n' :: rest)
    (hb1 : hdl.priv.buf.length = hdl.priv.bufsize) (hb2 : 0 < hdl.priv.bufsize)
    (hb3 : hdl.priv.bufsize < 2 ^ 32) (hlen : body.length < 2 ^ 31) :
    ∃ junk bs,
      opensex_read_next_row fresh hdl
        = .ok (true,
            { hdl with
              priv := { hdl.priv with
                buf := body ++ NUL :: junk, bufsize := bs, token := some 0
                f := { hdl.priv.f with rd := rest } }
              line := hdl.line + 1, token := 0 }) ∧
      (body ++ NUL :: junk).length = bs ∧ 0 < bs ∧ bs < 2 ^ 32 := by
  obtain ⟨buf2, bs2, h1, h2, h3, h4, h5⟩ :=
    read_next_row_loop_ok fresh body 0 hdl.priv.buf hdl.priv.bufsize ('\n' :: rest) hnl
      (Or.inr ⟨rest, rfl⟩) hb1 hb2 hb3 (by omega)
  simp only [Nat.zero_add, List.take_zero, List.nil_append] at h1 h3 h5
  have hlt : body.length < buf2.length := by omega
  have hset : buf2.set body.length NUL = body ++ NUL :: buf2.drop (body.length + 1) := by
    rw [set_eq_append_of_take _ _ _ hlt, h5]
  refine ⟨buf2.drop (body.length + 1), bs2, ?_, ?_, by omega, h4⟩
  · unfold opensex_read_next_row
    simp only [hrd, h1]
    simp [hlt, hset]
  · rw [← hset, List.length_set, h2]


/-! ## Lemmas: decimal output and `strtol` -/

theorem digit_of_digitChar (m : Nat) (h : m < 10) : digit_of (Nat.digitChar m) = some m := by
  interval_cases m <;> decide

theorem isdig_digitChar (m : Nat) (h : m < 10) : isdig (Nat.digitChar m) := by
  unfold isdig
  interval_cases m <;> decide

theorem digitChar_ne_zero (m : Nat) (h : m < 10) (h0 : 0 < m) : Nat.digitChar m ≠ '0' := by
  interval_cases m <;> decide

theorem isdig_of_toNat {c : Char} (h : isdig c) : ∃ m, m < 10 ∧ c = Char.ofNat (48 + m) := by
  refine ⟨c.toNat - 48, by unfold isdig at h; omega, ?_⟩
  have : 48 + (c.toNat - 48) = c.toNat := by unfold isdig at h; omega
  rw [this, Char.ofNat_toNat]

theorem isdig_facts {c : Char} (h : isdig c) :
    isspace c = false ∧ c ≠ '-' ∧ c ≠ '+' ∧ c ≠ ' ' ∧ c ≠ '\n' ∧ c ≠ NUL := by
  obtain ⟨m, hm, rfl⟩ := isdig_of_toNat h
  interval_cases m <;> decide

/-- The digits that `Nat.toDigitsCore` puts in front of `ds`: a non-empty run of
decimal digits without a leading zero that `scan_digits` reads back as `n`. -/
theorem toDigitsCore_spec (fuel : Nat) :
    ∀ (n : Nat) (ds : List Char), n < fuel →
      ∃ l, Nat.toDigitsCore 10 fuel n ds = l ++ ds ∧ l ≠ [] ∧ (∀ c ∈ l, isdig c) ∧
        (0 < n → peek l ≠ '0') ∧ (n = 0 → l = ['0']) ∧
        ∀ rest acc, scan_digits 10 (l ++ rest) acc
          = scan_digits 10 rest (acc * 10 ^ l.length + n) := by
  induction fuel with
  | zero => intro n ds h; omega
  | succ fuel ih =>
    intro n ds h
    have hmod : n % 10 < 10 := Nat.mod_lt _ (by decide)
    by_cases hq : n / 10 = 0
    · have hn10 : n < 10 := by omega
      have hmn : n % 10 = n := Nat.mod_eq_of_lt hn10
      refine ⟨[Nat.digitChar (n % 10)], by simp [Nat.toDigitsCore, hq], by simp, ?_, ?_, ?_, ?_⟩
      · intro c hc
        rw [List.mem_singleton] at hc
        subst hc
        exact isdig_digitChar _ hmod
      · intro h0
        rw [hmn]
        exact digitChar_ne_zero n hn10 h0
      · intro h0
        subst h0
        rfl
      · intro rest acc
        rw [hmn]
        simp [scan_digits, digit_of_digitChar n hn10, hn10]
    · have hlt : n / 10 < fuel := by omega
      obtain ⟨l, h1, h2, h3, h4, _, h6⟩ := ih (n / 10) (Nat.digitChar (n % 10) :: ds) hlt
      refine ⟨l ++ [Nat.digitChar (n % 10)], by simp [Nat.toDigitsCore, hq, h1], by simp,
        ?_, ?_, ?_, ?_⟩
      · intro c hc
        rcases List.mem_append.1 hc with hc | hc
        · exact h3 c hc
        · rw [List.mem_singleton] at hc
          subst hc
          exact isdig_digitChar _ hmod
      · intro _
        have := h4 (by omega)
        cases l with
        | nil => exact absurd rfl h2
        | cons a l => simpa [peek] using this
      · intro h0
        omega
      · intro rest acc
        rw [List.append_assoc, h6]
        simp only [List.singleton_append, scan_digits, digit_of_digitChar _ hmod, hmod, if_true,
          List.length_append, List.length_singleton]
        congr 1
        rw [pow_succ]
        have := Nat.div_add_mod n 10
        nlinarith [this]

theorem toDigits_spec (n : Nat) :
    (Nat.toDigits 10 n) ≠ [] ∧ (∀ c ∈ Nat.toDigits 10 n, isdig c) ∧
      (0 < n → peek (Nat.toDigits 10 n) ≠ '0') ∧ (n = 0 → Nat.toDigits 10 n = ['0']) ∧
      (∀ rest acc, scan_digits 10 (Nat.toDigits 10 n ++ rest) acc
          = scan_digits 10 rest (acc * 10 ^ (Nat.toDigits 10 n).length + n)) ∧
      (n < 10 ^ 10 → (Nat.toDigits 10 n).length ≤ 10) := by
  obtain ⟨l, h1, h2, h3, h4, h5, h6⟩ := toDigitsCore_spec (n + 1) n [] (Nat.lt_succ_self n)
  have e : Nat.toDigits 10 n = l := by
    unfold Nat.toDigits
    rw [h1, List.append_nil]
  refine ⟨by rw [e]; exact h2, by rw [e]; exact h3, by rw [e]; exact h4, by rw [e]; exact h5,
    by rw [e]; exact h6, ?_⟩
  intro hn
  exact Nat.toDigitsCore_length 10 (by decide) (n + 1) n 10 hn (by decide)


theorem hex_prefixed_of_peek (l : List Char) (h : peek l ≠ '0') : hex_prefixed l = false := by
  cases l with
  | nil => rfl
  | cons a l =>
    cases l with
    | nil => rfl
    | cons b l =>
      cases l with
      | nil => rfl
      | cons c l =>
        have ha : a ≠ '0' := h
        simp [hex_prefixed, ha]

theorem scan_strto_base_toDigits (m : Nat) :
    (strto_base (Nat.toDigits 10 m) 0).2 = Nat.toDigits 10 m ∧
    scan_digits (strto_base (Nat.toDigits 10 m) 0).1 (Nat.toDigits 10 m) 0 = (m, []) := by
  obtain ⟨_, _, h3, h4, h5, _⟩ := toDigits_spec m
  rcases Nat.eq_zero_or_pos m with h0 | hpos
  · subst h0
    rw [h4 rfl]
    decide
  · have hp := h3 hpos
    have hx := hex_prefixed_of_peek _ hp
    have hb : strto_base (Nat.toDigits 10 m) 0 = (10, Nat.toDigits 10 m) := by
      simp [strto_base, hx, hp]
    rw [hb]
    refine ⟨rfl, ?_⟩
    have := h5 [] 0
    simp only [List.append_nil, Nat.zero_mul, Nat.zero_add] at this
    rw [this]
    rfl

theorem strto_parse_toDigits (m : Nat) :
    strto_parse (Nat.toDigits 10 m) 0 = some (false, m, []) ∧
    strto_parse ('-' :: Nat.toDigits 10 m) 0 = some (true, m, []) := by
  obtain ⟨h1, h2, _, _, _, _⟩ := toDigits_spec m
  obtain ⟨hb, hscan⟩ := scan_strto_base_toDigits m
  cases hl : Nat.toDigits 10 m with
  | nil => exact absurd hl h1
  | cons a l =>
    have ha : isdig a := h2 a (by rw [hl]; exact List.mem_cons_self _ _)
    obtain ⟨f1, f2, f3, _, _, _⟩ := isdig_facts ha
    rw [hl] at hb hscan
    have hs : isspace '-' = false := by decide
    constructor
    · have hd : List.dropWhile isspace (a :: l) = a :: l := by simp [List.dropWhile_cons, f1]
      simp only [strto_parse, hd, peek, List.headD_cons, f2, f3, or_self, if_false]
      have hb2 : (strto_base (a :: l) 0).2 = a :: l := hb
      rw [hb2, hscan]
      simp
    · have hd : List.dropWhile isspace ('-' :: a :: l) = '-' :: a :: l := by
        simp [List.dropWhile_cons, hs]
      simp only [strto_parse, hd, peek, List.headD_cons, true_or, if_true, List.tail_cons]
      have hb2 : (strto_base (a :: l) 0).2 = a :: l := hb
      rw [hb2, hscan]
      simp

/-- What `%d` prints for an `int` is a token that `strtol` with base 0 reads back in
full as the same number. -/
theorem strtol_fmt_d (n : Int) (h1 : -(2 ^ 31) ≤ n) (h2 : n < 2 ^ 31) :
    strtol (fmt_d n) 0 = (n, []) ∧ to_int n = n ∧ peek (fmt_d n) ≠ NUL ∧
    (∀ c ∈ fmt_d n, c ≠ ' ' ∧ c ≠ '\n' ∧ c ≠ NUL) ∧ snprintf 32 (fmt_d n) = fmt_d n := by
  obtain ⟨p1, p2, _, _, _, p6⟩ := toDigits_spec n.natAbs
  obtain ⟨q1, q2⟩ := strto_parse_toDigits n.natAbs
  have hlen : (Nat.toDigits 10 n.natAbs).length ≤ 10 := p6 (by omega)
  have hchars : ∀ c ∈ Nat.toDigits 10 n.natAbs, c ≠ ' ' ∧ c ≠ '\n' ∧ c ≠ NUL := by
    intro c hc
    obtain ⟨_, _, _, f4, f5, f6⟩ := isdig_facts (p2 c hc)
    exact ⟨f4, f5, f6⟩
  have hpk : peek (Nat.toDigits 10 n.natAbs) ≠ NUL := by
    cases hl : Nat.toDigits 10 n.natAbs with
    | nil => exact absurd hl p1
    | cons a l => exact (hchars a (by rw [hl]; exact List.mem_cons_self _ _)).2.2
  have hti : to_int n = n := by
    unfold to_int
    omega
  by_cases hneg : n < 0
  · have hf : fmt_d n = '-' :: Nat.toDigits 10 n.natAbs := by simp [fmt_d, hneg]
    rw [hf]
    have hm : peek ('-' :: Nat.toDigits 10 n.natAbs) ≠ NUL := by
      show '-' ≠ NUL
      decide
    refine ⟨?_, hti, hm, ?_, ?_⟩
    · simp only [strtol, q2, LONG_MAX, LONG_MIN, if_true]
      have hx : -((n.natAbs : Nat) : Int) = n := by omega
      rw [hx]
      have c1 : ¬ n > 2 ^ 63 - 1 := by omega
      have c2 : ¬ n < -(2 ^ 63) := by omega
      rw [if_neg c1, if_neg c2]
    · intro c hc
      rcases List.mem_cons.1 hc with rfl | hc
      · decide
      · exact hchars c hc
    · unfold snprintf
      apply List.take_of_length_le
      simp only [List.length_cons]
      omega
  · have hf : fmt_d n = Nat.toDigits 10 n.natAbs := by simp [fmt_d, hneg]
    rw [hf]
    refine ⟨?_, hti, hpk, hchars, ?_⟩
    · simp only [strtol, q1, LONG_MAX, LONG_MIN]
      have hx : ((n.natAbs : Nat) : Int) = n := by omega
      have c1 : ¬ n > 2 ^ 63 - 1 := by omega
      have c2 : ¬ n < -(2 ^ 63) := by omega
      simp only [Bool.false_eq_true, if_false, hx]
      rw [if_neg c1, if_neg c2]
    · unfold snprintf
      apply List.take_of_length_le
      omega


/-! ## Lemmas: tokens in the line buffer -/

theorem strchr_from_hit (c : Char) (w post : List Char) (hc : c ≠ NUL) (hw : c ∉ w)
    (hn : NUL ∉ w) : ∀ p, strchr_from c (w ++ c :: post) p = some (p + w.length) := by
  induction w with
  | nil => intro p; simp [strchr_from, hc]
  | cons a w ih =>
    intro p
    have ha1 : a ≠ NUL := fun h => hn (by simp [h])
    have ha2 : a ≠ c := fun h => hw (by simp [h])
    have := ih (fun h => hw (List.mem_cons_of_mem _ h)) (fun h => hn (List.mem_cons_of_mem _ h))
      (p + 1)
    simp only [List.cons_append, strchr_from, ha1, ha2, if_false, List.length_cons]
    have e : p + (w.length + 1) = p + 1 + w.length := by omega
    rw [e]
    exact this

theorem strchr_from_miss (c : Char) (w post : List Char) (hw : c ∉ w) :
    ∀ p, strchr_from c (w ++ NUL :: post) p = none := by
  induction w with
  | nil => intro p; simp [strchr_from]
  | cons a w ih =>
    intro p
    have ha2 : a ≠ c := fun h => hw (by simp [h])
    have := ih (fun h => hw (List.mem_cons_of_mem _ h)) (p + 1)
    by_cases ha1 : a = NUL
    · simp [strchr_from, ha1]
    · simp only [List.cons_append, strchr_from, ha1, ha2, if_false]
      exact this

theorem strchr_at (pre w post : List Char) (c : Char) (hc : c ≠ NUL) (hw : c ∉ w)
    (hn : NUL ∉ w) :
    strchr (pre ++ w ++ c :: post) pre.length c = some (pre.length + w.length) := by
  unfold strchr
  rw [List.append_assoc, List.drop_left]
  exact strchr_from_hit c w post hc hw hn _

theorem strchr_at_last (pre w post : List Char) (c : Char) (hw : c ∉ w) :
    strchr (pre ++ w ++ NUL :: post) pre.length c = none := by
  unfold strchr
  rw [List.append_assoc, List.drop_left]
  exact strchr_from_miss c w post hw _

theorem cstr_at (pre w post : List Char) (hn : NUL ∉ w) :
    cstr (pre ++ w ++ NUL :: post) pre.length = w := by
  unfold cstr
  rw [List.append_assoc, List.drop_left, List.takeWhile_append_of_pos]
  · simp
  · intro a ha
    have : a ≠ NUL := fun h => hn (h ▸ ha)
    simpa using this

theorem set_at (pre w post : List Char) (c x : Char) :
    (pre ++ w ++ c :: post).set (pre.length + w.length) x = pre ++ w ++ x :: post := by
  rw [List.set_append_right _ _ (by simp)]
  simp

/-- A call of `opensex_read_word` with the cursor on a token that a space ends. -/
theorem read_word_token (db : database_handle) (pre w post : List Char)
    (hbuf : db.priv.buf = pre ++ w ++ ' ' :: post) (htok : db.priv.token = some pre.length)
    (hw1 : ' ' ∉ w) (hw2 : NUL ∉ w) :
    (opensex_read_word db).1 = some w ∧
    (opensex_read_word db).2.priv.buf = pre ++ w ++ NUL :: post ∧
    (opensex_read_word db).2.priv.token = some (pre.length + w.length + 1) := by
  have hsp : (' ' : Char) ≠ NUL := by decide
  have h1 := strchr_at pre w post ' ' hsp hw1 hw2
  have h2 := cstr_at pre w post hw2
  have h3 := set_at pre w post ' ' NUL
  unfold opensex_read_word
  simp only [htok, hbuf, h1, h3, h2]
  exact ⟨trivial, trivial, trivial⟩

/-- A call of `opensex_read_word` with the cursor on the last token of the row. -/
theorem read_word_last (db : database_handle) (pre w post : List Char)
    (hbuf : db.priv.buf = pre ++ w ++ NUL :: post) (htok : db.priv.token = some pre.length)
    (hw1 : ' ' ∉ w) (hw2 : NUL ∉ w) :
    (opensex_read_word db).1 = some w ∧
    (opensex_read_word db).2.priv.buf = pre ++ w ++ NUL :: post ∧
    (opensex_read_word db).2.priv.token = none := by
  have h1 := strchr_at_last pre w post ' ' hw1
  have h2 := cstr_at pre w post hw2
  unfold opensex_read_word
  simp only [htok, hbuf, h1, h2]
  exact ⟨trivial, trivial, trivial⟩

/-- A call of `opensex_read_str` with the cursor in front of the text `w`. -/
theorem read_str_rest (db : database_handle) (pre w post : List Char)
    (hbuf : db.priv.buf = pre ++ w ++ NUL :: post) (htok : db.priv.token = some pre.length)
    (hw : NUL ∉ w) :
    (opensex_read_str db).1 = some w := by
  have h2 := cstr_at pre w post hw
  unfold opensex_read_str
  simp only [htok, hbuf, Option.map, h2]


/-! ## Lemmas: rows -/

theorem read_int_of_word (db : database_handle) (res : Int) (w : List Char)
    (h : (db_read_word db).1 = some w) :
    opensex_read_int db res
      = (peek w != NUL && peek (strtol w 0).2 == NUL, to_int (strtol w 0).1,
          (db_read_word db).2) := by
  unfold opensex_read_int
  cases hr : db_read_word db with
  | mk a b =>
    rw [hr] at h
    simp only at h
    subst h
    rfl

theorem read_uint_of_word (db : database_handle) (res : Nat) (w : List Char)
    (h : (db_read_word db).1 = some w) :
    opensex_read_uint db res
      = (peek w != NUL && peek (strtoul w 0).2 == NUL, to_uint (strtoul w 0).1,
          (db_read_word db).2) := by
  unfold opensex_read_uint
  cases hr : db_read_word db with
  | mk a b =>
    rw [hr] at h
    simp only at h
    subst h
    rfl

theorem read_time_of_word (db : database_handle) (res : Int) (w : List Char)
    (h : (db_read_word db).1 = some w) :
    opensex_read_time db res
      = (peek w != NUL && peek (strtoul w 0).2 == NUL, to_time_t (strtoul w 0).1,
          (db_read_word db).2) := by
  unfold opensex_read_time
  cases hr : db_read_word db with
  | mk a b =>
    rw [hr] at h
    simp only at h
    subst h
    rfl

/-- The bytes that a row of a type, an integer and a free text adds to the stream. -/
theorem written_row (wdb : database_handle) (t s : List Char) (n : Int) :
    (write_calls [write_call.start_row (some t), write_call.write_int n,
        write_call.write_str (some s), write_call.commit_row] wdb).priv.f.wr
      = wdb.priv.f.wr ++ (t ++ ' ' :: (snprintf 32 (fmt_d n) ++ ' ' :: (s ++ ['\n']))) := by
  simp [write_calls, write_call.apply, opensex_start_row, opensex_write_int, opensex_write_str,
    opensex_write_cell, opensex_commit_row, fprintf]


/-! ## Claims on the codec -/

/-- Round trip of a row shorter than `2 ^ 31` bytes: the line that `start_row t`,
`write_int n`, `write_str s`, `commit_row` emit, for a type `t` without space or
newline, an `int` `n` and a free text `s` without newline, is read back by
`read_next_row`, `read_word`, `read_int`, `read_str` as `t`, a successful integer
read of value `n`, and `s`. -/
theorem row_round_trip (fresh : Nat → Char) (wdb rdb : database_handle)
    (t s rest : List Char) (n res : Int)
    (ht1 : ' ' ∉ t) (ht2 : '\n' ∉ t) (ht3 : NUL ∉ t) (hs1 : '\n' ∉ s) (hs2 : NUL ∉ s)
    (hn1 : -(2 ^ 31) ≤ n) (hn2 : n < 2 ^ 31)
    (hlen : t.length + (fmt_d n).length + s.length + 2 < 2 ^ 31)
    (hb1 : rdb.priv.buf.length = rdb.priv.bufsize) (hb2 : 0 < rdb.priv.bufsize)
    (hb3 : rdb.priv.bufsize < 2 ^ 32)
    (hrd : rdb.priv.f.rd
      = ((write_calls [write_call.start_row (some t), write_call.write_int n,
            write_call.write_str (some s), write_call.commit_row] wdb).priv.f.wr).drop
          wdb.priv.f.wr.length ++ rest) :
    ∃ r1, opensex_read_next_row fresh rdb = .ok (true, r1) ∧
      (opensex_read_word r1).1 = some t ∧
      (opensex_read_int (opensex_read_word r1).2 res).1 = true ∧
      (opensex_read_int (opensex_read_word r1).2 res).2.1 = n ∧
      (opensex_read_str (opensex_read_int (opensex_read_word r1).2 res).2.2).1 = some s := by
  obtain ⟨d1, d2, d3, d4, d5⟩ := strtol_fmt_d n hn1 hn2
  have hrd2 : rdb.priv.f.rd = (t ++ ' ' :: (fmt_d n ++ ' ' :: s)) ++ '\n' :: rest := by
    rw [hrd, written_row, List.drop_left, d5]
    simp
  have hnl : '\n' ∉ t ++ ' ' :: (fmt_d n ++ ' ' :: s) := by
    intro h
    rcases List.mem_append.1 h with h | h
    · exact ht2 h
    · rcases List.mem_cons.1 h with h | h
      · exact absurd h (by decide)
      · rcases List.mem_append.1 h with h | h
        · exact (d4 _ h).2.1 rfl
        · rcases List.mem_cons.1 h with h | h
          · exact absurd h (by decide)
          · exact hs1 h
  have hbl : (t ++ ' ' :: (fmt_d n ++ ' ' :: s)).length < 2 ^ 31 := by
    simp only [List.length_append, List.length_cons]
    omega
  obtain ⟨junk, bs, hok, _, _, _⟩ :=
    read_next_row_newline fresh rdb _ rest hnl hrd2 hb1 hb2 hb3 hbl
  have hr1 : ∃ r1 : database_handle, opensex_read_next_row fresh rdb = .ok (true, r1) ∧
      r1.priv.buf = t ++ ' ' :: (fmt_d n ++ ' ' :: s) ++ NUL :: junk ∧
      r1.priv.token = some 0 := ⟨_, hok, rfl, rfl⟩
  obtain ⟨r1, hok1, hbuf1, htok1⟩ := hr1
  refine ⟨r1, hok1, ?_⟩
  have hd1 : ' ' ∉ fmt_d n := fun h => (d4 _ h).1 rfl
  have hd2 : NUL ∉ fmt_d n := fun h => (d4 _ h).2.2 rfl
  obtain ⟨w1, w2, w3⟩ := read_word_token r1 [] t (fmt_d n ++ ' ' :: (s ++ NUL :: junk))
    (by rw [hbuf1]; simp) (by rw [htok1]; rfl) ht1 ht3
  obtain ⟨x1, x2, x3⟩ := read_word_token (opensex_read_word r1).2 (t ++ [NUL]) (fmt_d n)
    (s ++ NUL :: junk) (by rw [w2]; simp) (by rw [w3]; simp) hd1 hd2
  have hri := read_int_of_word (opensex_read_word r1).2 res (fmt_d n) x1
  refine ⟨w1, ?_, ?_, ?_⟩
  · rw [hri, d1]
    have hp : peek ([] : List Char) = NUL := rfl
    simp [d3, hp]
  · rw [hri, d1]
    exact d2
  · rw [hri]
    exact read_str_rest _ (t ++ [NUL] ++ fmt_d n ++ [NUL]) s junk
      (by
        show (db_read_word _).2.priv.buf = _
        unfold db_read_word
        rw [x2]
        simp)
      (by
        show (db_read_word _).2.priv.token = _
        unfold db_read_word
        rw [x3]
        simp
        omega)
      hs2

/-- The row `WIDGET 42 hello world`, written after the version row and read from a
freshly opened handle, reads back as `WIDGET`, 42 and `hello world`. -/
theorem row_round_trip_witness :
    ∃ r1,
      opensex_read_next_row (fun _ => 'U')
          (read_handle "etc/services.db".toList "WIDGET 42 hello world\nMU x\n".toList false)
        = .ok (true, r1) ∧
      (opensex_read_word r1).1 = some "WIDGET".toList ∧
      (opensex_read_int (opensex_read_word r1).2 0).1 = true ∧
      (opensex_read_int (opensex_read_word r1).2 0).2.1 = 42 ∧
      (opensex_read_str (opensex_read_int (opensex_read_word r1).2 0).2.2).1
        = some "hello world".toList :=
  row_round_trip (fun _ => 'U')
    (write_calls [write_call.start_row (some "GRVER".toList), write_call.write_int 1,
        write_call.commit_row]
      (write_handle "etc/services.db".toList "etc/services.db.new".toList))
    (read_handle "etc/services.db".toList "WIDGET 42 hello world\nMU x\n".toList false)
    "WIDGET".toList "hello world".toList "MU x\n".toList 42 0
    (by decide) (by decide) (by decide) (by decide) (by decide) (by decide) (by decide)
    (by decide) (List.length_replicate _ _) (by decide) (by decide) (by decide)


theorem long_text_length : long_text.length = 2 ^ 31 := by
  unfold long_text
  exact List.length_replicate _ _

theorem long_text_chars (c : Char) (h : c ∈ long_text) : c = 'a' := by
  unfold long_text at h
  exact List.eq_of_mem_replicate h

/-- C1 at a free text of `2 ^ 31` letters. For the row of type `WIDGET`, the integer
42 and this text (no newline in it), read from a freshly opened handle, the
line reader doubles `bufsize` from `2 ^ 31` to 0 modulo `2 ^ 32` and the next
store falls outside the block: the row is not read back. -/
theorem row_round_trip_fails :
    '\n' ∉ long_text ∧ NUL ∉ long_text ∧
    opensex_read_next_row (fun _ => 'U')
        (read_handle "etc/services.db".toList
          (write_calls [write_call.start_row (some "WIDGET".toList), write_call.write_int 42,
              write_call.write_str (some long_text), write_call.commit_row]
            (write_handle "etc/services.db".toList "etc/services.db.new".toList)).priv.f.wr
          false)
      = .error fault.out_of_bounds := by
  have h1 : '\n' ∉ long_text := fun h => absurd (long_text_chars _ h) (by decide)
  have h2 : NUL ∉ long_text := fun h => absurd (long_text_chars _ h) (by decide)
  refine ⟨h1, h2, ?_⟩
  apply read_next_row_of_store_fails
  have hw : (write_handle "etc/services.db".toList "etc/services.db.new".toList).priv.f.wr
      = [] := rfl
  have hd : snprintf 32 (fmt_d 42) = ['4', '2'] := by decide
  have hrd : (read_handle "etc/services.db".toList
          (write_calls [write_call.start_row (some "WIDGET".toList), write_call.write_int 42,
              write_call.write_str (some long_text), write_call.commit_row]
            (write_handle "etc/services.db".toList "etc/services.db.new".toList)).priv.f.wr
          false).priv.f.rd
      = ("WIDGET".toList ++ ' ' :: ['4', '2'] ++ ' ' :: long_text) ++ ['\n'] := by
    show (write_calls _ _).priv.f.wr = _
    rw [written_row, hw, hd]
    simp
  rw [hrd]
  have hbuf : (List.replicate 512 NUL).length = 512 := List.length_replicate _ _
  have hpow : 512 = 2 ^ 9 := by decide
  simp only [read_handle]
  have h9 : 9 ≤ 31 := by decide
  have h0 : 0 < 512 := by decide
  have key := read_next_row_loop_overflow (fun _ => 'U')
    ("WIDGET".toList ++ [' ', '4', '2'] ++ ' ' :: long_text) 0 (List.replicate 512 NUL) 512 9
    ['\n']
  refine key ?_ hbuf hpow h9 h0 ?_
  · intro h
    rcases List.mem_append.1 h with h | h
    · rcases List.mem_append.1 h with h | h
      · exact absurd h (by decide)
      · exact absurd h (by decide)
    · rcases List.mem_cons.1 h with h | h
      · exact absurd h (by decide)
      · exact h1 h
  · rw [List.length_append, List.length_cons, long_text_length]
    generalize ("WIDGET".toList ++ [' ', '4', '2']).length = x
    omega


/-! ## Lemmas: numeric readers -/

theorem scan_digits_suffix (base : Nat) (l : List Char) :
    ∀ acc, (scan_digits base l acc).2 <:+ l := by
  induction l with
  | nil => intro acc; exact List.suffix_refl _
  | cons c l ih =>
    intro acc
    unfold scan_digits
    cases digit_of c with
    | none => exact List.suffix_refl _
    | some d =>
      by_cases hd : d < base
      · simp only [hd, if_true]
        exact (ih _).trans (List.suffix_cons _ _)
      · simp only [hd, if_false]
        exact List.suffix_refl _

theorem strto_base_suffix (s : List Char) (base : Nat) : (strto_base s base).2 <:+ s := by
  unfold strto_base
  split
  · exact List.drop_suffix _ _
  · split
    · exact List.suffix_refl _
    · exact List.suffix_refl _

theorem strto_parse_suffix {s : List Char} {base : Nat} {neg : Bool} {v : Nat}
    {rest : List Char} (h : strto_parse s base = some (neg, v, rest)) : rest <:+ s := by
  unfold strto_parse at h
  simp only at h
  have hs2 : (if peek (List.dropWhile isspace s) = '-' ∨ peek (List.dropWhile isspace s) = '+'
      then (List.dropWhile isspace s).tail else List.dropWhile isspace s) <:+ s := by
    split
    · exact (List.tail_suffix _).trans (List.dropWhile_suffix _)
    · exact List.dropWhile_suffix _
  generalize (if peek (List.dropWhile isspace s) = '-' ∨ peek (List.dropWhile isspace s) = '+'
      then (List.dropWhile isspace s).tail else List.dropWhile isspace s) = s2 at h hs2
  split at h
  · exact absurd h (by simp)
  · simp only [Option.some.injEq, Prod.mk.injEq] at h
    obtain ⟨_, _, h3⟩ := h
    rw [← h3]
    exact (scan_digits_suffix _ _ _).trans ((strto_base_suffix _ _).trans hs2)

theorem cstr_no_NUL (mem : List Char) (p : Nat) : NUL ∉ cstr mem p := by
  intro h
  have := List.mem_takeWhile_imp h
  simp at this

theorem read_word_no_NUL (db : database_handle) (w : List Char)
    (h : (opensex_read_word db).1 = some w) : NUL ∉ w := by
  unfold opensex_read_word at h
  cases ht : db.priv.token with
  | none => simp [ht] at h
  | some res =>
    cases hs : strchr db.priv.buf res ' ' with
    | none =>
      simp only [ht, hs, Option.some.injEq] at h
      rw [← h]
      exact cstr_no_NUL _ _
    | some ptr =>
      simp only [ht, hs, Option.some.injEq] at h
      rw [← h]
      exact cstr_no_NUL _ _

theorem peek_eq_NUL_iff (w : List Char) (h : NUL ∉ w) : peek w = NUL ↔ w = [] := by
  cases w with
  | nil => simp [peek]
  | cons a w =>
    have : a ≠ NUL := fun e => h (by simp [e])
    simp [peek, this]

/-- The test `*s && !*rp` of the numeric readers, on a token without terminator
inside: it holds exactly when the token is a number from end to end. -/
theorem numeric_test_iff (w : List Char) (hw : NUL ∉ w) :
    ((peek w != NUL && peek (strtol w 0).2 == NUL) = true ↔ numeric_token w) ∧
    ((peek w != NUL && peek (strtoul w 0).2 == NUL) = true ↔ numeric_token w) := by
  have hpw := peek_eq_NUL_iff w hw
  unfold numeric_token strtol strtoul
  cases hp : strto_parse w 0 with
  | none =>
    simp only [Bool.and_eq_true, bne_iff_ne, ne_eq, beq_iff_eq, hpw]
    constructor
    · constructor
      · rintro ⟨h1, h2⟩
        exact absurd h2 h1
      · rintro ⟨_, neg, v, h⟩
        exact absurd h (by simp)
    · constructor
      · rintro ⟨h1, h2⟩
        exact absurd h2 h1
      · rintro ⟨_, neg, v, h⟩
        exact absurd h (by simp)
  | some r =>
    obtain ⟨neg, v, rest⟩ := r
    have hr : NUL ∉ rest := fun h => hw ((strto_parse_suffix hp).mem h)
    have hpr := peek_eq_NUL_iff rest hr
    simp only [Bool.and_eq_true, bne_iff_ne, ne_eq, beq_iff_eq, hpw, hpr]
    constructor
    · constructor
      · rintro ⟨h1, h2⟩
        exact ⟨h1, neg, v, by rw [h2]⟩
      · rintro ⟨h1, neg2, v2, h⟩
        simp only [Option.some.injEq, Prod.mk.injEq] at h
        exact ⟨h1, h.2.2⟩
    · constructor
      · rintro ⟨h1, h2⟩
        exact ⟨h1, neg, v, by rw [h2]⟩
      · rintro ⟨h1, neg2, v2, h⟩
        simp only [Option.some.injEq, Prod.mk.injEq] at h
        exact ⟨h1, h.2.2⟩

theorem read_int_absent (db : database_handle) (res : Int)
    (h : (db_read_word db).1 = none) :
    opensex_read_int db res = (false, res, (db_read_word db).2) := by
  unfold opensex_read_int
  cases hr : db_read_word db with
  | mk a b =>
    rw [hr] at h
    simp only at h
    subst h
    rfl

theorem read_uint_absent (db : database_handle) (res : Nat)
    (h : (db_read_word db).1 = none) :
    opensex_read_uint db res = (false, res, (db_read_word db).2) := by
  unfold opensex_read_uint
  cases hr : db_read_word db with
  | mk a b =>
    rw [hr] at h
    simp only at h
    subst h
    rfl

theorem read_time_absent (db : database_handle) (res : Int)
    (h : (db_read_word db).1 = none) :
    opensex_read_time db res = (false, res, (db_read_word db).2) := by
  unfold opensex_read_time
  cases hr : db_read_word db with
  | mk a b =>
    rw [hr] at h
    simp only at h
    subst h
    rfl


theorem scan_digits_split (base : Nat) (l : List Char) :
    ∀ acc, ∃ ds, l = ds ++ (scan_digits base l acc).2 ∧
      ∀ c ∈ ds, ∃ d, digit_of c = some d ∧ d < base := by
  induction l with
  | nil => intro acc; exact ⟨[], rfl, by simp⟩
  | cons c l ih =>
    intro acc
    unfold scan_digits
    cases hd : digit_of c with
    | none => exact ⟨[], rfl, by simp⟩
    | some d =>
      by_cases hlt : d < base
      · simp only [hlt, if_true]
        obtain ⟨ds, h1, h2⟩ := ih (acc * base + d)
        refine ⟨c :: ds, by rw [List.cons_append, ← h1], ?_⟩
        intro x hx
        rcases List.mem_cons.1 hx with rfl | hx
        · exact ⟨d, hd, hlt⟩
        · exact h2 x hx
      · simp only [hlt, if_false]
        exact ⟨[], rfl, by simp⟩

theorem strto_base_split (s : List Char) :
    ∃ pre, s = pre ++ (strto_base s 0).2 ∧
      (pre = [] ∨ pre = ['0', 'x'] ∨ pre = ['0', 'X']) ∧ (strto_base s 0).1 ≤ 16 := by
  by_cases hx : hex_prefixed s = true
  · have hbase : strto_base s 0 = (16, s.drop 2) := by simp [strto_base, hx]
    rw [hbase]
    clear hbase
    cases s with
    | nil => simp [hex_prefixed] at hx
    | cons a s =>
      cases s with
      | nil => simp [hex_prefixed] at hx
      | cons b s =>
        cases s with
        | nil => simp [hex_prefixed] at hx
        | cons c s =>
          simp only [hex_prefixed, Bool.and_eq_true, Bool.or_eq_true, decide_eq_true_eq] at hx
          obtain ⟨⟨ha, hxx⟩, _⟩ := hx
          subst ha
          rcases hxx with rfl | rfl
          · exact ⟨['0', 'x'], rfl, Or.inr (Or.inl rfl), Nat.le_refl _⟩
          · exact ⟨['0', 'X'], rfl, Or.inr (Or.inr rfl), Nat.le_refl _⟩
  · have hb : strto_base s 0 = (if peek s = '0' then 8 else 10, s) := by
      simp [strto_base, hx]
    rw [hb]
    refine ⟨[], rfl, Or.inl rfl, ?_⟩
    by_cases hp : peek s = '0'
    · simp [hp]
    · simp [hp]

/-- A token that the numeric readers accept is a numeric literal in the widest
sense: white space, sign, base prefix, digits, and nothing else. -/
theorem numeric_literal_of_token {w : List Char} (h : numeric_token w) : numeric_literal w := by
  obtain ⟨_, neg, v, hp⟩ := h
  unfold strto_parse at hp
  simp only at hp
  have hw : w = List.takeWhile isspace w ++ List.dropWhile isspace w :=
    (List.takeWhile_append_dropWhile isspace w).symm
  have hws : ∀ c ∈ List.takeWhile isspace w, isspace c = true :=
    fun c hc => List.mem_takeWhile_imp hc
  have hsign : ∃ sg, List.dropWhile isspace w
        = sg ++ (if peek (List.dropWhile isspace w) = '-' ∨ peek (List.dropWhile isspace w) = '+'
            then (List.dropWhile isspace w).tail else List.dropWhile isspace w) ∧
      (sg = [] ∨ sg = ['+'] ∨ sg = ['-']) := by
    cases hs1 : List.dropWhile isspace w with
    | nil => exact ⟨[], by simp [peek], Or.inl rfl⟩
    | cons a s1 =>
      by_cases hm : a = '-'
      · exact ⟨['-'], by simp [peek, hm], Or.inr (Or.inr rfl)⟩
      · by_cases hpl : a = '+'
        · exact ⟨['+'], by simp [peek, hpl], Or.inr (Or.inl rfl)⟩
        · exact ⟨[], by simp [peek, hm, hpl], Or.inl rfl⟩
  obtain ⟨sg, hsg1, hsg2⟩ := hsign
  generalize (if peek (List.dropWhile isspace w) = '-' ∨ peek (List.dropWhile isspace w) = '+'
      then (List.dropWhile isspace w).tail else List.dropWhile isspace w) = s2 at hp hsg1
  obtain ⟨pre, hpre1, hpre2, hbase⟩ := strto_base_split s2
  obtain ⟨ds, hds1, hds2⟩ := scan_digits_split (strto_base s2 0).1 (strto_base s2 0).2 0
  split at hp
  · exact absurd hp (by simp)
  · rename_i hne
    simp only [Option.some.injEq, Prod.mk.injEq] at hp
    obtain ⟨_, _, hrest⟩ := hp
    rw [hrest, List.append_nil] at hds1
    rw [hrest] at hne
    have hdsne : ds ≠ [] := by
      intro h0
      rw [h0] at hds1
      rw [hds1] at hne
      exact hne rfl
    refine ⟨List.takeWhile isspace w, sg, pre, ds, ?_, hws, hsg2, hpre2, hdsne, ?_⟩
    · rw [← hds1, List.append_assoc, List.append_assoc, ← hpre1, ← hsg1]
      exact hw
    · intro c hc
      obtain ⟨d, h1, h2⟩ := hds2 c hc
      exact ⟨d, h1, Nat.lt_of_lt_of_le h2 hbase⟩

theorem strtol_rest_of_numeric {w : List Char} (h : numeric_token w) :
    (strtol w 0).2 = [] ∧ (strtoul w 0).2 = [] := by
  obtain ⟨_, neg, v, hp⟩ := h
  simp [strtol, strtoul, hp]

/-- C10. Numeric strictness: `read_int`, `read_uint` and `read_time` each consume
exactly the word that `read_word` would, and succeed exactly when that word is
present and is, from end to end, a number as `strtol` and `strtoul` read it; a
word they accept is a numeric literal and nothing else (optional white space,
sign and base prefix, then digits). They fail when the word is absent, when it
is empty, and when a character is left behind the numeric prefix; `12x` fails
and `12` succeeds with value 12. -/
theorem numeric_strictness (db : database_handle) (ri : Int) (ru : Nat) (rt : Int) :
    ((opensex_read_int db ri).2.2 = (opensex_read_word db).2 ∧
      (opensex_read_uint db ru).2.2 = (opensex_read_word db).2 ∧
      (opensex_read_time db rt).2.2 = (opensex_read_word db).2) ∧
    (((opensex_read_int db ri).1 = true ↔
        ∃ w, (opensex_read_word db).1 = some w ∧ numeric_token w) ∧
      ((opensex_read_uint db ru).1 = true ↔
        ∃ w, (opensex_read_word db).1 = some w ∧ numeric_token w) ∧
      ((opensex_read_time db rt).1 = true ↔
        ∃ w, (opensex_read_word db).1 = some w ∧ numeric_token w)) ∧
    ((opensex_read_int db ri).1 = true ∨ (opensex_read_uint db ru).1 = true ∨
        (opensex_read_time db rt).1 = true →
      ∃ w, (opensex_read_word db).1 = some w ∧ numeric_literal w) ∧
    ((opensex_read_word db).1 = none →
      (opensex_read_int db ri).1 = false ∧ (opensex_read_uint db ru).1 = false ∧
        (opensex_read_time db rt).1 = false) ∧
    ((opensex_read_word db).1 = some [] →
      (opensex_read_int db ri).1 = false ∧ (opensex_read_uint db ru).1 = false ∧
        (opensex_read_time db rt).1 = false) ∧
    (∀ w, (opensex_read_word db).1 = some w → (strtol w 0).2 ≠ [] →
      (opensex_read_int db ri).1 = false) ∧
    (∀ w, (opensex_read_word db).1 = some w → (strtoul w 0).2 ≠ [] →
      (opensex_read_uint db ru).1 = false ∧ (opensex_read_time db rt).1 = false) ∧
    ((opensex_read_int (loaded_row "12x".toList) ri).1 = false ∧
      (opensex_read_uint (loaded_row "12x".toList) ru).1 = false ∧
      (opensex_read_time (loaded_row "12x".toList) rt).1 = false) ∧
    ((opensex_read_int (loaded_row "12".toList) ri).1 = true ∧
      (opensex_read_int (loaded_row "12".toList) ri).2.1 = 12 ∧
      (opensex_read_uint (loaded_row "12".toList) ru).1 = true ∧
      (opensex_read_uint (loaded_row "12".toList) ru).2.1 = 12 ∧
      (opensex_read_time (loaded_row "12".toList) rt).1 = true ∧
      (opensex_read_time (loaded_row "12".toList) rt).2.1 = 12) := by
  have hdw : db_read_word db = opensex_read_word db := rfl
  have main :
      ((opensex_read_int db ri).2.2 = (opensex_read_word db).2 ∧
        (opensex_read_uint db ru).2.2 = (opensex_read_word db).2 ∧
        (opensex_read_time db rt).2.2 = (opensex_read_word db).2) ∧
      (((opensex_read_int db ri).1 = true ↔
          ∃ w, (opensex_read_word db).1 = some w ∧ numeric_token w) ∧
        ((opensex_read_uint db ru).1 = true ↔
          ∃ w, (opensex_read_word db).1 = some w ∧ numeric_token w) ∧
        ((opensex_read_time db rt).1 = true ↔
          ∃ w, (opensex_read_word db).1 = some w ∧ numeric_token w)) := by
    cases hw : (opensex_read_word db).1 with
    | none =>
      have h0 : (db_read_word db).1 = none := hw
      rw [read_int_absent db ri h0, read_uint_absent db ru h0, read_time_absent db rt h0]
      simp [hdw]
    | some w =>
      have h0 : (db_read_word db).1 = some w := hw
      have hn := read_word_no_NUL db w hw
      obtain ⟨t1, t2⟩ := numeric_test_iff w hn
      rw [read_int_of_word db ri w h0, read_uint_of_word db ru w h0,
        read_time_of_word db rt w h0]
      refine ⟨⟨rfl, rfl, rfl⟩, ?_, ?_, ?_⟩
      · simp only [Option.some.injEq, exists_eq_left']
        exact t1
      · simp only [Option.some.injEq, exists_eq_left']
        exact t2
      · simp only [Option.some.injEq, exists_eq_left']
        exact t2
  obtain ⟨hcons, hi, hu, ht⟩ := main
  have neg_of : ∀ {b : Bool} {P : Prop}, (b = true ↔ P) → ¬ P → b = false := by
    intro b P h hn
    cases b with
    | false => rfl
    | true => exact absurd (h.1 rfl) hn
  refine ⟨hcons, ⟨hi, hu, ht⟩, ?_, ?_, ?_, ?_, ?_, ⟨rfl, rfl, rfl⟩,
    ⟨rfl, rfl, rfl, rfl, rfl, rfl⟩⟩
  · intro hsucc
    have hex : ∃ w, (opensex_read_word db).1 = some w ∧ numeric_token w := by
      rcases hsucc with h | h | h
      · exact hi.1 h
      · exact hu.1 h
      · exact ht.1 h
    obtain ⟨w, hw, hnum⟩ := hex
    exact ⟨w, hw, numeric_literal_of_token hnum⟩
  · intro hnone
    have hn : ¬ ∃ w, (opensex_read_word db).1 = some w ∧ numeric_token w := by
      rintro ⟨w, h, _⟩
      rw [hnone] at h
      exact absurd h (by simp)
    exact ⟨neg_of hi hn, neg_of hu hn, neg_of ht hn⟩
  · intro hempty
    have hn : ¬ ∃ w, (opensex_read_word db).1 = some w ∧ numeric_token w := by
      rintro ⟨w, h, hnum⟩
      rw [hempty] at h
      have : w = [] := (Option.some.inj h).symm
      exact hnum.1 this
    exact ⟨neg_of hi hn, neg_of hu hn, neg_of ht hn⟩
  · intro w hw hrest
    refine neg_of hi ?_
    rintro ⟨w2, h, hnum⟩
    rw [hw] at h
    have : w = w2 := Option.some.inj h
    subst this
    exact hrest (strtol_rest_of_numeric hnum).1
  · intro w hw hrest
    have hn : ¬ ∃ w, (opensex_read_word db).1 = some w ∧ numeric_token w := by
      rintro ⟨w2, h, hnum⟩
      rw [hw] at h
      have : w = w2 := Option.some.inj h
      subst this
      exact hrest (strtol_rest_of_numeric hnum).2
    exact ⟨neg_of hu hn, neg_of ht hn⟩


/-! ## Claims on the commit -/

theorem write_call_frame (c : write_call) (db : database_handle) :
    (c.apply db).priv.f.path = db.priv.f.path ∧ (c.apply db).priv.f.writing = db.priv.f.writing ∧
    (c.apply db).txn = db.txn ∧ (c.apply db).file = db.file := by
  cases c with
  | start_row type => cases type <;> exact ⟨rfl, rfl, rfl, rfl⟩
  | write_word word => exact ⟨rfl, rfl, rfl, rfl⟩
  | write_str word => exact ⟨rfl, rfl, rfl, rfl⟩
  | write_int num => exact ⟨rfl, rfl, rfl, rfl⟩
  | write_uint num => exact ⟨rfl, rfl, rfl, rfl⟩
  | write_time tm => exact ⟨rfl, rfl, rfl, rfl⟩
  | commit_row => exact ⟨rfl, rfl, rfl, rfl⟩

theorem write_calls_frame (cs : List write_call) :
    ∀ db : database_handle,
      (write_calls cs db).priv.f.path = db.priv.f.path ∧
      (write_calls cs db).priv.f.writing = db.priv.f.writing ∧
      (write_calls cs db).txn = db.txn ∧ (write_calls cs db).file = db.file := by
  induction cs with
  | nil => intro db; exact ⟨rfl, rfl, rfl, rfl⟩
  | cons c cs ih =>
    intro db
    obtain ⟨a1, a2, a3, a4⟩ := write_call_frame c db
    obtain ⟨b1, b2, b3, b4⟩ := ih (c.apply db)
    exact ⟨b1.trans a1, b2.trans a2, b3.trans a3, b4.trans a4⟩

theorem paths_fit (cfg : config) (bpath : List Char) (hfit : bpath.length + 5 < cfg.BUFSIZE) :
    snprintf cfg.BUFSIZE bpath = bpath ∧ mowgli_strlcpy bpath cfg.BUFSIZE = bpath ∧
    mowgli_strlcat bpath ".new".toList cfg.BUFSIZE = bpath ++ ".new".toList ∧
    mowgli_strlcat bpath ".lock".toList cfg.BUFSIZE = bpath ++ ".lock".toList ∧
    bpath ++ ".new".toList ≠ bpath ∧ bpath ++ ".new".toList ≠ bpath ++ ".lock".toList := by
  have h4 : (".new".toList).length = 4 := by decide
  have h5 : (".lock".toList).length = 5 := by decide
  refine ⟨List.take_of_length_le (by omega), List.take_of_length_le (by omega), ?_, ?_, ?_, ?_⟩
  · unfold mowgli_strlcat
    rw [if_pos (by omega)]
    apply List.take_of_length_le
    rw [List.length_append, h4]
    omega
  · unfold mowgli_strlcat
    rw [if_pos (by omega)]
    apply List.take_of_length_le
    rw [List.length_append, h5]
    omega
  · intro h
    have := congrArg List.length h
    rw [List.length_append, h4] at this
    omega
  · intro h
    exact absurd (List.append_cancel_left h) (by decide)

/-- A successful `opensex_db_open_write`, when the paths fit into `BUFSIZE`: the
handle writes to the `.new` sibling of the live path, which keeps the bytes it
held. -/
theorem open_write_ok (cfg : config) (os : os_state) (filename : Option (List Char))
    (bpath : List Char)
    (hb : cfg.datadir ++ ['/'] ++ filename.getD "services.db".toList = bpath)
    (hfit : bpath.length + 5 < cfg.BUFSIZE) :
    ∃ os1 db, opensex_db_open_write cfg os filename true true = (os1, some db) ∧
      db.txn = .DB_WRITE ∧ db.priv.f.writing = true ∧
      db.priv.f.path = bpath ++ ".new".toList ∧ db.file = bpath ∧
      os1.fs (bpath ++ ".new".toList) = some ((os.fs (bpath ++ ".new".toList)).getD []) := by
  obtain ⟨e1, e2, e3, e4, n1, n2⟩ := paths_fit cfg bpath hfit
  refine ⟨_, _, rfl, ?_, ?_, ?_, ?_, ?_⟩
  · rfl
  · rfl
  · show mowgli_strlcat (mowgli_strlcpy (snprintf cfg.BUFSIZE _) cfg.BUFSIZE) _ _ = _
    rw [hb, e1, e2, e3]
  · show snprintf cfg.BUFSIZE _ = _
    rw [hb, e1]
  · simp only [hb, e1, e2, e3, e4, if_true]
    generalize ".new".toList = dn at n1 n2 ⊢
    generalize ".lock".toList = dl at n2 ⊢
    cases cfg.HAVE_FLOCK <;> simp [open_creat, n2]

/-- A `opensex_db_close` of a write handle with a successful rename, when the paths
fit into `BUFSIZE`: the live file receives the bytes written followed by what
the `.new` file held behind that length, and the `.new` name is gone. -/
theorem close_contents (cfg : config) (os : os_state) (db : database_handle)
    (bpath stale : List Char) (h1 : db.txn = .DB_WRITE) (h2 : db.priv.f.writing = true)
    (h3 : db.priv.f.path = bpath ++ ".new".toList) (h4 : db.file = bpath)
    (hfit : bpath.length + 5 < cfg.BUFSIZE)
    (hs : os.fs (bpath ++ ".new".toList) = some stale) :
    (opensex_db_close cfg os db true).fs bpath
      = some (db.priv.f.wr ++ stale.drop db.priv.f.wr.length) ∧
    (opensex_db_close cfg os db true).fs (bpath ++ ".new".toList) = none := by
  obtain ⟨e1, e2, e3, e4, n1, n2⟩ := paths_fit cfg bpath hfit
  unfold opensex_db_close
  rw [h4, e2, e3]
  generalize ".new".toList = dn at n1 h3 hs ⊢
  cases cfg.HAVE_FLOCK <;>
    simp [h1, h2, h3, hs, fclose, srename, n1, n1.symm]

/-- What a write session that opens, writes and renames successfully leaves on
disk, when the paths fit into `BUFSIZE`: the live file holds the bytes written
followed by whatever a `.new` file found at the start held behind that
length, and the `.new` name is gone. -/
theorem commit_contents (cfg : config) (os : os_state) (filename : Option (List Char))
    (cs : List write_call)
    (hfit : (cfg.datadir ++ ['/'] ++ filename.getD "services.db".toList).length + 5
      < cfg.BUFSIZE) :
    ∃ wr, (write_session cfg os filename cs true true true).2 = some wr ∧
      (write_session cfg os filename cs true true true).1.fs
          (cfg.datadir ++ ['/'] ++ filename.getD "services.db".toList)
        = some (wr ++ ((os.fs (cfg.datadir ++ ['/'] ++ filename.getD "services.db".toList
                  ++ ".new".toList)).getD []).drop wr.length) ∧
      (write_session cfg os filename cs true true true).1.fs
          (cfg.datadir ++ ['/'] ++ filename.getD "services.db".toList ++ ".new".toList)
        = none := by
  obtain ⟨os1, db, ho, o1, o2, o3, o4, o5⟩ := open_write_ok cfg os filename _ rfl hfit
  obtain ⟨f1, f2, f3, f4⟩ := write_calls_frame cs db
  have hc := close_contents cfg os1 (write_calls cs db) _ _ (f3.trans o1) (f2.trans o2)
    (f1.trans o3) (f4.trans o4) hfit o5
  refine ⟨(write_calls cs db).priv.f.wr, ?_, ?_, ?_⟩
  · simp only [write_session, ho]
  · simp only [write_session, ho]
    exact hc.1
  · simp only [write_session, ho]
    exact hc.2

/-- C2 at a stale temporary file. In a data directory where an earlier crash left
`services.db.new` with the rows `MU alice` and `MU bob`, a write session that
writes the single row `MU carol` and closes with a successful rename has
written the version row and the row `MU carol`, yet the live file ends up with
the stale row `MU bob` behind these bytes, since the temporary file is opened
without truncation; the temporary name is gone. -/
theorem atomic_commit_stale_tail :
    (write_session ⟨"etc".toList, 1024, true⟩ ⟨crashed_fs, false, 0, 0, 0⟩ none
        [write_call.start_row (some "MU".toList), write_call.write_str (some "carol".toList),
          write_call.commit_row] true true true).2
      = some "GRVER 1 \nMU carol\n".toList ∧
    (write_session ⟨"etc".toList, 1024, true⟩ ⟨crashed_fs, false, 0, 0, 0⟩ none
        [write_call.start_row (some "MU".toList), write_call.write_str (some "carol".toList),
          write_call.commit_row] true true true).1.fs "etc/services.db".toList
      = some "GRVER 1 \nMU carol\nMU bob\n".toList ∧
    (write_session ⟨"etc".toList, 1024, true⟩ ⟨crashed_fs, false, 0, 0, 0⟩ none
        [write_call.start_row (some "MU".toList), write_call.write_str (some "carol".toList),
          write_call.commit_row] true true true).1.fs "etc/services.db.new".toList
      = none := by
  decide

/-! ## Claims on the version row and the write target -/

theorem write_calls_wr_extends (cs : List write_call) :
    ∀ db : database_handle, db.priv.f.wr <+: (write_calls cs db).priv.f.wr := by
  induction cs with
  | nil => intro db; exact List.prefix_refl _
  | cons c cs ih =>
    intro db
    have h1 : db.priv.f.wr <+: (c.apply db).priv.f.wr := by
      cases c with
      | start_row type =>
        cases type with
        | none => exact List.prefix_refl _
        | some type => exact List.prefix_append _ _
      | write_word word => exact List.prefix_append _ _
      | write_str word => exact List.prefix_append _ _
      | write_int num => exact List.prefix_append _ _
      | write_uint num => exact List.prefix_append _ _
      | write_time tm => exact List.prefix_append _ _
      | commit_row => exact List.prefix_append _ _
    exact h1.trans (ih (c.apply db))

/-- C11, as amended. The version row: the bytes that a successful
`opensex_db_open_write` emits are exactly `GRVER 1`, one more space and a newline,
that is the type `GRVER`, a space, the field `1`, the space that `write_int` puts
behind every field, and the newline; they stay the first bytes whatever rows
follow, and they conform to the row grammar with an empty last field. -/
theorem version_row (cfg : config) (os : os_state) (filename : Option (List Char))
    (cs : List write_call) :
    (opensex_db_open_write cfg os filename true true).2.map (fun db => db.priv.f.wr)
      = some ['G', 'R', 'V', 'E', 'R', ' ', '1', ' ', '\n'] ∧
    (opensex_db_open_write cfg os filename true true).2.map
        (fun db => decide (['G', 'R', 'V', 'E', 'R', ' ', '1', ' ', '\n']
          <+: (write_calls cs db).priv.f.wr))
      = some true ∧
    is_row ['G', 'R', 'V', 'E', 'R', ' ', '1', ' ', '\n'] := by
  have hwr : (opensex_db_open_write cfg os filename true true).2.map (fun db => db.priv.f.wr)
      = some ['G', 'R', 'V', 'E', 'R', ' ', '1', ' ', '\n'] := by
    simp only [opensex_db_open_write, and_self, if_true, Option.map]
    rfl
  refine ⟨hwr, ?_, ?_⟩
  · cases ho : (opensex_db_open_write cfg os filename true true).2 with
    | none => rw [ho] at hwr; exact absurd hwr (by simp)
    | some db =>
      rw [ho] at hwr
      simp only [Option.map, Option.some.injEq] at hwr
      simp only [Option.map, Option.some.injEq, decide_eq_true_eq]
      rw [← hwr]
      exact write_calls_wr_extends cs db
  · refine ⟨"GRVER".toList, ["1".toList, []], by decide, by decide, by decide, by decide, ?_, ?_⟩
    · decide
    · decide

/-- C11 as stated fails: on the default database in the directory `etc`, the bytes
emitted by the open are nine bytes, `GRVER 1` with a space in front of the
newline, and not the eight bytes of `GRVER 1` and a newline. -/
theorem version_row_fails :
    (opensex_db_open_write ⟨"etc".toList, 1024, true⟩ ⟨crashed_fs, false, 0, 0, 0⟩ none
        true true).2.map (fun db => db.priv.f.wr)
      = some "GRVER 1 \n".toList ∧
    "GRVER 1 \n".toList ≠ "GRVER 1\n".toList := by
  decide

/-- The two paths of a handle opened for writing: the stream's path is the live
path copied and extended by `.new` within `BUFSIZE` bytes, the handle keeps the
live path. -/
theorem open_write_paths (cfg : config) (os : os_state) (filename : Option (List Char)) :
    (opensex_db_open_write cfg os filename true true).2.map (fun db => (db.priv.f.path, db.file))
      = some
        (mowgli_strlcat
          (mowgli_strlcpy
            (snprintf cfg.BUFSIZE (cfg.datadir ++ ['/'] ++ filename.getD "services.db".toList))
            cfg.BUFSIZE)
          ".new".toList cfg.BUFSIZE,
         snprintf cfg.BUFSIZE (cfg.datadir ++ ['/'] ++ filename.getD "services.db".toList)) := by
  simp only [opensex_db_open_write, and_self, if_true, Option.map]
  rfl

/-- When the live path fills the buffer, `mowgli_strlcat` has no room for a single
character of `.new`: the path comes back as it was. -/
theorem strlcat_full (size : Nat) (full suffix : List Char) (hfull : size - 1 ≤ full.length) :
    mowgli_strlcat (mowgli_strlcpy (snprintf size full) size) suffix size = snprintf size full := by
  have hlen : (snprintf size full).length = size - 1 := by
    unfold snprintf
    rw [List.length_take]
    omega
  have hcpy : mowgli_strlcpy (snprintf size full) size = snprintf size full := by
    unfold mowgli_strlcpy
    exact List.take_of_length_le (by omega)
  rw [hcpy]
  unfold mowgli_strlcat
  split
  · rw [List.take_append_of_le_length (by omega)]
    exact List.take_of_length_le (by omega)
  · rfl

/-- When the live path leaves room for at least one more character in the buffer,
the path with `.new` appended is longer than the live path, hence another path;
the same holds for the two paths that `opensex_db_close` renames. -/
theorem write_target_differs (cfg : config) (os : os_state) (filename : Option (List Char))
    (hfit : (cfg.datadir ++ ['/'] ++ filename.getD "services.db".toList).length + 1
      < cfg.BUFSIZE) :
    (opensex_db_open_write cfg os filename true true).2.map
        (fun db => decide (db.priv.f.path ≠ db.file ∧
          mowgli_strlcat (mowgli_strlcpy db.file cfg.BUFSIZE) ".new".toList cfg.BUFSIZE
            ≠ mowgli_strlcpy db.file cfg.BUFSIZE))
      = some true := by
  generalize hb : cfg.datadir ++ ['/'] ++ filename.getD "services.db".toList = full at hfit
  have hp := open_write_paths cfg os filename
  rw [hb] at hp
  have hsn : snprintf cfg.BUFSIZE full = full := List.take_of_length_le (by omega)
  have hcpy : mowgli_strlcpy full cfg.BUFSIZE = full := List.take_of_length_le (by omega)
  have h4 : (".new".toList).length = 4 := by decide
  have hne : mowgli_strlcat full ".new".toList cfg.BUFSIZE ≠ full := by
    intro h
    have hl := congrArg List.length h
    unfold mowgli_strlcat at hl
    rw [if_pos (by omega), List.length_take, List.length_append, h4] at hl
    omega
  rw [hsn, hcpy] at hp
  cases ho : (opensex_db_open_write cfg os filename true true).2 with
  | none => rw [ho] at hp; exact absurd hp (by simp)
  | some db =>
    rw [ho] at hp
    simp only [Option.map, Option.some.injEq, Prod.mk.injEq] at hp
    simp only [Option.map, Option.some.injEq, decide_eq_true_eq]
    rw [hp.2, hcpy, hp.1]
    exact ⟨hne, hne⟩

/-- C12, at a live path that fills the buffer: with a `BUFSIZE` of 1024 and a data
directory of four levels of 252 characters each, 1011 characters in all, the
live path `<datadir>/services.db` has 1023 characters, `mowgli_strlcat` drops the
whole of `.new`, and the path that the write session opens is the live path
stored in the handle; the two paths that `opensex_db_close` hands to `rename` are
equal as well. -/
theorem write_target_is_live :
    long_component.length = 252 ∧
    long_datadir
      = long_component ++ ['/'] ++ long_component ++ ['/'] ++ long_component ++ ['/']
          ++ long_component ∧
    (long_datadir ++ ['/'] ++ "services.db".toList).length = 1023 ∧
    (opensex_db_open_write ⟨long_datadir, 1024, true⟩ ⟨fun _ => none, false, 0, 0, 0⟩ none
        true true).2.map
        (fun db => decide (db.priv.f.path = db.file ∧
          mowgli_strlcat (mowgli_strlcpy db.file 1024) ".new".toList 1024
            = mowgli_strlcpy db.file 1024))
      = some true := by
  have hc : long_component.length = 252 := List.length_replicate _ _
  have h11 : ("services.db".toList).length = 11 := by decide
  have hlen : (long_datadir ++ ['/'] ++ "services.db".toList).length = 1023 := by
    unfold long_datadir
    simp only [List.length_append, List.length_singleton, hc, h11]
  refine ⟨hc, rfl, hlen, ?_⟩
  have hp := open_write_paths ⟨long_datadir, 1024, true⟩ ⟨fun _ => none, false, 0, 0, 0⟩ none
  have hfull : 1024 - 1 ≤ (long_datadir ++ ['/'] ++ "services.db".toList).length := by
    rw [hlen]
  have hcat := strlcat_full 1024 (long_datadir ++ ['/'] ++ "services.db".toList) ".new".toList hfull
  generalize hb : long_datadir ++ ['/'] ++ "services.db".toList = full at hp hcat
  have hb2 : (⟨long_datadir, 1024, true⟩ : config).datadir ++ ['/']
      ++ (none : Option (List Char)).getD "services.db".toList = full := hb
  have hB : (⟨long_datadir, 1024, true⟩ : config).BUFSIZE = 1024 := rfl
  rw [hb2, hB, hcat] at hp
  have hcpy : mowgli_strlcpy (snprintf 1024 full) 1024 = snprintf 1024 full := by
    unfold mowgli_strlcpy snprintf
    exact List.take_of_length_le (by rw [List.length_take]; omega)
  cases ho : (opensex_db_open_write ⟨long_datadir, 1024, true⟩ ⟨fun _ => none, false, 0, 0, 0⟩
      none true true).2 with
  | none => rw [ho] at hp; exact absurd hp (by simp)
  | some db =>
    rw [ho] at hp
    simp only [Option.map, Option.some.injEq, Prod.mk.injEq] at hp
    simp only [Option.map, Option.some.injEq, decide_eq_true_eq]
    rw [hp.2, hp.1, hcat]
    exact ⟨rfl, hcpy.symm⟩

/-! ## Claims on deletion and on rejected disposal -/

/-- C17. Frame of `metadata_delete`: when no record's name equals `name` ignoring
case, the object comes back as it was; otherwise the list is `a ++ md :: b` with
`md` the first record that matches, and the result is the same object with the
list `a ++ b`, so exactly that record is gone and all others keep their order;
and when the list had at most one record per case-insensitive name,
`metadata_find` finds nothing under `name` afterwards. -/
theorem metadata_delete_frame (obj : object_t) (name : List Char) :
    ((∀ e ∈ obj.metadata, strcasecmp e.name name ≠ 0) →
      metadata_delete obj (some name) = obj) ∧
    ((∃ e ∈ obj.metadata, strcasecmp e.name name = 0) →
      ∃ a md b, obj.metadata = a ++ md :: b ∧ (∀ e ∈ a, strcasecmp e.name name ≠ 0) ∧
        strcasecmp md.name name = 0 ∧
        metadata_delete obj (some name) = { obj with metadata := a ++ b }) ∧
    (metadata_unique obj.metadata →
      metadata_find (metadata_delete obj (some name)) (some name) = none) := by
  refine ⟨?_, ?_, ?_⟩
  · intro h
    have hf : metadata_find obj (some name) = none :=
      (metadata_find_iter_none name obj.metadata).2 h
    simp [metadata_delete, hf]
  · intro h
    cases hf : metadata_find obj (some name) with
    | none =>
      obtain ⟨e, he, h0⟩ := h
      exact absurd h0 ((metadata_find_iter_none name obj.metadata).1 hf e he)
    | some md =>
      obtain ⟨h0, a, b, hl, ha, he⟩ := metadata_find_iter_some hf
      refine ⟨a, md, b, hl, ha, h0, ?_⟩
      simp [metadata_delete, hf, he]
  · intro hu
    exact (metadata_find_iter_none name _).2 (metadata_delete_no_match obj name hu)

/-- The three cases of C17 on a list of three records, two of them under names
that differ in case only. -/
theorem metadata_delete_frame_example :
    metadata_delete ⟨1, false, none, [⟨"url".toList, "a".toList⟩, ⟨"Email".toList, "b".toList⟩,
        ⟨"EMAIL".toList, "c".toList⟩], none⟩ (some "email".toList)
      = ⟨1, false, none, [⟨"url".toList, "a".toList⟩, ⟨"EMAIL".toList, "c".toList⟩], none⟩ ∧
    metadata_delete ⟨1, false, none, [⟨"url".toList, "a".toList⟩], none⟩ (some "email".toList)
      = ⟨1, false, none, [⟨"url".toList, "a".toList⟩], none⟩ := by
  decide

/-- C16, as amended. With the cursor in front of the text `w`, `opensex_read_str`
returns `w` and leaves the codec state as it was, cursor included; only the
token index of the handle goes up by one. A second `opensex_read_str` returns `w`
again, and an `opensex_read_word` after it returns what it would have returned
before it. -/
theorem read_str_keeps_cursor (db : database_handle) (pre w post : List Char)
    (hbuf : db.priv.buf = pre ++ w ++ NUL :: post) (htok : db.priv.token = some pre.length)
    (hw : NUL ∉ w) :
    (opensex_read_str db).1 = some w ∧
    (opensex_read_str db).2.priv = db.priv ∧
    (opensex_read_str db).2.token = db.token + 1 ∧
    (opensex_read_str (opensex_read_str db).2).1 = some w ∧
    (opensex_read_word (opensex_read_str db).2).1 = (opensex_read_word db).1 := by
  have h1 := read_str_rest db pre w post hbuf htok hw
  have h2 : (opensex_read_str db).2.priv = db.priv := rfl
  refine ⟨h1, h2, rfl, ?_, ?_⟩
  · exact read_str_rest (opensex_read_str db).2 pre w post (by rw [h2]; exact hbuf)
      (by rw [h2]; exact htok) hw
  · unfold opensex_read_word
    rw [h2]
    simp only
    split
    · rfl
    · split <;> rfl

/-- The amended C16 on the row `KEY free text` after the type has been read. -/
theorem read_str_keeps_cursor_witness :
    (opensex_read_str (opensex_read_word (loaded_row "KEY free text".toList)).2).1
      = some "free text".toList ∧
    (opensex_read_str (opensex_read_str
      (opensex_read_word (loaded_row "KEY free text".toList)).2).2).1
      = some "free text".toList :=
  have h := read_str_keeps_cursor (opensex_read_word (loaded_row "KEY free text".toList)).2
    ("KEY".toList ++ [NUL]) "free text".toList [] (by decide) (by decide) (by decide)
  ⟨h.1, h.2.2.2.1⟩

/-- C16 as stated fails: on the row `KEY free text`, after the type has been read,
`opensex_read_str` returns `free text`; a second `opensex_read_str` returns
`free text` once more, and an `opensex_read_word` after the first returns `free`. -/
theorem read_str_repeats :
    (opensex_read_str (opensex_read_word (loaded_row "KEY free text".toList)).2).1
      = some "free text".toList ∧
    (opensex_read_str (opensex_read_str
      (opensex_read_word (loaded_row "KEY free text".toList)).2).2).1
      = some "free text".toList ∧
    (opensex_read_word (opensex_read_str
      (opensex_read_word (loaded_row "KEY free text".toList)).2).2).1
      = some "free".toList ∧
    (opensex_read_str (opensex_read_word (loaded_row "KEY free text".toList)).2).2.priv.token
      = some 4 := by
  decide

theorem digit_of_isdig {c : Char} (h : isdig c) :
    digit_of c = some (c.toNat - 48) ∧ c.toNat - 48 < 10 := by
  unfold isdig at h
  unfold digit_of
  rw [if_pos h]
  exact ⟨rfl, by omega⟩

theorem scan_digits_decimal (w : List Char) (h : ∀ c ∈ w, isdig c) :
    ∀ acc, scan_digits 10 w acc = (w.foldl (fun acc c => acc * 10 + (c.toNat - 48)) acc, []) := by
  induction w with
  | nil => intro acc; rfl
  | cons a w ih =>
    intro acc
    obtain ⟨h1, h2⟩ := digit_of_isdig (h a (List.mem_cons_self _ _))
    unfold scan_digits
    simp only [h1, h2, if_true, List.foldl_cons]
    exact ih (fun c hc => h c (List.mem_cons_of_mem _ hc)) _

/-- A token of decimal digits that does not start with `0` is read by `strtol` and
`strtoul` with base 0 in base 10, to its end. -/
theorem strto_parse_decimal (w : List Char) (hne : w ≠ []) (hd : ∀ c ∈ w, isdig c)
    (h0 : peek w ≠ '0') :
    strto_parse w 0 = some (false, decimal_value w, []) := by
  cases w with
  | nil => exact absurd rfl hne
  | cons a l =>
    obtain ⟨f1, f2, f3, _, _, _⟩ := isdig_facts (hd a (List.mem_cons_self _ _))
    have hx := hex_prefixed_of_peek (a :: l) h0
    have hb : strto_base (a :: l) 0 = (10, a :: l) := by
      simp [strto_base, hx, h0]
    have hdw : List.dropWhile isspace (a :: l) = a :: l := by simp [List.dropWhile_cons, f1]
    have hs := scan_digits_decimal (a :: l) hd 0
    simp only [strto_parse, hdw, peek, List.headD_cons, f2, f3, or_self, if_false]
    rw [hb]
    simp only [hs]
    simp [decimal_value]

theorem isdig_of_digit_lt {c : Char} {d : Nat} (h : digit_of c = some d) (hd : d < 10) :
    isdig c := by
  unfold digit_of at h
  unfold isdig
  split at h
  · assumption
  · split at h
    · have := Option.some.inj h
      omega
    · split at h
      · have := Option.some.inj h
        omega
      · exact absurd h (by simp)

theorem scan_digits_all (base : Nat) (w : List Char) (h : digits_of_base base w) :
    ∀ acc, scan_digits base w acc
      = (w.foldl (fun acc c => acc * base + (digit_of c).getD 0) acc, []) := by
  induction w with
  | nil => intro acc; rfl
  | cons a w ih =>
    intro acc
    obtain ⟨d, h1, h2⟩ := h a (List.mem_cons_self _ _)
    unfold scan_digits
    simp only [h1, h2, if_true, List.foldl_cons, Option.getD_some]
    exact ih (fun c hc => h c (List.mem_cons_of_mem _ hc)) _

/-- A `0` followed by decimal digits has no hexadecimal prefix. -/
theorem hex_prefixed_zero_digits (t : List Char) (hd : ∀ c ∈ t, isdig c) :
    hex_prefixed ('0' :: t) = false := by
  cases t with
  | nil => rfl
  | cons x t =>
    cases t with
    | nil => rfl
    | cons y t =>
      have hx := hd x (List.mem_cons_self _ _)
      unfold isdig at hx
      have h1 : x ≠ 'x' := by
        intro e
        rw [e] at hx
        exact absurd hx.2 (by decide)
      have h2 : x ≠ 'X' := by
        intro e
        rw [e] at hx
        exact absurd hx.2 (by decide)
      simp [hex_prefixed, h1, h2]

/-- With base 0 a `0` followed by decimal digits is converted in base 8. -/
theorem strto_parse_zero (t : List Char) (hd : ∀ c ∈ t, isdig c) :
    strto_parse ('0' :: t) 0
      = if (scan_digits 8 ('0' :: t) 0).2.length = ('0' :: t).length then none
        else some (false, (scan_digits 8 ('0' :: t) 0).1, (scan_digits 8 ('0' :: t) 0).2) := by
  have hx := hex_prefixed_zero_digits t hd
  have hp : peek ('0' :: t) = '0' := rfl
  have hb : strto_base ('0' :: t) 0 = (8, '0' :: t) := by
    simp [strto_base, hx, hp]
  have hs : isspace '0' = false := by decide
  have hdw : List.dropWhile isspace ('0' :: t) = '0' :: t := by
    simp [List.dropWhile_cons, hs]
  have n1 : ('0' : Char) ≠ '-' := by decide
  have n2 : ('0' : Char) ≠ '+' := by decide
  simp only [strto_parse, hdw, hp, n1, n2, or_self, if_false]
  rw [hb]
  simp

/-- A `0` followed by digits below 8 is read by `strtol` and `strtoul` with base 0 in
base 8, to its end. -/
theorem strto_parse_octal (t : List Char) (h : digits_of_base 8 t) :
    strto_parse ('0' :: t) 0 = some (false, digits_value 8 ('0' :: t), []) := by
  have hd : ∀ c ∈ t, isdig c := by
    intro c hc
    obtain ⟨d, h1, h2⟩ := h c hc
    exact isdig_of_digit_lt h1 (by omega)
  have h0 : digits_of_base 8 ('0' :: t) := by
    intro c hc
    rcases List.mem_cons.1 hc with e | hc
    · rw [e]
      exact ⟨0, by decide, by decide⟩
    · exact h c hc
  rw [strto_parse_zero t hd, scan_digits_all 8 _ h0 0]
  simp [digits_value]

/-- A `0` followed by decimal digits of which one is 8 or 9 is not a number in
full for `strtol` and `strtoul` with base 0. -/
theorem not_numeric_octal (t : List Char) (hd : ∀ c ∈ t, isdig c)
    (h8 : ¬ digits_of_base 8 t) : ¬ numeric_token ('0' :: t) := by
  rintro ⟨_, neg, v, hp⟩
  rw [strto_parse_zero t hd] at hp
  obtain ⟨ds, e1, e2⟩ := scan_digits_split 8 ('0' :: t) 0
  split at hp
  · exact absurd hp (by simp)
  · simp only [Option.some.injEq, Prod.mk.injEq] at hp
    rw [hp.2.2, List.append_nil] at e1
    apply h8
    intro c hc
    exact e2 c (by rw [← e1]; exact List.mem_cons_of_mem _ hc)

/-- The prefix `0x` or `0X` followed by one or more hexadecimal digits is read by
`strtol` and `strtoul` with base 0 in base 16, to its end. -/
theorem strto_parse_hex (x : Char) (t : List Char) (hx : x = 'x' ∨ x = 'X') (hne : t ≠ [])
    (h : digits_of_base 16 t) :
    strto_parse ('0' :: x :: t) 0 = some (false, digits_value 16 t, []) := by
  cases t with
  | nil => exact absurd rfl hne
  | cons a t =>
    obtain ⟨d, h1, h2⟩ := h a (List.mem_cons_self _ _)
    have hxx : (x = 'x' ∨ x = 'X') := hx
    have hpre : hex_prefixed ('0' :: x :: a :: t) = true := by
      rcases hx with rfl | rfl <;> simp [hex_prefixed, h1, h2]
    have hb : strto_base ('0' :: x :: a :: t) 0 = (16, a :: t) := by
      simp [strto_base, hpre]
    have hs : isspace '0' = false := by decide
    have hdw : List.dropWhile isspace ('0' :: x :: a :: t) = '0' :: x :: a :: t := by
      simp [List.dropWhile_cons, hs]
    have hp : peek ('0' :: x :: a :: t) = '0' := rfl
    have n1 : ('0' : Char) ≠ '-' := by decide
    have n2 : ('0' : Char) ≠ '+' := by decide
    simp only [strto_parse, hdw, hp, n1, n2, or_self, if_false]
    rw [hb]
    simp only [scan_digits_all 16 _ h 0]
    simp [digits_value]

/-- What the three readers return on a word that `strtol` and `strtoul` convert to
its end, without a sign. -/
theorem readers_accept (db : database_handle) (w : List Char) (v : Nat) (ri : Int) (ru : Nat)
    (rt : Int) (hw : (opensex_read_word db).1 = some w) (hpk : peek w ≠ NUL)
    (hp : strto_parse w 0 = some (false, v, [])) :
    readers_return db ri ru rt v := by
  have hpk2 : (peek w != NUL) = true := by simpa using hpk
  have hnil : (peek ([] : List Char) == NUL) = true := by decide
  have h1 : (db_read_word db).1 = some w := hw
  unfold readers_return
  rw [read_int_of_word db ri w h1, read_uint_of_word db ru w h1, read_time_of_word db rt w h1]
  refine ⟨?_, ?_, ?_⟩
  · intro hv
    have hs : strtol w 0 = ((v : Int), []) := by
      simp only [strtol, hp, LONG_MAX, LONG_MIN, Bool.false_eq_true, if_false]
      have c1 : ¬ (v : Int) > 2 ^ 63 - 1 := by omega
      have c2 : ¬ (v : Int) < -(2 ^ 63) := by omega
      rw [if_neg c1, if_neg c2]
    rw [hs]
    refine ⟨by simp only [hpk2, hnil, Bool.and_self], ?_⟩
    show to_int (v : Int) = (v : Int)
    unfold to_int
    omega
  · intro hv
    have hs : strtoul w 0 = (v, []) := by
      simp only [strtoul, hp, ULONG_MAX, Bool.false_eq_true, if_false]
      have c1 : ¬ v > 2 ^ 64 - 1 := by omega
      rw [if_neg c1]
    rw [hs]
    refine ⟨by simp only [hpk2, hnil, Bool.and_self], ?_⟩
    show to_uint v = v
    unfold to_uint
    omega
  · intro hv
    have hs : strtoul w 0 = (v, []) := by
      simp only [strtoul, hp, ULONG_MAX, Bool.false_eq_true, if_false]
      have c1 : ¬ v > 2 ^ 64 - 1 := by omega
      rw [if_neg c1]
    rw [hs]
    refine ⟨by simp only [hpk2, hnil, Bool.and_self], ?_⟩
    show to_time_t v = (v : Int)
    unfold to_time_t
    omega

/-- The three readers fail on a word that is not a number in full. -/
theorem readers_reject (db : database_handle) (w : List Char) (ri : Int) (ru : Nat) (rt : Int)
    (hw : (opensex_read_word db).1 = some w) (hn : ¬ numeric_token w) :
    readers_fail db ri ru rt := by
  have h1 : (db_read_word db).1 = some w := hw
  obtain ⟨t1, t2⟩ := numeric_test_iff w (read_word_no_NUL db w hw)
  have f1 : (peek w != NUL && peek (strtol w 0).2 == NUL) = false := by
    cases hb : (peek w != NUL && peek (strtol w 0).2 == NUL) with
    | false => rfl
    | true => exact absurd (t1.1 hb) hn
  have f2 : (peek w != NUL && peek (strtoul w 0).2 == NUL) = false := by
    cases hb : (peek w != NUL && peek (strtoul w 0).2 == NUL) with
    | false => rfl
    | true => exact absurd (t2.1 hb) hn
  unfold readers_fail
  rw [read_int_of_word db ri w h1, read_uint_of_word db ru w h1, read_time_of_word db rt w h1]
  exact ⟨f1, f2, f2⟩

/-- C18, as amended. The numeric readers convert the word `w` they read with
base 0. When `w` is made only of decimal digits and does not start with `0`, or
is `0` itself, they return its decimal value. When `w` starts with `0` and goes
on with digits below 8 only, they return its value in base 8, and when it
starts with `0` and goes on with decimal digits of which one is 8 or 9, they
do not accept it. When `w` is `0x` or `0X` followed by one or more hexadecimal
digits, they accept it and return the value of these digits in base 16. A
value is returned wherever it fits the type read (`int`, `unsigned int`,
`time_t`). So `010` reads as 8 and `0x10` is accepted and reads as 16. -/
theorem decimal_tokens (db : database_handle) (w : List Char) (ri : Int) (ru : Nat) (rt : Int)
    (hw : (opensex_read_word db).1 = some w) :
    (w ≠ [] → (∀ c ∈ w, isdig c) → (peek w ≠ '0' ∨ w = ['0']) →
      readers_return db ri ru rt (decimal_value w)) ∧
    (∀ t, w = '0' :: t → digits_of_base 8 t →
      readers_return db ri ru rt (digits_value 8 w)) ∧
    (∀ t, w = '0' :: t → (∀ c ∈ t, isdig c) → ¬ digits_of_base 8 t →
      readers_fail db ri ru rt) ∧
    (∀ x t, w = '0' :: x :: t → (x = 'x' ∨ x = 'X') → t ≠ [] → digits_of_base 16 t →
      readers_return db ri ru rt (digits_value 16 t)) ∧
    ((opensex_read_int (loaded_row "010".toList) ri).1 = true ∧
      (opensex_read_int (loaded_row "010".toList) ri).2.1 = 8 ∧
      (opensex_read_uint (loaded_row "010".toList) ru).2.1 = 8 ∧
      (opensex_read_time (loaded_row "010".toList) rt).2.1 = 8) ∧
    ((opensex_read_int (loaded_row "0x10".toList) ri).1 = true ∧
      (opensex_read_int (loaded_row "0x10".toList) ri).2.1 = 16 ∧
      (opensex_read_uint (loaded_row "0x10".toList) ru).1 = true ∧
      (opensex_read_uint (loaded_row "0x10".toList) ru).2.1 = 16 ∧
      (opensex_read_time (loaded_row "0x10".toList) rt).1 = true ∧
      (opensex_read_time (loaded_row "0x10".toList) rt).2.1 = 16) := by
  have hz : peek ('0' :: ([] : List Char)) ≠ NUL := by decide
  refine ⟨?_, ?_, ?_, ?_, ⟨rfl, rfl, rfl, rfl⟩, ⟨rfl, rfl, rfl, rfl, rfl, rfl⟩⟩
  · intro hne hd h0
    have hp : strto_parse w 0 = some (false, decimal_value w, []) := by
      rcases h0 with h0 | h0
      · exact strto_parse_decimal w hne hd h0
      · rw [h0]
        decide
    have hpk : peek w ≠ NUL := by
      cases w with
      | nil => exact absurd rfl hne
      | cons a l => exact (isdig_facts (hd a (List.mem_cons_self _ _))).2.2.2.2.2
    exact readers_accept db w _ ri ru rt hw hpk hp
  · intro t e h8
    have hpk : peek w ≠ NUL := by
      rw [e]
      show '0' ≠ NUL
      decide
    have hp := strto_parse_octal t h8
    rw [← e] at hp
    exact readers_accept db w _ ri ru rt hw hpk hp
  · intro t e hd h8
    have hn := not_numeric_octal t hd h8
    rw [← e] at hn
    exact readers_reject db w ri ru rt hw hn
  · intro x t e hx hne h16
    have hpk : peek w ≠ NUL := by
      rw [e]
      show '0' ≠ NUL
      decide
    have hp := strto_parse_hex x t hx hne h16
    rw [← e] at hp
    exact readers_accept db w _ ri ru rt hw hpk hp

/-- The amended C18 on four words: `1999` is read as 1999 by all three readers,
`0755` as 493, `0x1F` as 31, and `08` is not accepted. -/
theorem decimal_tokens_witness :
    ((opensex_read_int (loaded_row "1999 x".toList) 0).1 = true ∧
      (opensex_read_int (loaded_row "1999 x".toList) 0).2.1 = 1999 ∧
      (opensex_read_uint (loaded_row "1999 x".toList) 0).2.1 = 1999 ∧
      (opensex_read_time (loaded_row "1999 x".toList) 0).2.1 = 1999) ∧
    ((opensex_read_int (loaded_row "0755 x".toList) 0).1 = true ∧
      (opensex_read_int (loaded_row "0755 x".toList) 0).2.1 = 493) ∧
    ((opensex_read_uint (loaded_row "0x1F".toList) 0).1 = true ∧
      (opensex_read_uint (loaded_row "0x1F".toList) 0).2.1 = 31) ∧
    ((opensex_read_int (loaded_row "08".toList) 0).1 = false ∧
      (opensex_read_uint (loaded_row "08".toList) 0).1 = false ∧
      (opensex_read_time (loaded_row "08".toList) 0).1 = false) := by
  have hdig : ∀ l : List Char, (l.all (fun c => decide (48 ≤ c.toNat ∧ c.toNat ≤ 57)) = true) →
      ∀ c ∈ l, isdig c := by
    intro l hl c hc
    have := List.all_eq_true.1 hl c hc
    simpa [isdig] using this
  have hbase : ∀ (b : Nat) (l : List Char),
      (l.all (fun c => match digit_of c with
        | some d => decide (d < b)
        | none => false) = true) → digits_of_base b l := by
    intro b l hl c hc
    have := List.all_eq_true.1 hl c hc
    cases hd : digit_of c with
    | none => rw [hd] at this; exact absurd this (by simp)
    | some d =>
      rw [hd] at this
      exact ⟨d, rfl, by simpa using this⟩
  have a := (decimal_tokens (loaded_row "1999 x".toList) "1999".toList 0 0 0 (by decide)).1
    (by decide) (hdig _ (by decide)) (Or.inl (by decide))
  have b := (decimal_tokens (loaded_row "0755 x".toList) "0755".toList 0 0 0 (by decide)).2.1
    "755".toList rfl (hbase 8 _ (by decide))
  have c := (decimal_tokens (loaded_row "0x1F".toList) "0x1F".toList 0 0 0 (by decide)).2.2.2.1
    'x' "1F".toList rfl (Or.inl rfl) (by decide) (hbase 16 _ (by decide))
  have d := (decimal_tokens (loaded_row "08".toList) "08".toList 0 0 0 (by decide)).2.2.1
    "8".toList rfl (hdig _ (by decide))
    (fun h => by
      obtain ⟨d, h1, h2⟩ := h '8' (by decide)
      have e : digit_of '8' = some 8 := by decide
      rw [e] at h1
      have := Option.some.inj h1
      omega)
  exact ⟨⟨(a.1 (by decide)).1, (a.1 (by decide)).2, (a.2.1 (by decide)).2,
      (a.2.2 (by decide)).2⟩,
    ⟨(b.1 (by decide)).1, (b.1 (by decide)).2⟩,
    ⟨(c.2.1 (by decide)).1, (c.2.1 (by decide)).2⟩, d⟩

/-- C18 as stated fails: the token `010` is read as 8, not 10, by all three
readers, and the token `0x10` is accepted by all three and reads as 16. -/
theorem decimal_only_fails :
    (opensex_read_int (loaded_row "010".toList) 0).1 = true ∧
    (opensex_read_int (loaded_row "010".toList) 0).2.1 = 8 ∧
    (opensex_read_uint (loaded_row "010".toList) 0).2.1 = 8 ∧
    (opensex_read_time (loaded_row "010".toList) 0).2.1 = 8 ∧
    decimal_value "010".toList = 10 ∧
    (opensex_read_int (loaded_row "0x10".toList) 0).1 = true ∧
    (opensex_read_uint (loaded_row "0x10".toList) 0).1 = true ∧
    (opensex_read_time (loaded_row "0x10".toList) 0).1 = true ∧
    (opensex_read_int (loaded_row "0x10".toList) 0).2.1 = 16 := by
  decide

/-! ## Claims on the line reader -/

/-- C20. The stores into the line buffer stay inside the block: from a block of
`bufsize` bytes, `1 ≤ bufsize`, and on a line of fewer than `2 ^ 31` characters
(ended by a newline or by the end of the input), the loop of
`opensex_read_next_row` makes every character store, and the call the store of
the terminator, at an index below the size of the block; the call does not
end in a store out of bounds. It returns, or exits on a read error, and the
handle it returns again has a block of `bufsize` bytes with `1 ≤ bufsize`. The
block that `opensex_db_open_read` allocates has 512 bytes. -/
theorem line_buffer_in_bounds (fresh : Nat → Char) (hdl : database_handle)
    (body tail : List Char) (hnl : '\n' ∉ body) (htail : tail = [] ∨ ∃ rest, tail = '\n' :: rest)
    (hrd : hdl.priv.f.rd = body ++ tail)
    (hb1 : hdl.priv.buf.length = hdl.priv.bufsize) (hb2 : 1 ≤ hdl.priv.bufsize)
    (hb3 : hdl.priv.bufsize < 2 ^ 32) (hlen : body.length < 2 ^ 31) :
    (∃ buf2 bs2,
      read_next_row_loop fresh hdl.priv.f.rd 0 hdl.priv.buf hdl.priv.bufsize
        = .ok (tail.head?, tail.tail, body.length, buf2, bs2) ∧
      buf2.length = bs2 ∧ body.length < bs2) ∧
    opensex_read_next_row fresh hdl ≠ .error fault.out_of_bounds ∧
    ((opensex_read_next_row fresh hdl = .error fault.exit_failure ∧ tail = [] ∧
        hdl.priv.f.err = true) ∨
      ∃ b r, opensex_read_next_row fresh hdl = .ok (b, r) ∧
        r.priv.buf.length = r.priv.bufsize ∧ body.length < r.priv.bufsize ∧
        r.priv.bufsize < 2 ^ 32 ∧ r.priv.buf.take body.length = body ∧
        r.priv.buf[body.length]? = some NUL) ∧
    (∀ (cfg : config) (os : os_state) (filename : Option (List Char)) (err : Bool)
        (db : database_handle),
      (opensex_db_open_read cfg os filename true err).2 = some db →
        db.priv.bufsize = 512 ∧ db.priv.buf.length = 512) := by
  obtain ⟨buf2, bs2, h1, h2, h3, h4, h5⟩ :=
    read_next_row_loop_ok fresh body 0 hdl.priv.buf hdl.priv.bufsize tail hnl htail hb1
      (by omega) hb3 (by omega)
  simp only [Nat.zero_add, List.take_zero, List.nil_append] at h1 h3 h5
  rw [← hrd] at h1
  have hlt : body.length < buf2.length := by omega
  have hset1 : (buf2.set body.length NUL).take body.length = body := by
    rw [set_eq_append_of_take _ _ _ hlt, h5]
    exact List.take_left _ _
  have hset2 : (buf2.set body.length NUL)[body.length]? = some NUL := by
    rw [set_eq_append_of_take _ _ _ hlt, h5]
    exact List.getElem?_append_right (Nat.le_refl _) |>.trans (by simp)
  have hcases :
      (opensex_read_next_row fresh hdl = .error fault.exit_failure ∧ tail = [] ∧
          hdl.priv.f.err = true) ∨
        ∃ b r, opensex_read_next_row fresh hdl = .ok (b, r) ∧
          r.priv.buf.length = r.priv.bufsize ∧ body.length < r.priv.bufsize ∧
          r.priv.bufsize < 2 ^ 32 ∧ r.priv.buf.take body.length = body ∧
          r.priv.buf[body.length]? = some NUL := by
    unfold opensex_read_next_row
    simp only [h1, hlt, if_true]
    by_cases he : tail.head? = none ∧ hdl.priv.f.err = true
    · left
      rw [if_pos he]
      refine ⟨rfl, ?_, he.2⟩
      rcases htail with rfl | ⟨rest, rfl⟩
      · rfl
      · exact absurd he.1 (by simp)
    · right
      rw [if_neg he]
      by_cases hz : tail.head? = none ∧ body.length = 0
      · rw [if_pos hz]
        exact ⟨_, _, rfl, by simp only [List.length_set]; exact h2, h3, h4, hset1, hset2⟩
      · rw [if_neg hz]
        exact ⟨_, _, rfl, by simp only [List.length_set]; exact h2, h3, h4, hset1, hset2⟩
  refine ⟨⟨buf2, bs2, h1, h2, h3⟩, ?_, hcases, ?_⟩
  · rcases hcases with ⟨h, _, _⟩ | ⟨b, r, h, _⟩
    · rw [h]
      intro hc
      exact absurd hc (by simp)
    · rw [h]
      intro hc
      exact absurd hc (by simp)
  · intro cfg os filename err db hdb
    unfold opensex_db_open_read at hdb
    simp only at hdb
    split at hdb
    · exact absurd hdb (by simp)
    · simp only [if_true, Option.some.injEq] at hdb
      subst hdb
      exact ⟨rfl, List.length_replicate _ _⟩

/-- C20 on a line of 600 characters read through a freshly opened handle: the
block of 512 bytes is doubled on the way and no store leaves it. -/
theorem line_buffer_in_bounds_witness :
    opensex_read_next_row (fun _ => 'U')
        (read_handle "etc/services.db".toList (wide_row ++ ['\n']) false)
      ≠ .error fault.out_of_bounds :=
  have hnl : '\n' ∉ wide_row := by
    intro h
    exact absurd (List.eq_of_mem_replicate h) (by decide)
  have hlen : wide_row.length < 2 ^ 31 := by
    rw [wide_row, List.length_replicate]
    decide
  (line_buffer_in_bounds (fun _ => 'U')
    (read_handle "etc/services.db".toList (wide_row ++ ['\n']) false) wide_row ['\n'] hnl
    (Or.inr ⟨[], rfl⟩) rfl (List.length_replicate _ _) (by decide) (by decide) hlen).2.1

/-! ## Lemmas: the words of a row -/

theorem read_words_succ (k : Nat) (db : database_handle) :
    (read_words (k + 1) db).1
      = (opensex_read_word db).1 :: (read_words k (opensex_read_word db).2).1 := rfl

/-- Once the cursor is `NULL`, every further `opensex_read_word` returns `NULL`. -/
theorem read_words_none (m : Nat) :
    ∀ db : database_handle, db.priv.token = none →
      (read_words m db).1 = List.replicate m none := by
  induction m with
  | zero => intro db _; rfl
  | succ m ih =>
    intro db h
    have h1 : opensex_read_word db = (none, db) := by
      unfold opensex_read_word
      simp only [h]
    rw [read_words_succ, h1, List.replicate_succ]
    exact congrArg _ (ih db h)

theorem split_at_spaces_ne_nil (l : List Char) : split_at_spaces l ≠ [] := by
  cases l with
  | nil => simp [split_at_spaces]
  | cons c cs =>
    unfold split_at_spaces
    split
    · simp
    · split <;> simp

theorem split_at_spaces_no_space (l : List Char) : ∀ p ∈ split_at_spaces l, ' ' ∉ p := by
  induction l with
  | nil =>
    intro p hp
    simp only [split_at_spaces, List.mem_singleton] at hp
    rw [hp]
    exact List.not_mem_nil _
  | cons c cs ih =>
    intro p hp
    unfold split_at_spaces at hp
    by_cases hc : c = ' '
    · rw [if_pos hc] at hp
      rcases List.mem_cons.1 hp with h | h
      · rw [h]
        exact List.not_mem_nil _
      · exact ih p h
    · rw [if_neg hc] at hp
      cases hs : split_at_spaces cs with
      | nil => exact absurd hs (split_at_spaces_ne_nil cs)
      | cons q qs =>
        rw [hs] at hp ih
        simp only [List.mem_cons] at hp
        rcases hp with h | h
        · rw [h]
          intro hm
          rcases List.mem_cons.1 hm with h2 | h2
          · exact hc h2.symm
          · exact ih q (List.mem_cons_self _ _) h2
        · exact ih p (List.mem_cons_of_mem _ h)

theorem join_spaces_cons_cons (p q : List Char) (ps : List (List Char)) :
    join_spaces (p :: q :: ps) = p ++ ' ' :: join_spaces (q :: ps) := rfl

theorem join_spaces_cons_char (c : Char) (p : List Char) (ps : List (List Char)) :
    join_spaces ((c :: p) :: ps) = c :: join_spaces (p :: ps) := by
  cases ps with
  | nil => rfl
  | cons q qs => rfl

theorem join_split_at_spaces (l : List Char) : join_spaces (split_at_spaces l) = l := by
  induction l with
  | nil => rfl
  | cons c cs ih =>
    unfold split_at_spaces
    by_cases hc : c = ' '
    · rw [if_pos hc]
      cases hs : split_at_spaces cs with
      | nil => exact absurd hs (split_at_spaces_ne_nil cs)
      | cons q qs =>
        rw [hs] at ih
        rw [join_spaces_cons_cons, ih, hc]
        rfl
    · rw [if_neg hc]
      cases hs : split_at_spaces cs with
      | nil => exact absurd hs (split_at_spaces_ne_nil cs)
      | cons q qs =>
        rw [hs] at ih
        simp only
        rw [join_spaces_cons_char, ih]

/-- Successive calls of `opensex_read_word` with the cursor in front of pieces that
single spaces join: each call returns the next piece, and every call after the
last piece returns `NULL`. -/
theorem read_words_join (ps : List (List Char)) :
    ∀ (w : List Char) (db : database_handle) (pre post : List Char) (m : Nat),
      (∀ p ∈ w :: ps, ' ' ∉ p ∧ NUL ∉ p) →
      db.priv.buf = pre ++ join_spaces (w :: ps) ++ NUL :: post →
      db.priv.token = some pre.length →
      (read_words ((w :: ps).length + m) db).1
        = (w :: ps).map some ++ List.replicate m none := by
  induction ps with
  | nil =>
    intro w db pre post m hp hbuf htok
    obtain ⟨hw1, hw2⟩ := hp w (List.mem_cons_self _ _)
    obtain ⟨r1, _, r3⟩ := read_word_last db pre w post hbuf htok hw1 hw2
    have e : [w].length + m = m + 1 := by simp [Nat.add_comm]
    rw [e, read_words_succ, r1, read_words_none m _ r3]
    rfl
  | cons q qs ih =>
    intro w db pre post m hp hbuf htok
    obtain ⟨hw1, hw2⟩ := hp w (List.mem_cons_self _ _)
    have hbuf2 : db.priv.buf
        = pre ++ w ++ ' ' :: (join_spaces (q :: qs) ++ NUL :: post) := by
      rw [hbuf, join_spaces_cons_cons]
      simp
    obtain ⟨r1, r2, r3⟩ := read_word_token db pre w _ hbuf2 htok hw1 hw2
    have hbuf3 : (opensex_read_word db).2.priv.buf
        = (pre ++ w ++ [NUL]) ++ join_spaces (q :: qs) ++ NUL :: post := by
      rw [r2]
      simp
    have htok3 : (opensex_read_word db).2.priv.token = some (pre ++ w ++ [NUL]).length := by
      rw [r3]
      congr 1
      simp only [List.length_append, List.length_singleton]
    have hrec := ih q (opensex_read_word db).2 (pre ++ w ++ [NUL]) post m
      (fun p hmem => hp p (List.mem_cons_of_mem _ hmem)) hbuf3 htok3
    have e : (w :: q :: qs).length + m = ((q :: qs).length + m) + 1 := by
      simp only [List.length_cons]
      omega
    rw [e, read_words_succ, r1, hrec]
    rfl

/-- A block that holds a terminator reads as the string in front of the first
terminator, the terminator, and what lies behind it. -/
theorem cstr_split (mem : List Char) (h : NUL ∈ mem) :
    ∃ junk, mem = cstr mem 0 ++ NUL :: junk := by
  induction mem with
  | nil => exact absurd h (List.not_mem_nil _)
  | cons a l ih =>
    by_cases ha : a = NUL
    · refine ⟨l, ?_⟩
      simp [cstr, ha, List.takeWhile]
    · rcases List.mem_cons.1 h with h1 | h1
      · exact absurd h1.symm ha
      · obtain ⟨junk, hj⟩ := ih h1
        refine ⟨junk, ?_⟩
        have hb : (a != NUL) = true := by simpa using ha
        have e : cstr (a :: l) 0 = a :: cstr l 0 := by
          simp [cstr, List.takeWhile, hb]
        rw [e, List.cons_append, ← hj]

/-- What a returning `opensex_read_next_row` leaves in the handle: a block with a
terminator in it and the cursor at its start. -/
theorem read_next_row_loaded (fresh : Nat → Char) (hdl r : database_handle) (b : Bool)
    (h : opensex_read_next_row fresh hdl = .ok (b, r)) :
    r.priv.token = some 0 ∧ NUL ∈ r.priv.buf := by
  unfold opensex_read_next_row at h
  cases hr : read_next_row_loop fresh hdl.priv.f.rd 0 hdl.priv.buf hdl.priv.bufsize with
  | error e =>
    simp only [hr] at h
    exact absurd h (by simp)
  | ok v =>
    obtain ⟨c, rd, n, buf, bufsize⟩ := v
    simp only [hr] at h
    by_cases hn : n < buf.length
    · have hmem : NUL ∈ buf.set n NUL := List.mem_iff_getElem.2
        ⟨n, by simpa using hn, by simp⟩
      rw [if_pos hn] at h
      split at h
      · exact absurd h (by simp)
      · split at h
        · simp only [Except.ok.injEq, Prod.mk.injEq] at h
          rw [← h.2]
          exact ⟨rfl, hmem⟩
        · simp only [Except.ok.injEq, Prod.mk.injEq] at h
          rw [← h.2]
          exact ⟨rfl, hmem⟩
    · rw [if_neg hn] at h
      exact absurd h (by simp)

/-! ## Claims on the words of a row -/

/-- C15. Tokenisation from left to right: on the line `L` that a returning
`opensex_read_next_row` has loaded (the string at the start of the block; it is
the line of the file when that has no terminator byte in it and fewer than
`2 ^ 31` characters), successive calls of `opensex_read_word` return the pieces of
`L` split at every single space, in order, and every call after the last piece
returns `NULL`. No piece holds a space, and the pieces joined by single spaces
are `L` again, so that no character of `L` is returned twice or left out. -/
theorem left_to_right_tokens (fresh : Nat → Char) (hdl r : database_handle) (m : Nat)
    (h : opensex_read_next_row fresh hdl = .ok (true, r)) :
    (read_words ((split_at_spaces (cstr r.priv.buf 0)).length + m) r).1
      = (split_at_spaces (cstr r.priv.buf 0)).map some ++ List.replicate m none ∧
    (∀ p ∈ split_at_spaces (cstr r.priv.buf 0), ' ' ∉ p) ∧
    join_spaces (split_at_spaces (cstr r.priv.buf 0)) = cstr r.priv.buf 0 ∧
    (∀ body rest : List Char, hdl.priv.f.rd = body ++ '\n' :: rest → '\n' ∉ body →
      NUL ∉ body → body.length < 2 ^ 31 → hdl.priv.buf.length = hdl.priv.bufsize →
      0 < hdl.priv.bufsize → hdl.priv.bufsize < 2 ^ 32 → cstr r.priv.buf 0 = body) := by
  obtain ⟨htok, hnul⟩ := read_next_row_loaded fresh hdl r true h
  obtain ⟨junk, hj⟩ := cstr_split r.priv.buf hnul
  have hjoin := join_split_at_spaces (cstr r.priv.buf 0)
  have hsp := split_at_spaces_no_space (cstr r.priv.buf 0)
  refine ⟨?_, hsp, hjoin, ?_⟩
  · cases hs : split_at_spaces (cstr r.priv.buf 0) with
    | nil => exact absurd hs (split_at_spaces_ne_nil _)
    | cons w ps =>
      rw [hs] at hjoin hsp
      have hfree : ∀ p ∈ w :: ps, ' ' ∉ p ∧ NUL ∉ p := by
        intro p hp
        refine ⟨hsp p hp, ?_⟩
        intro hmem
        have hsub : ∀ (qs : List (List Char)), p ∈ qs → NUL ∈ join_spaces qs := by
          intro qs
          induction qs with
          | nil => intro hq; exact absurd hq (List.not_mem_nil _)
          | cons a as iha =>
            intro hq
            cases as with
            | nil =>
              rcases List.mem_cons.1 hq with h1 | h1
              · rw [← h1]; exact hmem
              · exact absurd h1 (List.not_mem_nil _)
            | cons b bs =>
              rw [join_spaces_cons_cons]
              rcases List.mem_cons.1 hq with h1 | h1
              · rw [← h1]
                exact List.mem_append_left _ hmem
              · exact List.mem_append_right _ (List.mem_cons_of_mem _ (iha h1))
        have := hsub (w :: ps) hp
        rw [hjoin] at this
        exact cstr_no_NUL r.priv.buf 0 this
      have hbuf : r.priv.buf = [] ++ join_spaces (w :: ps) ++ NUL :: junk := by
        rw [hjoin]
        exact hj
      exact read_words_join ps w r [] junk m hfree hbuf htok
  · intro body rest hrd hnl hn0 hlen hb1 hb2 hb3
    obtain ⟨junk2, bs, hok, _, _, _⟩ :=
      read_next_row_newline fresh hdl body rest hnl hrd hb1 hb2 hb3 hlen
    rw [h] at hok
    simp only [Except.ok.injEq, Prod.mk.injEq, true_and] at hok
    rw [hok]
    exact cstr_at [] body junk2 hn0

/-- C15 on the line `a  b ` (two spaces in the middle, one at the end) of a freshly
opened file: the pieces are `a`, the empty piece, `b` and the empty piece, and
the two calls after them return `NULL`. -/
theorem left_to_right_tokens_witness :
    ∃ r, opensex_read_next_row (fun _ => 'U')
          (read_handle "etc/services.db".toList "a  b \nMU x\n".toList false)
        = .ok (true, r) ∧
      cstr r.priv.buf 0 = "a  b ".toList ∧
      (read_words 6 r).1 = [some "a".toList, some [], some "b".toList, some [], none, none] := by
  obtain ⟨junk, bs, hok, _, _, _⟩ :=
    read_next_row_newline (fun _ => 'U')
      (read_handle "etc/services.db".toList "a  b \nMU x\n".toList false)
      "a  b ".toList "MU x\n".toList (by decide) rfl (List.length_replicate _ _) (by decide)
      (by decide) (by decide)
  have h := left_to_right_tokens (fun _ => 'U')
    (read_handle "etc/services.db".toList "a  b \nMU x\n".toList false) _ 2 hok
  have hc := h.2.2.2 "a  b ".toList "MU x\n".toList rfl (by decide) (by decide) (by decide)
    (List.length_replicate _ _) (by decide) (by decide)
  refine ⟨_, hok, hc, ?_⟩
  have h1 := h.1
  rw [hc] at h1
  exact h1

theorem write_calls_append (a b : List write_call) (db : database_handle) :
    write_calls (a ++ b) db = write_calls b (write_calls a db) := by
  unfold write_calls
  exact List.foldl_append _ _ _ _

theorem join_spaces_snoc_empty (q : List Char) (qs : List (List Char)) :
    join_spaces (q :: (qs ++ [[]])) = q ++ ' ' :: join_spaces (qs ++ [[]]) := by
  cases qs with
  | nil => rfl
  | cons b bs => rfl

/-- A character other than the space that is in no piece is not in the joined
line. -/
theorem join_spaces_not_mem (c : Char) (hc : c ≠ ' ') (ps : List (List Char))
    (h : ∀ p ∈ ps, c ∉ p) : c ∉ join_spaces ps := by
  induction ps with
  | nil => exact List.not_mem_nil _
  | cons a as ih =>
    cases as with
    | nil => exact h a (List.mem_cons_self _ _)
    | cons b bs =>
      rw [join_spaces_cons_cons]
      intro hm
      rcases List.mem_append.1 hm with h1 | h1
      · exact h a (List.mem_cons_self _ _) h1
      · rcases List.mem_cons.1 h1 with h2 | h2
        · exact hc h2
        · exact ih (fun p hp => h p (List.mem_cons_of_mem _ hp)) h2

/-- The bytes that a run of `write_word` calls adds to the stream: each word, or
`*` for an absent one, with a space behind it. -/
theorem written_words (ws : List (Option (List Char))) :
    ∀ db : database_handle,
      (write_calls (ws.map write_call.write_word) db).priv.f.wr
        = db.priv.f.wr ++ join_spaces (ws.map (fun w => w.getD ['*']) ++ [[]]) := by
  induction ws with
  | nil =>
    intro db
    simp [write_calls, join_spaces]
  | cons w ws ih =>
    intro db
    have e : write_calls ((w :: ws).map write_call.write_word) db
        = write_calls (ws.map write_call.write_word) ((write_call.write_word w).apply db) := rfl
    rw [e, ih, List.map_cons, List.cons_append, join_spaces_snoc_empty]
    simp [write_call.apply, opensex_write_word, opensex_write_cell, fprintf]

/-- The bytes of a row of words: the type and the words, each with a space behind
it, and the newline. -/
theorem written_word_row (wdb : database_handle) (t : List Char)
    (ws : List (Option (List Char))) :
    (write_calls (write_call.start_row (some t) :: (ws.map write_call.write_word
        ++ [write_call.commit_row])) wdb).priv.f.wr
      = wdb.priv.f.wr
        ++ (join_spaces (t :: (ws.map (fun w => w.getD ['*']) ++ [[]])) ++ ['\n']) := by
  have e : write_calls (write_call.start_row (some t) :: (ws.map write_call.write_word
        ++ [write_call.commit_row])) wdb
      = write_calls [write_call.commit_row] (write_calls (ws.map write_call.write_word)
          ((write_call.start_row (some t)).apply wdb)) := by
    rw [← write_calls_append]
    rfl
  rw [e, join_spaces_snoc_empty]
  have e2 : ∀ db, (write_calls [write_call.commit_row] db).priv.f.wr = db.priv.f.wr ++ ['\n'] :=
    fun _ => rfl
  rw [e2, written_words]
  simp [write_call.apply, opensex_start_row, fprintf]

/-- C13, as amended. The placeholder keeps the columns in place: a row of fewer
than `2 ^ 31` bytes written as `start_row t`, `write_word` for each of the `k`
values of `ws`, `commit_row`, with a type `t` and words that hold no space and no
newline, is loaded by `opensex_read_next_row`, and the first `opensex_read_word`
returns `t`, the next `k` return the words, `*` standing for an absent one; the
call after them returns the empty string behind the last space, and all later
calls return `NULL`. -/
theorem placeholder_columns (fresh : Nat → Char) (wdb rdb : database_handle) (t : List Char)
    (ws : List (Option (List Char))) (rest : List Char) (m : Nat)
    (ht : ' ' ∉ t ∧ '\n' ∉ t ∧ NUL ∉ t)
    (hws : ∀ s, some s ∈ ws → ' ' ∉ s ∧ '\n' ∉ s ∧ NUL ∉ s)
    (hlen : (write_calls (write_call.start_row (some t) :: (ws.map write_call.write_word
        ++ [write_call.commit_row])) wdb).priv.f.wr.length ≤ wdb.priv.f.wr.length + 2 ^ 31)
    (hb1 : rdb.priv.buf.length = rdb.priv.bufsize) (hb2 : 0 < rdb.priv.bufsize)
    (hb3 : rdb.priv.bufsize < 2 ^ 32)
    (hrd : rdb.priv.f.rd
      = ((write_calls (write_call.start_row (some t) :: (ws.map write_call.write_word
            ++ [write_call.commit_row])) wdb).priv.f.wr).drop wdb.priv.f.wr.length ++ rest) :
    ∃ r, opensex_read_next_row fresh rdb = .ok (true, r) ∧
      (read_words (ws.length + 2 + m) r).1
        = some t :: (ws.map (fun w => some (w.getD ['*'])) ++ some [] :: List.replicate m none) := by
  have hpieces : ∀ p ∈ t :: (ws.map (fun w => w.getD ['*']) ++ [[]]),
      ' ' ∉ p ∧ '\n' ∉ p ∧ NUL ∉ p := by
    intro p hp
    rcases List.mem_cons.1 hp with h | h
    · rw [h]; exact ht
    · rcases List.mem_append.1 h with h | h
      · obtain ⟨w, hw, rfl⟩ := List.mem_map.1 h
        cases w with
        | none => exact ⟨by decide, by decide, by decide⟩
        | some s => exact hws s hw
      · rw [List.mem_singleton.1 h]
        exact ⟨List.not_mem_nil _, List.not_mem_nil _, List.not_mem_nil _⟩
  rw [written_word_row] at hlen hrd
  rw [List.drop_left] at hrd
  generalize hbody : join_spaces (t :: (ws.map (fun w => w.getD ['*']) ++ [[]])) = body
    at hlen hrd
  have hrd2 : rdb.priv.f.rd = body ++ '\n' :: rest := by
    rw [hrd]
    simp
  have hnl : '\n' ∉ body := by
    rw [← hbody]
    exact join_spaces_not_mem '\n' (by decide) _ (fun p hp => (hpieces p hp).2.1)
  have hbl : body.length < 2 ^ 31 := by
    simp only [List.length_append, List.length_singleton] at hlen
    omega
  obtain ⟨junk, bs, hok, _, _, _⟩ :=
    read_next_row_newline fresh rdb body rest hnl hrd2 hb1 hb2 hb3 hbl
  refine ⟨_, hok, ?_⟩
  have hres := read_words_join (ws.map (fun w => w.getD ['*']) ++ [[]]) t
    { rdb with
      priv := { rdb.priv with
        buf := body ++ NUL :: junk, bufsize := bs, token := some 0
        f := { rdb.priv.f with rd := rest } }
      line := rdb.line + 1, token := 0 } [] junk m
    (fun p hp => ⟨(hpieces p hp).1, (hpieces p hp).2.2⟩)
    (by rw [hbody]; rfl) rfl
  have e : (t :: (ws.map (fun w => w.getD ['*']) ++ [[]])).length + m = ws.length + 2 + m := by
    simp
  rw [e] at hres
  rw [hres]
  simp

/-- The amended C13 on the row of type `MDU` with the words `alice`, an absent
value and `x`: the absent value reads back as `*` in the third column. -/
theorem placeholder_columns_witness :
    ∃ r, opensex_read_next_row (fun _ => 'U')
          (read_handle "etc/services.db".toList "MDU alice * x \nMU y\n".toList false)
        = .ok (true, r) ∧
      (read_words 6 r).1
        = [some "MDU".toList, some "alice".toList, some "*".toList, some "x".toList, some [],
            none] :=
  placeholder_columns (fun _ => 'U')
    (write_handle "etc/services.db".toList "etc/services.db.new".toList)
    (read_handle "etc/services.db".toList "MDU alice * x \nMU y\n".toList false)
    "MDU".toList [some "alice".toList, none, some "x".toList] "MU y\n".toList 1
    (by decide)
    (by
      intro s hs
      simp only [List.mem_cons, Option.some.injEq, List.mem_singleton, List.not_mem_nil,
        or_false, false_or] at hs
      rcases hs with rfl | h | rfl
      · decide
      · exact absurd h (by simp)
      · decide)
    (by decide) (List.length_replicate _ _) (by decide) (by decide) rfl

/-- C13 as stated fails for a type with a space in it: the row written as
`start_row` of `A B`, `write_word` of `x`, `commit_row` is the line `A B x` with a
space behind it, and the first two calls of `opensex_read_word` return `A` and
`B`, not `A B` and `x`. -/
theorem placeholder_columns_fails :
    ∃ r, opensex_read_next_row (fun _ => 'U')
          (read_handle "etc/services.db".toList
            (write_calls [write_call.start_row (some "A B".toList),
                write_call.write_word (some "x".toList), write_call.commit_row]
              (write_handle "etc/services.db".toList "etc/services.db.new".toList)).priv.f.wr
            false)
        = .ok (true, r) ∧
      (read_words 4 r).1 = [some "A".toList, some "B".toList, some "x".toList, some []] ∧
      (read_words 4 r).1.take 2 ≠ [some "A B".toList, some "x".toList] := by
  obtain ⟨junk, bs, hok, _, _, _⟩ :=
    read_next_row_newline (fun _ => 'U')
      (read_handle "etc/services.db".toList
        (write_calls [write_call.start_row (some "A B".toList),
            write_call.write_word (some "x".toList), write_call.commit_row]
          (write_handle "etc/services.db".toList "etc/services.db.new".toList)).priv.f.wr
        false)
      "A B x ".toList [] (by decide) rfl (List.length_replicate _ _) (by decide)
      (by decide) (by decide)
  have key : ∀ db : database_handle, db.priv.buf = "A B x ".toList ++ NUL :: junk →
      db.priv.token = some 0 →
      (read_words 4 db).1 = [some "A".toList, some "B".toList, some "x".toList, some []] :=
    fun db hb ht =>
      read_words_join ["B".toList, "x".toList, []] "A".toList db [] junk 0 (by decide) hb ht
  refine ⟨_, hok, ?_⟩
  rw [key _ rfl rfl]
  exact ⟨rfl, by decide⟩

/-! ## Claims on the rows of a file -/

/-- A last line of fewer than `2 ^ 31` characters that no newline ends is loaded as
a row as well, when the stream has no error. -/
theorem read_next_row_last (fresh : Nat → Char) (hdl : database_handle)
    (body : List Char) (hne : body ≠ []) (hnl : '\n' ∉ body) (hrd : hdl.priv.f.rd = body)
    (herr : hdl.priv.f.err = false)
    (hb1 : hdl.priv.buf.length = hdl.priv.bufsize) (hb2 : 0 < hdl.priv.bufsize)
    (hb3 : hdl.priv.bufsize < 2 ^ 32) (hlen : body.length < 2 ^ 31) :
    ∃ junk bs,
      opensex_read_next_row fresh hdl
        = .ok (true,
            { hdl with
              priv := { hdl.priv with
                buf := body ++ NUL :: junk, bufsize := bs, token := some 0
                f := { hdl.priv.f with rd := [] } }
              line := hdl.line + 1, token := 0 }) ∧
      (body ++ NUL :: junk).length = bs ∧ 0 < bs ∧ bs < 2 ^ 32 := by
  obtain ⟨buf2, bs2, h1, h2, h3, h4, h5⟩ :=
    read_next_row_loop_ok fresh body 0 hdl.priv.buf hdl.priv.bufsize [] hnl
      (Or.inl rfl) hb1 hb2 hb3 (by omega)
  simp only [Nat.zero_add, List.take_zero, List.nil_append, List.append_nil, List.head?_nil,
    List.tail_nil] at h1 h3 h5
  have hlt : body.length < buf2.length := by omega
  have hset : buf2.set body.length NUL = body ++ NUL :: buf2.drop (body.length + 1) := by
    rw [set_eq_append_of_take _ _ _ hlt, h5]
  have hpos : body.length ≠ 0 := fun h => hne (List.length_eq_zero.1 h)
  refine ⟨buf2.drop (body.length + 1), bs2, ?_, ?_, by omega, h4⟩
  · unfold opensex_read_next_row
    simp only [hrd, h1]
    simp [hlt, hset, herr, hpos]
  · rw [← hset, List.length_set, h2]

/-- At the end of the input, with nothing read and no error on the stream,
`opensex_read_next_row` returns false and leaves the line number as it was. -/
theorem read_next_row_eof (fresh : Nat → Char) (hdl : database_handle)
    (hrd : hdl.priv.f.rd = []) (herr : hdl.priv.f.err = false)
    (hb2 : 0 < hdl.priv.buf.length) :
    opensex_read_next_row fresh hdl
      = .ok (false,
          { hdl with
            priv := { hdl.priv with
              buf := hdl.priv.buf.set 0 NUL, token := some 0
              f := { hdl.priv.f with rd := [] } } }) := by
  unfold opensex_read_next_row
  simp [hrd, read_next_row_loop, hb2, herr]

/-- C14 at a line of `2 ^ 31` letters. For the file that holds this line and its
newline, read through a freshly opened handle (a block of 512 bytes), the first
`opensex_read_next_row` does not return true with the line in the row buffer: the
doubling of `bufsize` wraps from `2 ^ 31` to 0 modulo `2 ^ 32` and the next store
falls outside the block. -/
theorem row_splitting_long_line :
    '\n' ∉ long_text ∧
    opensex_read_next_row (fun _ => 'U')
        (read_handle "etc/services.db".toList (long_text ++ ['\n']) false)
      = .error fault.out_of_bounds := by
  have h1 : '\n' ∉ long_text := fun h => absurd (long_text_chars _ h) (by decide)
  refine ⟨h1, ?_⟩
  apply read_next_row_of_store_fails
  have hbuf : (List.replicate 512 NUL).length = 512 := List.length_replicate _ _
  have hpow : 512 = 2 ^ 9 := by decide
  have h9 : 9 ≤ 31 := by decide
  have h0 : 0 < 512 := by decide
  simp only [read_handle]
  refine read_next_row_loop_overflow (fun _ => 'U') long_text 0 (List.replicate 512 NUL) 512 9
    ['\n'] h1 hbuf hpow h9 h0 ?_
  rw [long_text_length]
  omega

/-! ## Lemmas: a close with a failed rename -/

/-- A successful `opensex_db_open_write`, when the paths fit into `BUFSIZE`, leaves
the live file and the count of saved notifications as they were, and holds the
lock where `HAVE_FLOCK` is defined. -/
theorem open_write_keeps (cfg : config) (os : os_state) (filename : Option (List Char))
    (bpath : List Char)
    (hb : cfg.datadir ++ ['/'] ++ filename.getD "services.db".toList = bpath)
    (hfit : bpath.length + 5 < cfg.BUFSIZE) :
    (opensex_db_open_write cfg os filename true true).1.fs bpath = os.fs bpath ∧
    (opensex_db_open_write cfg os filename true true).1.db_saved = os.db_saved ∧
    (cfg.HAVE_FLOCK = true →
      (opensex_db_open_write cfg os filename true true).1.lock_held = true) := by
  obtain ⟨e1, e2, e3, e4, n1, n2⟩ := paths_fit cfg bpath hfit
  have n3 : bpath ≠ bpath ++ ".lock".toList := by
    intro h
    have hl := congrArg List.length h
    have h5 : (".lock".toList).length = 5 := by decide
    rw [List.length_append, h5] at hl
    omega
  simp only [opensex_db_open_write, hb, e1, e2, e3, e4, and_self, if_true]
  generalize ".new".toList = dn at n1 n2 ⊢
  generalize ".lock".toList = dl at n2 n3 ⊢
  cases cfg.HAVE_FLOCK <;> simp [open_creat, n1.symm, n3]

/-- A `opensex_db_close` of a write handle whose rename fails, when the paths fit
into `BUFSIZE`: the live file holds what it held, the `.new` file holds the bytes
written followed by what it held behind that length, the hook has run once
and the lock is released. -/
theorem close_failed_contents (cfg : config) (os : os_state) (db : database_handle)
    (bpath stale : List Char) (h1 : db.txn = .DB_WRITE) (h2 : db.priv.f.writing = true)
    (h3 : db.priv.f.path = bpath ++ ".new".toList) (h4 : db.file = bpath)
    (hfit : bpath.length + 5 < cfg.BUFSIZE)
    (hs : os.fs (bpath ++ ".new".toList) = some stale) :
    (opensex_db_close cfg os db false).fs bpath = os.fs bpath ∧
    (opensex_db_close cfg os db false).fs (bpath ++ ".new".toList)
      = some (db.priv.f.wr ++ stale.drop db.priv.f.wr.length) ∧
    (opensex_db_close cfg os db false).db_saved = os.db_saved + 1 ∧
    (cfg.HAVE_FLOCK = true → (opensex_db_close cfg os db false).lock_held = false) := by
  obtain ⟨e1, e2, e3, e4, n1, n2⟩ := paths_fit cfg bpath hfit
  unfold opensex_db_close
  rw [h4, e2, e3]
  generalize ".new".toList = dn at n1 h3 hs ⊢
  cases cfg.HAVE_FLOCK <;>
    simp [h1, h2, h3, hs, fclose, srename, n1, n1.symm]

/-- What a write session whose rename fails leaves behind, when the paths fit into
`BUFSIZE`: the live file as it was before the session, the `.new` file with the
bytes written, one saved notification, and no lock held. -/
theorem failed_commit_contents (cfg : config) (os : os_state) (filename : Option (List Char))
    (cs : List write_call)
    (hfit : (cfg.datadir ++ ['/'] ++ filename.getD "services.db".toList).length + 5
      < cfg.BUFSIZE) :
    ∃ wr, (write_session cfg os filename cs true true false).2 = some wr ∧
      (write_session cfg os filename cs true true false).1.fs
          (cfg.datadir ++ ['/'] ++ filename.getD "services.db".toList)
        = os.fs (cfg.datadir ++ ['/'] ++ filename.getD "services.db".toList) ∧
      (write_session cfg os filename cs true true false).1.fs
          (cfg.datadir ++ ['/'] ++ filename.getD "services.db".toList ++ ".new".toList)
        = some (wr ++ ((os.fs (cfg.datadir ++ ['/'] ++ filename.getD "services.db".toList
                  ++ ".new".toList)).getD []).drop wr.length) ∧
      (write_session cfg os filename cs true true false).1.db_saved = os.db_saved + 1 ∧
      (cfg.HAVE_FLOCK = true →
        (write_session cfg os filename cs true true false).1.lock_held = false) := by
  obtain ⟨os1, db, ho, o1, o2, o3, o4, o5⟩ := open_write_ok cfg os filename _ rfl hfit
  obtain ⟨k1, k2, _⟩ := open_write_keeps cfg os filename _ rfl hfit
  rw [ho] at k1 k2
  simp only at k1 k2
  obtain ⟨f1, f2, f3, f4⟩ := write_calls_frame cs db
  obtain ⟨c1, c2, c3, c4⟩ := close_failed_contents cfg os1 (write_calls cs db) _ _
    (f3.trans o1) (f2.trans o2) (f1.trans o3) (f4.trans o4) hfit o5
  refine ⟨(write_calls cs db).priv.f.wr, ?_, ?_, ?_, ?_, ?_⟩
  · simp only [write_session, ho]
  · simp only [write_session, ho]
    exact c1.trans k1
  · simp only [write_session, ho]
    exact c2
  · simp only [write_session, ho]
    exact c3.trans (congrArg (fun n => n + 1) k2)
  · intro hf
    simp only [write_session, ho]
    exact c4 hf

/-! ## Claims on closing a transaction -/

/-- C21. The saved notification is unconditional for writes. On a handle opened
for writing `opensex_db_close` calls `hook_call_db_saved` exactly once and, where
`HAVE_FLOCK` is defined, closes the lock descriptor, whatever the outcome of the
rename. When the rename fails the error is logged and no file is touched by
it: the filesystem is as `fclose` left it, so every path other than the one the
stream wrote to, the live path among them when the stream wrote elsewhere,
holds what it held before the call, and the file the stream wrote to is in
place with the bytes written. On a handle opened for reading the call is the
`fclose` alone: no rename, no hook, no log entry, and the lock is not touched. -/
theorem saved_hook_unconditional (cfg : config) (os : os_state) (db : database_handle)
    (rename_ok : Bool) :
    (db.txn = .DB_WRITE →
      (opensex_db_close cfg os db rename_ok).db_saved = os.db_saved + 1 ∧
      (cfg.HAVE_FLOCK = true → (opensex_db_close cfg os db rename_ok).lock_held = false) ∧
      (cfg.HAVE_FLOCK = false →
        (opensex_db_close cfg os db rename_ok).lock_held = os.lock_held) ∧
      ((srename (fclose os db.priv.f)
            (mowgli_strlcat (mowgli_strlcpy db.file cfg.BUFSIZE) ".new".toList cfg.BUFSIZE)
            (mowgli_strlcpy db.file cfg.BUFSIZE) rename_ok).2 = false →
        (opensex_db_close cfg os db rename_ok).fs = (fclose os db.priv.f).fs ∧
        (∀ q, q ≠ db.priv.f.path → (opensex_db_close cfg os db rename_ok).fs q = os.fs q) ∧
        (db.priv.f.path ≠ mowgli_strlcpy db.file cfg.BUFSIZE →
          (opensex_db_close cfg os db rename_ok).fs (mowgli_strlcpy db.file cfg.BUFSIZE)
            = os.fs (mowgli_strlcpy db.file cfg.BUFSIZE)) ∧
        (db.priv.f.writing = true →
          (opensex_db_close cfg os db rename_ok).fs db.priv.f.path
            = some (db.priv.f.wr ++ ((os.fs db.priv.f.path).getD []).drop db.priv.f.wr.length)) ∧
        (opensex_db_close cfg os db rename_ok).slog_errors = os.slog_errors + 1 ∧
        (opensex_db_close cfg os db rename_ok).wallops = os.wallops + 1)) ∧
    (db.txn = .DB_READ →
      (opensex_db_close cfg os db rename_ok).fs = (fclose os db.priv.f).fs ∧
      (db.priv.f.writing = false → (opensex_db_close cfg os db rename_ok).fs = os.fs) ∧
      (opensex_db_close cfg os db rename_ok).db_saved = os.db_saved ∧
      (opensex_db_close cfg os db rename_ok).lock_held = os.lock_held ∧
      (opensex_db_close cfg os db rename_ok).slog_errors = os.slog_errors ∧
      (opensex_db_close cfg os db rename_ok).wallops = os.wallops) := by
  have hfc : (fclose os db.priv.f).db_saved = os.db_saved ∧
      (fclose os db.priv.f).lock_held = os.lock_held ∧
      (fclose os db.priv.f).slog_errors = os.slog_errors ∧
      (fclose os db.priv.f).wallops = os.wallops ∧
      (∀ q, q ≠ db.priv.f.path → (fclose os db.priv.f).fs q = os.fs q) ∧
      (db.priv.f.writing = true → (fclose os db.priv.f).fs db.priv.f.path
        = some (db.priv.f.wr ++ ((os.fs db.priv.f.path).getD []).drop db.priv.f.wr.length)) ∧
      (db.priv.f.writing = false → (fclose os db.priv.f).fs = os.fs) := by
    unfold fclose
    cases hw : db.priv.f.writing with
    | false =>
      simp
    | true =>
      rw [if_pos rfl]
      refine ⟨rfl, rfl, rfl, rfl, ?_, ?_, ?_⟩
      · intro q hq
        simp [hq]
      · intro _
        simp
      · intro h
        exact absurd h (by simp)
  obtain ⟨c1, c2, c3, c4, c5, c6, c7⟩ := hfc
  have hsr : ∀ (o : os_state) (old new : List Char),
      (srename o old new rename_ok).1.db_saved = o.db_saved ∧
      (srename o old new rename_ok).1.lock_held = o.lock_held ∧
      (srename o old new rename_ok).1.slog_errors = o.slog_errors ∧
      (srename o old new rename_ok).1.wallops = o.wallops ∧
      ((srename o old new rename_ok).2 = false → (srename o old new rename_ok).1 = o) := by
    intro o old new
    unfold srename
    cases rename_ok with
    | false => simp
    | true =>
      cases o.fs old with
      | none => simp
      | some bytes => simp
  constructor
  · intro ht
    obtain ⟨s1, s2, s3, s4, s5⟩ := hsr (fclose os db.priv.f)
      (mowgli_strlcat (mowgli_strlcpy db.file cfg.BUFSIZE) ".new".toList cfg.BUFSIZE)
      (mowgli_strlcpy db.file cfg.BUFSIZE)
    unfold opensex_db_close
    simp only [ht]
    generalize hr : srename (fclose os db.priv.f)
      (mowgli_strlcat (mowgli_strlcpy db.file cfg.BUFSIZE) ".new".toList cfg.BUFSIZE)
      (mowgli_strlcpy db.file cfg.BUFSIZE) rename_ok = r at s1 s2 s3 s4 s5
    obtain ⟨r1, r2⟩ := r
    simp only at s1 s2 s3 s4 s5
    refine ⟨?_, ?_, ?_, ?_⟩
    · cases r2 <;> cases cfg.HAVE_FLOCK <;> simp [s1, c1]
    · intro hf
      cases r2 <;> simp [hf]
    · intro hf
      cases r2 <;> simp [hf, s2, c2]
    · intro hfail
      subst hfail
      have e : r1 = fclose os db.priv.f := s5 rfl
      subst e
      refine ⟨?_, ?_, ?_, ?_, ?_, ?_⟩
      · cases cfg.HAVE_FLOCK <;> rfl
      · cases cfg.HAVE_FLOCK <;> exact c5
      · cases cfg.HAVE_FLOCK <;> exact fun h => c5 _ (Ne.symm h)
      · cases cfg.HAVE_FLOCK <;> exact c6
      · cases cfg.HAVE_FLOCK <;> exact congrArg (fun n => n + 1) c3
      · cases cfg.HAVE_FLOCK <;> exact congrArg (fun n => n + 1) c4
  · intro ht
    unfold opensex_db_close
    rw [ht]
    exact ⟨rfl, c7, c1, c2, c3, c4⟩

/-- C21 on the data directory `etc` after a crash, with the lock held. A handle
that has written the version row and the row `MU carol` is closed and the
rename fails: the hook has run once, the lock is released, the live file holds
what it held, and `services.db.new` is in place with the bytes written in front
of the stale tail. -/
theorem saved_hook_unconditional_witness :
    (opensex_db_close ⟨"etc".toList, 1024, true⟩ ⟨crashed_fs, true, 0, 0, 0⟩
        (write_calls [write_call.start_row (some "GRVER".toList), write_call.write_int 1,
            write_call.commit_row, write_call.start_row (some "MU".toList),
            write_call.write_str (some "carol".toList), write_call.commit_row]
          (write_handle "etc/services.db".toList "etc/services.db.new".toList)) false).db_saved
      = 1 ∧
    (opensex_db_close ⟨"etc".toList, 1024, true⟩ ⟨crashed_fs, true, 0, 0, 0⟩
        (write_calls [write_call.start_row (some "GRVER".toList), write_call.write_int 1,
            write_call.commit_row, write_call.start_row (some "MU".toList),
            write_call.write_str (some "carol".toList), write_call.commit_row]
          (write_handle "etc/services.db".toList "etc/services.db.new".toList)) false).lock_held
      = false ∧
    (opensex_db_close ⟨"etc".toList, 1024, true⟩ ⟨crashed_fs, true, 0, 0, 0⟩
        (write_calls [write_call.start_row (some "GRVER".toList), write_call.write_int 1,
            write_call.commit_row, write_call.start_row (some "MU".toList),
            write_call.write_str (some "carol".toList), write_call.commit_row]
          (write_handle "etc/services.db".toList "etc/services.db.new".toList)) false).fs
        "etc/services.db".toList
      = some "GRVER 1 \nMU old\n".toList ∧
    (opensex_db_close ⟨"etc".toList, 1024, true⟩ ⟨crashed_fs, true, 0, 0, 0⟩
        (write_calls [write_call.start_row (some "GRVER".toList), write_call.write_int 1,
            write_call.commit_row, write_call.start_row (some "MU".toList),
            write_call.write_str (some "carol".toList), write_call.commit_row]
          (write_handle "etc/services.db".toList "etc/services.db.new".toList)) false).fs
        "etc/services.db.new".toList
      = some "GRVER 1 \nMU carol\nMU bob\n".toList :=
  have h := (saved_hook_unconditional ⟨"etc".toList, 1024, true⟩ ⟨crashed_fs, true, 0, 0, 0⟩
    (write_calls [write_call.start_row (some "GRVER".toList), write_call.write_int 1,
        write_call.commit_row, write_call.start_row (some "MU".toList),
        write_call.write_str (some "carol".toList), write_call.commit_row]
      (write_handle "etc/services.db".toList "etc/services.db.new".toList)) false).1 rfl
  ⟨h.1, h.2.1 rfl, ((h.2.2.2 rfl).2.1 "etc/services.db".toList (by decide)).trans (by decide),
    ((h.2.2.2 rfl).2.2.2.1 rfl).trans (by decide)⟩


end Atheme
